import Mathlib

/-!
# binvox2bt: conversion of binvox voxel grids into one octree

A shallow embedding of `src/octomap/src/binvox2bt.cpp` (the function `main`).

Modelling conventions.

* `int` variables are `Int`; `/` and `%` of C++ are `Int.tdiv` and `Int.tmod`
  (truncation towards zero).  The products of `int` values, `width * height * depth`
  of line 206 and `width * height` of line 254, are reduced to 32 bits in two's
  complement (`wrap32`), as the compiled program does; an out-of-range `int` in the
  header is a failed extraction.  The sums `index + count` of line 242 are not
  reduced: they stay in the range of `int` unless `size` exceeds `2 ^ 31 - 256`.
* `unsigned` counters are `Nat` reduced modulo `2 ^ 32` after each update.
* `float` and `double` values are exact rationals (`ℚ`): rounding, infinities and NaN
  are not modelled.  A `float` in the header whose value rounds to infinity is a
  failed extraction, as in the program.
* `unsigned char` is `Fin 256`.
* An `ifstream` is the list of bytes not yet extracted together with the value of
  `good()`.  Once `good()` is false every further extraction is a no-op, as the
  sentry of the C++ stream library prescribes.
* The external `OcTree` object is represented by its constructor argument and the
  sequence of member functions called on it.
* Remainder by zero and member calls through a null pointer are undefined behaviour;
  they end the run with their own `Termination` value.
-/

namespace Binvox2bt

/-! ## Basic types -/

/-- Byte type of the program: `typedef unsigned char my_byte`. -/
abbrev my_byte := Fin 256

/-- Point of the octomap library: `octomap::point3d`, three coordinates. -/
structure point3d where
  x : ℚ
  y : ℚ
  z : ℚ
deriving DecidableEq, Repr

/-- Component-wise sum of two points: `endpoint += offset`. -/
def point3d.add (p q : point3d) : point3d :=
  ⟨p.x + q.x, p.y + q.y, p.z + q.z⟩

/-- Member functions called on the `OcTree` object, in the order of the calls. -/
inductive TreeCall where
  | updateNode (p : point3d) (occupied : Bool) (lazy_eval : Bool)
  | updateInnerOccupancy
  | prune
  | writeBinary (filename : String)
deriving DecidableEq, Repr

/-- The external `OcTree` object: the resolution given to its constructor and the
calls made on it so far. -/
structure OcTree where
  resolution : ℚ
  calls : List TreeCall
deriving DecidableEq, Repr

/-- The tree after further calls. -/
def OcTree.addCalls (t : OcTree) (cs : List TreeCall) : OcTree :=
  { t with calls := t.calls ++ cs }

/-- Observable events of a run other than calls on the tree. -/
inductive Event where
  | openInput (filename : String)
  | openFailed (filename : String)
  | newTree (res : ℚ)
  | report (nr_voxels : Nat) (nr_voxels_out : Nat)
deriving DecidableEq, Repr

/-- Ways in which `main` ends. -/
inductive Termination where
  | help
  | openFailed
  | badMagic
  | headerError
  | missingDimensions
  | overrun
  | divByZero
  | nullTree
  | noInputFiles
  | done
deriving DecidableEq, Repr

/-- Exit status of the process for each way of ending; `none` for undefined
behaviour.  Lines 101, 155, 169, 199, 203, 244, 300 and 308 of the source. -/
def exitStatus : Termination → Option Int
  | .help => some 0
  | .openFailed => some 1
  | .badMagic => some 0
  | .headerError => some 0
  | .missingDimensions => some 0
  | .overrun => some 0
  | .divByZero => none
  | .nullTree => none
  | .noInputFiles => some 1
  | .done => some 0

/-- Result of an arithmetic operation on `int` whose exact value is `n`: the value is
reduced modulo `2 ^ 32` into the range from `-2 ^ 31` to `2 ^ 31 - 1`. -/
def wrap32 (n : Int) : Int := (n + 2147483648) % 4294967296 - 2147483648

/-! ## Local variables of `main` -/

/-- Local variables of `main` that live across the loop over the arguments
(lines 62-80), and the events logged so far. -/
structure Locals where
  version : Int
  depth : Int
  height : Int
  width : Int
  tx : ℚ
  ty : ℚ
  tz : ℚ
  scale : ℚ
  mark_free : Bool
  rotate : Bool
  output_filename : String
  minX : ℚ
  minY : ℚ
  minZ : ℚ
  maxX : ℚ
  maxY : ℚ
  maxZ : ℚ
  applyBBX : Bool
  applyOffset : Bool
  offset : point3d
  tree : Option OcTree
  log : List Event
deriving DecidableEq, Repr

/-- Number of grid cells, line 206: `size = width * height * depth`, each product
reduced to 32 bits. -/
def Locals.size (v : Locals) : Int := wrap32 (wrap32 (v.width * v.height) * v.depth)

/-- Longest side of the grid, line 207. -/
def Locals.maxSide (v : Locals) : Int := max (max v.width v.height) v.depth

/-- Leaf resolution computed for a file, line 208: `double(scale)/double(maxSide)`. -/
def Locals.res (v : Locals) : ℚ := v.scale / (v.maxSide : ℚ)

/-! ## Voxel index, world point and bounding box (lines 251-269) -/

/-- Voxel index to voxel coordinates `(x, y, z)`, lines 252-254; the product
`width * height` is reduced to 32 bits. -/
def voxelCoords (width height i : Int) : Int × Int × Int :=
  let y := i.tmod width
  let z := (i.tdiv width).tmod height
  let x := i.tdiv (wrap32 (width * height))
  (x, y, z)

/-- World point of voxel `i`, lines 252-265.  `rot` stands for the library call
`endpoint.rotate_IP(M_PI_2, 0.0, 0.0)`. -/
def endpoint (rot : point3d → point3d) (v : Locals) (res : ℚ) (i : Int) : point3d :=
  let c := voxelCoords v.width v.height i
  let p0 : point3d :=
    ⟨(c.1 : ℚ) * res + v.tx + 1 / 1000000,
     (c.2.1 : ℚ) * res + v.ty + 1 / 1000000,
     (c.2.2 : ℚ) * res + v.tz + 1 / 1000000⟩
  let p1 := if v.rotate then rot p0 else p0
  if v.applyOffset then p1.add v.offset else p1

/-- Bounding-box test of lines 267-269. -/
def inBBX (v : Locals) (p : point3d) : Bool :=
  !v.applyBBX || (decide (p.x ≤ v.maxX) && decide (p.x ≥ v.minX)
               && decide (p.y ≤ v.maxY) && decide (p.y ≥ v.minY)
               && decide (p.z ≤ v.maxZ) && decide (p.z ≥ v.minZ))

/-! ## Reading the voxel data (lines 228-284) -/

/-- Variables of the voxel-data loop (lines 229-234) and the tree they update.
`pairs` and `visited` are history variables: the `(value, count)` pairs extracted so
far and the indices for which the body of the inner loop has run. -/
structure DataState where
  index : Int
  end_index : Int
  nr_voxels : Nat
  nr_voxels_out : Nat
  tree : OcTree
  pairs : List (my_byte × my_byte)
  visited : List Int
deriving DecidableEq, Repr

/-- State at line 234, before the first pair is read. -/
def DataState.init (t : OcTree) : DataState :=
  { index := 0, end_index := 0, nr_voxels := 0, nr_voxels_out := 0,
    tree := t, pairs := [], visited := [] }

/-- Body of the inner loop for voxel `i` (lines 246-277).  `none` is a remainder or
division by zero: `i % (size / 20)`, `i % width`, `(i / width) % height`,
`i / (width * height)`; a `height` of zero makes the product zero. -/
def voxelBody (rot : point3d → point3d) (v : Locals) (res : ℚ) (value : my_byte)
    (i : Int) (s : DataState) : Option DataState :=
  if v.size.tdiv 20 = 0 ∨ v.width = 0 ∨ wrap32 (v.width * v.height) = 0 then none
  else
    let p := endpoint rot v res i
    let s1 := { s with visited := s.visited ++ [i] }
    if inBBX v p then
      if v.mark_free || value == 1 then
        some { s1 with tree :=
          { s1.tree with calls := s1.tree.calls ++ [TreeCall.updateNode p (value == 1) true] } }
      else some s1
    else some { s1 with nr_voxels_out := (s1.nr_voxels_out + 1) % 2 ^ 32 }

/-- Inner loop `for(int i=index; i < end_index; i++)` of line 245, with `n` the number
of iterations left (`end_index - i`). -/
def voxelLoop (rot : point3d → point3d) (v : Locals) (res : ℚ) (value : my_byte) :
    Nat → Int → DataState → Option DataState
  | 0, _, s => some s
  | n + 1, i, s =>
    match voxelBody rot v res value i s with
    | none => none
    | some s1 => voxelLoop rot v res value n (i + 1) s1

/-- Reasons for which the voxel-data loop ends. -/
inductive LoopExit where
  | complete
  | exhausted
  | overrun
  | divByZero
deriving DecidableEq, Repr

/-- Outer loop `while((end_index < size) && input->good())` of lines 239-284 on the
bytes that are left in the stream.  `*input >> value >> count` leaves the stream good
exactly when two bytes are left; with fewer the stream is no longer good and the loop
ends. -/
def dataLoop (rot : point3d → point3d) (v : Locals) (res : ℚ) :
    List my_byte → DataState → LoopExit × DataState
  | value :: count :: rest, s =>
    if s.end_index < v.size then
      let s1 := { s with end_index := s.index + (count.val : Int),
                         pairs := s.pairs ++ [(value, count)] }
      if s1.end_index > v.size then (LoopExit.overrun, s1)
      else
        match voxelLoop rot v res value count.val s1.index s1 with
        | none => (LoopExit.divByZero, s1)
        | some s2 =>
          dataLoop rot v res rest
            { s2 with nr_voxels :=
                        if value ≠ 0 then (s2.nr_voxels + count.val) % 2 ^ 32
                        else s2.nr_voxels,
                      index := s2.end_index }
    else (LoopExit.complete, s)
  | _, s => if s.end_index < v.size then (LoopExit.exhausted, s) else (LoopExit.complete, s)

/-- Lines 229-284 after the leading byte has been skipped: the loop variables are
initialised and the voxel-data loop runs on the remaining bytes, updating tree `t`. -/
def readVoxels (rot : point3d → point3d) (v : Locals) (res : ℚ) (t : OcTree)
    (bytes : List my_byte) : LoopExit × DataState :=
  dataLoop rot v res bytes (DataState.init t)

/-! ## The input stream -/

/-- Input file stream: the bytes not yet extracted and the value of `good()`. -/
structure ifstream where
  buf : List my_byte
  good : Bool
deriving DecidableEq, Repr

/-- White space of the C locale: space, `\t`, `\n`, `\v`, `\f`, `\r`. -/
def isspace (c : my_byte) : Bool := c.val == 32 || (9 ≤ c.val && c.val ≤ 13)

/-- Decimal digit. -/
def isdigit (c : my_byte) : Bool := 48 ≤ c.val && c.val ≤ 57

/-- Bytes of a string of ASCII characters. -/
def bytesOf (s : String) : List my_byte := s.toList.map (fun c => Fin.ofNat c.toNat)

/-- Value of a sequence of decimal digits. -/
def digitsValue (ds : List my_byte) : Nat := ds.foldl (fun n c => 10 * n + (c.val - 48)) 0

/-- Sentry of a formatted extraction with `skipws` set: fails when the stream is not
good; otherwise skips white space and fails (stream no longer good) when the end of
the stream is met. -/
def sentry (s : ifstream) : Bool × ifstream :=
  if s.good then
    let b := s.buf.dropWhile isspace
    if b.isEmpty then (false, { buf := [], good := false })
    else (true, { buf := b, good := true })
  else (false, s)

/-- Extraction `*input >> line` of a string: the characters up to the next white space
or the end of the stream (which ends `good()`).  With a failed sentry `line` keeps its
value. -/
def extractString (line : List my_byte) (s : ifstream) : List my_byte × ifstream :=
  match sentry s with
  | (false, s1) => (line, s1)
  | (true, s1) =>
    let rest := s1.buf.dropWhile (fun c => !isspace c)
    (s1.buf.takeWhile (fun c => !isspace c), { buf := rest, good := !rest.isEmpty })

/-- Bytes left after an optional sign `+` (43) or `-` (45). -/
def dropSign (b : List my_byte) : List my_byte :=
  if b.head? = some 45 ∨ b.head? = some 43 then b.tail else b

/-- Extraction `*input >> n` of an `int` in decimal: optional sign and digits.  Without
a digit the extraction fails and stores 0; a value outside the range of `int` fails
and stores the nearest bound.  Meeting the end of the stream ends `good()`. -/
def extractInt (cur : Int) (s : ifstream) : Int × ifstream :=
  match sentry s with
  | (false, s1) => (cur, s1)
  | (true, s1) =>
    let b1 := dropSign s1.buf
    let ds := b1.takeWhile isdigit
    let rest := b1.dropWhile isdigit
    if ds.isEmpty then (0, { buf := rest, good := false })
    else
      let n : Int := if s1.buf.head? = some 45 then -(digitsValue ds : Int) else digitsValue ds
      if n > 2147483647 then (2147483647, { buf := rest, good := false })
      else if n < -2147483648 then (-2147483648, { buf := rest, good := false })
      else (n, { buf := rest, good := !rest.isEmpty })

/-- A run of decimal digits and the bytes after it. -/
def takeDigits (b : List my_byte) : List my_byte × List my_byte :=
  (b.takeWhile isdigit, b.dropWhile isdigit)

/-- An optional decimal point (46) with the digits after it, and the bytes left. -/
def takeFraction (b : List my_byte) : List my_byte × List my_byte :=
  if b.head? = some 46 then takeDigits b.tail else ([], b)

/-- An optional exponent, accepted only after a mantissa digit: the marker `e` (101)
or `E` (69), an optional sign and digits.  The result is whether the exponent is
negative and its digits, if the marker is there, and the bytes left. -/
def takeExponent (hasMant : Bool) (b : List my_byte) :
    Option (Bool × List my_byte) × List my_byte :=
  if hasMant = true ∧ (b.head? = some 101 ∨ b.head? = some 69) then
    (some (decide (b.tail.head? = some 45), (takeDigits (dropSign b.tail)).1),
     (takeDigits (dropSign b.tail)).2)
  else (none, b)

/-- Largest finite value of a `float`: `FLT_MAX`. -/
def fltMax : ℚ := 2 ^ 128 - 2 ^ 104

/-- Least magnitude that a `float` cannot hold: the midpoint of `FLT_MAX` and `2 ^ 128`,
from which on the nearest `float` is infinity. -/
def fltOverflow : ℚ := 2 ^ 128 - 2 ^ 103

/-- End of the extraction of a `float` whose digits have the magnitude `a`, with a
minus sign in front if `neg`: a magnitude that a `float` cannot hold stores `FLT_MAX`
with the sign and the extraction fails; otherwise the value is stored (exactly) and
the stream stays good unless its end was met. -/
def storeFloat (neg : Bool) (a : ℚ) (rest : List my_byte) : ℚ × ifstream :=
  if fltOverflow ≤ a then (if neg then -fltMax else fltMax, { buf := rest, good := false })
  else (if neg then -a else a, { buf := rest, good := !rest.isEmpty })

/-- Extraction `*input >> x` of a `float`: optional sign, digits, optional point and
digits, and, after a digit, an optional exponent.  The extraction fails and stores 0
when the mantissa has no digit or the exponent marker is not followed by digits; it
fails and stores `FLT_MAX` with the sign when the value is too large for a `float`.
Otherwise the value is the exact rational (no rounding). -/
def extractFloat (cur : ℚ) (s : ifstream) : ℚ × ifstream :=
  match sentry s with
  | (false, s1) => (cur, s1)
  | (true, s1) =>
    let ip := takeDigits (dropSign s1.buf)
    let fp := takeFraction ip.2
    let ex := takeExponent (!(ip.1.isEmpty && fp.1.isEmpty)) fp.2
    let m : ℚ := (digitsValue (ip.1 ++ fp.1) : ℚ) / (10 : ℚ) ^ fp.1.length
    match ex.1 with
    | none =>
      if ip.1.isEmpty && fp.1.isEmpty then (0, { buf := ex.2, good := false })
      else storeFloat (decide (s1.buf.head? = some 45)) m ex.2
    | some (eneg, ed) =>
      if ed.isEmpty then (0, { buf := ex.2, good := false })
      else
        let e : ℚ := if eneg then 1 / (10 : ℚ) ^ digitsValue ed else (10 : ℚ) ^ digitsValue ed
        storeFloat (decide (s1.buf.head? = some 45)) (m * e) ex.2

/-- Unformatted extraction `*input >> value` of one byte with `skipws` unset. -/
def extractByte (cur : my_byte) (s : ifstream) : my_byte × ifstream :=
  if s.good then
    match s.buf with
    | [] => (cur, { buf := [], good := false })
    | b :: rest => (b, { buf := rest, good := true })
  else (cur, s)

/-- Lines 191-193: `do { c = input->get(); } while(input->good() && (c != '\n'))`. -/
def skipLine (s : ifstream) : ifstream :=
  if s.good then
    match s.buf.dropWhile (fun c => c ≠ 10) with
    | [] => { buf := [], good := false }
    | _ :: rest => { buf := rest, good := true }
  else s

/-! ## The header (lines 163-204) -/

/-- Variables of the header loop. -/
structure HeaderState where
  line : List my_byte
  done : Bool
  input : ifstream
  v : Locals

/-- Body of the header loop, lines 177-195. -/
def headerStep (h : HeaderState) : HeaderState :=
  let r := extractString h.line h.input
  if r.1 = bytesOf "data" then { h with line := r.1, input := r.2, done := true }
  else if r.1 = bytesOf "dim" then
    let d := extractInt h.v.depth r.2
    let e := extractInt h.v.height d.2
    let w := extractInt h.v.width e.2
    { h with line := r.1, input := w.2,
             v := { h.v with depth := d.1, height := e.1, width := w.1 } }
  else if r.1 = bytesOf "translate" then
    let x := extractFloat h.v.tx r.2
    let y := extractFloat h.v.ty x.2
    let z := extractFloat h.v.tz y.2
    { h with line := r.1, input := z.2, v := { h.v with tx := x.1, ty := y.1, tz := z.1 } }
  else if r.1 = bytesOf "scale" then
    let x := extractFloat h.v.scale r.2
    { h with line := r.1, input := x.2, v := { h.v with scale := x.1 } }
  else { h with line := r.1, input := skipLine r.2 }

/-- Header loop `while(input->good() && !done)` of line 176, for at most `n`
iterations. -/
def headerLoop : Nat → HeaderState → HeaderState
  | 0, h => h
  | n + 1, h => if h.input.good && !h.done then headerLoop n (headerStep h) else h

/-! ## One input file (lines 151-289) -/

/-- What the program takes from outside: the contents of the files that can be
opened, the library functions `atof` and `rotate_IP(M_PI_2, 0, 0)`, and the
indeterminate initial values of the uninitialised variables of lines 62-66. -/
structure Env where
  files : String → Option (List my_byte)
  atof : String → ℚ
  rotate_IP : point3d → point3d
  version0 : Int
  depth0 : Int
  height0 : Int
  width0 : Int
  tx0 : ℚ
  ty0 : ℚ
  tz0 : ℚ
  scale0 : ℚ

/-- End of a run: how it ended and the variables at that point. -/
structure Result where
  term : Termination
  final : Locals
deriving DecidableEq, Repr

/-- Lines 210-213: the tree is created if there is none yet. -/
def ensureTree (v : Locals) (res : ℚ) : OcTree × Locals :=
  match v.tree with
  | none =>
    ({ resolution := res, calls := [] },
     { v with tree := some { resolution := res, calls := [] },
              log := v.log ++ [Event.newTree res] })
  | some t => (t, v)

/-- Lines 163-204: the header of a file with the given content is read into the
variables; the result is the variables and the stream after the `data` keyword, or
the end of the run. -/
def readHeader (content : List my_byte) (v : Locals) : Except Result (Locals × ifstream) :=
  let m := extractString [] { buf := content, good := true }
  if m.1 ≠ bytesOf "#binvox" then Except.error ⟨Termination.badMagic, v⟩
  else
    let ver := extractInt v.version m.2
    let h := headerLoop (ver.2.buf.length + 1)
      { line := m.1, done := false, input := ver.2,
        v := { v with version := ver.1, depth := -1 } }
    if !h.done then Except.error ⟨Termination.headerError, h.v⟩
    else if h.v.depth = -1 then Except.error ⟨Termination.missingDimensions, h.v⟩
    else Except.ok (h.v, h.input)

/-- The bytes on which the voxel-data loop runs: those left after the byte skipped at
line 237, or none when the stream is not good. -/
def payloadOf (input : ifstream) : List my_byte :=
  if (extractByte 0 input).2.good then (extractByte 0 input).2.buf else []

/-- Lines 206-289: the tree is created if needed, one byte is skipped, the voxel data
are read and the counts are reported. -/
def readData (env : Env) (v : Locals) (input : ifstream) : Except Result Locals :=
  let tv := ensureTree v v.res
  let r := readVoxels env.rotate_IP tv.2 v.res tv.1 (payloadOf input)
  match r.1 with
  | LoopExit.overrun =>
    Except.error ⟨Termination.overrun, { tv.2 with tree := some r.2.tree }⟩
  | LoopExit.divByZero =>
    Except.error ⟨Termination.divByZero, { tv.2 with tree := some r.2.tree }⟩
  | _ =>
    Except.ok { tv.2 with tree := some r.2.tree,
                          log := tv.2.log ++ [Event.report r.2.nr_voxels r.2.nr_voxels_out] }

/-- Lines 157-160: the file `name` has been opened; the output file name gets its
default value if it is still empty. -/
def afterOpen (name : String) (v : Locals) : Locals :=
  { v with log := v.log ++ [Event.openInput name],
           output_filename :=
             if v.output_filename = "" then name ++ ".bt" else v.output_filename }

/-- Lines 151-289 for the input file `name`: either the run ends (`Except.error`) or
the loop over the arguments goes on with the updated variables. -/
def processFile (env : Env) (name : String) (v : Locals) : Except Result Locals :=
  match env.files name with
  | none => Except.error ⟨Termination.openFailed,
      { v with log := v.log ++ [Event.openFailed name] }⟩
  | some content =>
    match readHeader content (afterOpen name v) with
    | Except.error e => Except.error e
    | Except.ok (hv, input) => readData env hv input

/-! ## The whole run (lines 60-309) -/

/-- Lines 292-308: propagate, prune and write the tree. -/
def finish (v : Locals) : Result :=
  match v.tree with
  | none => ⟨Termination.nullTree, v⟩
  | some t =>
    let t1 := t.addCalls [TreeCall.updateInnerOccupancy, TreeCall.prune]
    if v.output_filename = "" then ⟨Termination.noInputFiles, { v with tree := some t1 }⟩
    else ⟨Termination.done,
      { v with tree := some (t1.addCalls [TreeCall.writeBinary v.output_filename]) }⟩

/-- Lines 106-148: what the argument `a = argv[i]` does when it is an option, given
the arguments `rest = argv[i+1], ..., argv[argc-1]` that follow it: the updated
variables and the number of following arguments it consumes.  `none` when no option
branch applies, so that `a` is taken as an input file.  The tests `i < argc - 1`,
`i < argc - 7` and `i < argc - 4` say that at least 1, 7 and 4 arguments follow. -/
def parseOption (env : Env) (a : String) (rest : List String) (v : Locals) :
    Option (Locals × Nat) :=
  if a = "--mark-free" then some ({ v with mark_free := true }, 0)
  else if a = "--no-mark-free" then some ({ v with mark_free := false }, 0)
  else if a = "--rotate" then some ({ v with rotate := true }, 0)
  else if a = "-o" ∧ 1 ≤ rest.length then
    some ({ v with output_filename := rest.getD 0 "" }, 1)
  else if a = "--bb" ∧ 7 ≤ rest.length then
    some ({ v with minX := env.atof (rest.getD 0 ""), minY := env.atof (rest.getD 1 ""),
                   minZ := env.atof (rest.getD 2 ""), maxX := env.atof (rest.getD 3 ""),
                   maxY := env.atof (rest.getD 4 ""), maxZ := env.atof (rest.getD 5 ""),
                   applyBBX := true }, 6)
  else if a = "--offset" ∧ 4 ≤ rest.length then
    some ({ v with offset := ⟨env.atof (rest.getD 0 ""), env.atof (rest.getD 1 ""),
                              env.atof (rest.getD 2 "")⟩,
                   applyOffset := true }, 3)
  else none

/-- Loop over the arguments, lines 104-290, followed by lines 292-308.  The head of
the list is `argv[i]` and the list ends at `argv[argc-1]`; `skip` counts the arguments
still to be passed over because an option has consumed them (the `i++` of lines
116-142). -/
def mainLoop (env : Env) : List String → Nat → Locals → Result
  | [], _, v => finish v
  | _ :: rest, skip + 1, v => mainLoop env rest skip v
  | a :: rest, 0, v =>
    match parseOption env a rest v with
    | some (v1, k) => mainLoop env rest k v1
    | none =>
      match processFile env a v with
      | Except.error e => e
      | Except.ok v1 => mainLoop env rest 0 v1

/-- Arguments that make the program show its usage text, lines 84-86. -/
def isHelp (a : String) : Bool :=
  a = "--help" || a = "-help" || a = "--usage" || a = "-usage" || a = "-h"

/-- Values of the local variables at line 80: the initialised ones as the source
gives them, the others indeterminate. -/
def initLocals (env : Env) : Locals :=
  { version := env.version0, depth := env.depth0, height := env.height0,
    width := env.width0, tx := env.tx0, ty := env.ty0, tz := env.tz0, scale := env.scale0,
    mark_free := false, rotate := false, output_filename := "",
    minX := 0, minY := 0, minZ := 0, maxX := 0, maxY := 0, maxZ := 0,
    applyBBX := false, applyOffset := false, offset := ⟨0, 0, 0⟩,
    tree := none, log := [] }

/-- The function `main`, with `args` the arguments `argv[1], ..., argv[argc-1]`. -/
def main (env : Env) (args : List String) : Result :=
  if args.isEmpty || args.any isHelp then ⟨Termination.help, initLocals env⟩
  else mainLoop env args 0 (initLocals env)

/-! ## Functions used to state the properties -/

/-- Recomposition of a linear index from voxel coordinates, as the specification
writes it: `x*(width*height) + z*width + y`. -/
def recompose (width height : Int) (c : Int × Int × Int) : Int :=
  c.1 * (width * height) + c.2.2 * width + c.2.1

/-- The complete `(value, count)` pairs of a payload, in order; a last odd byte is
not a pair. -/
def pairsOfBytes : List my_byte → List (my_byte × my_byte)
  | value :: count :: rest => (value, count) :: pairsOfBytes rest
  | _ => []

/-- Sum of the counts of a list of pairs. -/
def countSum : List (my_byte × my_byte) → Nat
  | [] => 0
  | p :: ps => p.2.val + countSum ps

/-- The values that a list of pairs assigns to consecutive linear indices: each pair
stands for `count` cells holding `value`. -/
def expand : List (my_byte × my_byte) → List my_byte
  | [] => []
  | p :: ps => List.replicate p.2.val p.1 ++ expand ps

/-- The calls made on the tree for voxel `i` holding `value` (lines 267-274): one
`updateNode` when the point passes the box test and `mark_free || value == 1`. -/
def voxelCall (rot : point3d → point3d) (v : Locals) (res : ℚ) (value : my_byte)
    (i : Int) : List TreeCall :=
  if inBBX v (endpoint rot v res i) && (v.mark_free || value == 1) then
    [TreeCall.updateNode (endpoint rot v res i) (value == 1) true]
  else []

/-- The calls made on the tree for consecutive voxels starting at index `i` that hold
the given values. -/
def valuesCalls (rot : point3d → point3d) (v : Locals) (res : ℚ) :
    List my_byte → Int → List TreeCall
  | [], _ => []
  | value :: vs, i => voxelCall rot v res value i ++ valuesCalls rot v res vs (i + 1)

/-- The indices `i, i+1, ..., i+n-1`. -/
def indicesFrom (i : Int) (n : Nat) : List Int :=
  List.map (fun (k : Nat) => i + (k : Int)) (List.range n)

/-- What a run of the voxel-data loop from state `s` on `bytes` achieves. -/
def DecodeSpec (rot : point3d → point3d) (v : Locals) (res : ℚ) (bytes : List my_byte)
    (s : DataState) (r : LoopExit × DataState) : Prop :=
  ∃ new rest done : List (my_byte × my_byte),
    r.2.pairs = s.pairs ++ new ∧
    pairsOfBytes bytes = new ++ rest ∧
    (∀ q a q2, new = q ++ a :: q2 → s.index + (countSum q : Int) < v.size) ∧
    r.2.index = s.index + (countSum done : Int) ∧
    r.2.visited = s.visited ++ indicesFrom s.index (countSum done) ∧
    r.2.tree = { s.tree with
      calls := s.tree.calls ++ valuesCalls rot v res (expand done) s.index } ∧
    ((v.size.tdiv 20 = 0 ∨ v.width = 0 ∨ wrap32 (v.width * v.height) = 0) → countSum done = 0) ∧
    (r.1 = LoopExit.complete →
      done = new ∧ r.2.end_index = r.2.index ∧ ¬ r.2.index < v.size ∧
      (new ≠ [] → r.2.index ≤ v.size)) ∧
    (r.1 = LoopExit.exhausted →
      done = new ∧ r.2.end_index = r.2.index ∧ r.2.index < v.size ∧ rest = []) ∧
    (r.1 = LoopExit.overrun →
      ∃ a, new = done ++ [a] ∧ r.2.end_index = r.2.index + (a.2.val : Int) ∧
        v.size < r.2.end_index) ∧
    (r.1 = LoopExit.divByZero →
      ∃ a, new = done ++ [a] ∧ r.2.end_index = r.2.index + (a.2.val : Int) ∧
        r.2.end_index ≤ v.size ∧ 0 < a.2.val ∧
        (v.size.tdiv 20 = 0 ∨ v.width = 0 ∨ wrap32 (v.width * v.height) = 0))

/-! ## Reading the outcome of a run -/

/-- The resolutions of the trees created, in order: the `new OcTree(res)` of line 212. -/
def newTrees : List Event → List ℚ
  | [] => []
  | Event.newTree r :: es => r :: newTrees es
  | _ :: es => newTrees es

/-- The names of the files the program has tried to open (line 152), in order. -/
def opened : List Event → List String
  | [] => []
  | Event.openInput f :: es => f :: opened es
  | Event.openFailed f :: es => f :: opened es
  | _ :: es => opened es

/-- The call is an `updateNode`: not one of the calls of lines 294-305. -/
def TreeCall.isUpdateNode : TreeCall → Bool
  | TreeCall.updateNode _ _ _ => true
  | _ => false

/-- The calls made so far on the tree; none when there is no tree. -/
def Locals.treeCalls (v : Locals) : List TreeCall :=
  match v.tree with
  | none => []
  | some t => t.calls

/-- The fatal errors of an input file: it cannot be opened, the magic string is wrong,
the header ends without `data`, the dimensions are missing, or the payload runs past
`size`. -/
def Termination.isFatalError : Termination → Bool
  | Termination.openFailed => true
  | Termination.badMagic => true
  | Termination.headerError => true
  | Termination.missingDimensions => true
  | Termination.overrun => true
  | _ => false

/-- The variables with which the run goes on, or ends, after an input file. -/
def outLocals : Except Result Locals → Locals
  | Except.error e => e.final
  | Except.ok v => v

/-- The result is the error `e`. -/
def isError (x : Except Result Locals) (e : Result) : Bool :=
  match x with
  | Except.error e1 => decide (e1 = e)
  | Except.ok _ => false

/-- The variables that the header of a file does not set are the same in `v` and `w`. -/
def SameOutsideHeader (v w : Locals) : Prop :=
  w.mark_free = v.mark_free ∧ w.rotate = v.rotate ∧
  w.output_filename = v.output_filename ∧
  w.minX = v.minX ∧ w.minY = v.minY ∧ w.minZ = v.minZ ∧
  w.maxX = v.maxX ∧ w.maxY = v.maxY ∧ w.maxZ = v.maxZ ∧
  w.applyBBX = v.applyBBX ∧ w.applyOffset = v.applyOffset ∧ w.offset = v.offset ∧
  w.tree = v.tree ∧ w.log = v.log

/-- How an input file changes the tree: it stays absent, or it receives `updateNode`
calls, or it is created with the resolution computed from the file and then receives
`updateNode` calls. -/
def TreeStep (v w : Locals) : Prop :=
  ∃ cs : List TreeCall, (∀ c ∈ cs, c.isUpdateNode = true) ∧
    ((∃ t, v.tree = some t ∧ w.tree = some (t.addCalls cs) ∧
        newTrees w.log = newTrees v.log) ∨
     (v.tree = none ∧ w.tree = none ∧ newTrees w.log = newTrees v.log) ∨
     (v.tree = none ∧ w.tree = some ((OcTree.mk w.res []).addCalls cs) ∧
        newTrees w.log = newTrees v.log ++ [w.res]))

/-! ## The command line as the loop over the arguments reads it -/

/-- What an argument of the command line is taken for by lines 106-152: an option
together with the arguments it consumes, or an input file. -/
inductive Item where
  | markFree
  | noMarkFree
  | rotate
  | output (name : String)
  | bb (minX minY minZ maxX maxY maxZ : String)
  | offset (x y z : String)
  | file (name : String)
deriving DecidableEq, Repr

/-- The tests of lines 106-148 on the argument `a` followed by the arguments `rest`:
the option recognised and the number of following arguments it consumes; `none` when
`a` is taken as an input file. -/
def optionItem (a : String) (rest : List String) : Option (Item × Nat) :=
  if a = "--mark-free" then some (Item.markFree, 0)
  else if a = "--no-mark-free" then some (Item.noMarkFree, 0)
  else if a = "--rotate" then some (Item.rotate, 0)
  else if a = "-o" ∧ 1 ≤ rest.length then some (Item.output (rest.getD 0 ""), 1)
  else if a = "--bb" ∧ 7 ≤ rest.length then
    some (Item.bb (rest.getD 0 "") (rest.getD 1 "") (rest.getD 2 "") (rest.getD 3 "")
      (rest.getD 4 "") (rest.getD 5 ""), 6)
  else if a = "--offset" ∧ 4 ≤ rest.length then
    some (Item.offset (rest.getD 0 "") (rest.getD 1 "") (rest.getD 2 ""), 3)
  else none

/-- The options and input files of a command line in the order in which the loop over
the arguments meets them; `skip` as in `mainLoop`. -/
def items : List String → Nat → List Item
  | [], _ => []
  | _ :: rest, skip + 1 => items rest skip
  | a :: rest, 0 =>
    match optionItem a rest with
    | some (it, k) => it :: items rest k
    | none => Item.file a :: items rest 0

/-- The assignments that an option makes (lines 107-146); an input file is not an
option and assigns nothing here. -/
def applyItem (env : Env) (it : Item) (v : Locals) : Locals :=
  match it with
  | Item.markFree => { v with mark_free := true }
  | Item.noMarkFree => { v with mark_free := false }
  | Item.rotate => { v with rotate := true }
  | Item.output name => { v with output_filename := name }
  | Item.bb x0 y0 z0 x1 y1 z1 =>
    { v with minX := env.atof x0, minY := env.atof y0, minZ := env.atof z0,
             maxX := env.atof x1, maxY := env.atof y1, maxZ := env.atof z1,
             applyBBX := true }
  | Item.offset x y z =>
    { v with offset := ⟨env.atof x, env.atof y, env.atof z⟩, applyOffset := true }
  | Item.file _ => v

/-- The item is an input file. -/
def Item.isFile : Item → Bool
  | Item.file _ => true
  | _ => false

/-! ## Counting the calls on the tree -/

/-- Number of calls `updateNode(_, true, _)` in a list of calls. -/
def occupiedUpdates (cs : List TreeCall) : Nat :=
  (cs.filter (fun c => match c with
    | TreeCall.updateNode _ true _ => true
    | _ => false)).length

/-- Number of calls `updateNode(_, false, _)` in a list of calls. -/
def freeUpdates (cs : List TreeCall) : Nat :=
  (cs.filter (fun c => match c with
    | TreeCall.updateNode _ false _ => true
    | _ => false)).length

/-- One call `updateNode(point, true, true)` for each of the consecutive indices
`i, i+1, ...` that holds the value 1, in increasing order of the indices. -/
def occupiedCalls (rot : point3d → point3d) (v : Locals) (res : ℚ) (vals : List my_byte)
    (i : Int) : List TreeCall :=
  ((indicesFrom i vals.length).zip vals).filterMap (fun p =>
    if p.2 = 1 then some (TreeCall.updateNode (endpoint rot v res p.1) true true) else none)

/-! ## Runs with and without the bounding box -/

/-- The option values with which an input file is processed: `mark_free`, `rotate`, the
bounding box `(minX, minY, minZ, maxX, maxY, maxZ)` if one is applied, and the offset if
one is applied. -/
structure Options where
  mark_free : Bool
  rotate : Bool
  bbx : Option (ℚ × ℚ × ℚ × ℚ × ℚ × ℚ)
  offset : Option point3d
deriving DecidableEq, Repr

/-- The option values held by the variables of `main`. -/
def Locals.options (v : Locals) : Options :=
  { mark_free := v.mark_free,
    rotate := v.rotate,
    bbx := if v.applyBBX then some (v.minX, v.minY, v.minZ, v.maxX, v.maxY, v.maxZ) else none,
    offset := if v.applyOffset then some v.offset else none }

/-- The input files that the loop over the arguments (lines 104-290) opens, each with
the variables at the moment it is opened (line 152).  The recursion is the one of
`mainLoop`. -/
def fileCalls (env : Env) : List String → Nat → Locals → List (String × Locals)
  | [], _, _ => []
  | _ :: rest, skip + 1, v => fileCalls env rest skip v
  | a :: rest, 0, v =>
    match parseOption env a rest v with
    | some (v1, k) => fileCalls env rest k v1
    | none =>
      (a, v) :: (match processFile env a v with
        | Except.error _ => []
        | Except.ok v1 => fileCalls env rest 0 v1)

/-- The item is `--mark-free` or `--no-mark-free`. -/
def Item.isMark : Item → Bool
  | Item.markFree => true
  | Item.noMarkFree => true
  | _ => false

/-- The box given by a `--bb` item, its six arguments converted by `atof`. -/
def Item.box (env : Env) : Item → Option (ℚ × ℚ × ℚ × ℚ × ℚ × ℚ)
  | Item.bb x0 y0 z0 x1 y1 z1 =>
    some (env.atof x0, env.atof y0, env.atof z0, env.atof x1, env.atof y1, env.atof z1)
  | _ => none

/-- The offset given by an `--offset` item, its three arguments converted by `atof`. -/
def Item.shift (env : Env) : Item → Option point3d
  | Item.offset x y z => some ⟨env.atof x, env.atof y, env.atof z⟩
  | _ => none

/-- The option values established by a sequence of items: `mark_free` is set iff the
last of the items `--mark-free` / `--no-mark-free` is `--mark-free`, `rotate` iff there
is a `--rotate`, and the box and the offset are those of the last `--bb` and the last
`--offset`, if any. -/
def optionsAfter (env : Env) (its : List Item) : Options :=
  { mark_free := (its.filter Item.isMark).getLast? = some Item.markFree,
    rotate := Item.rotate ∈ its,
    bbx := (its.filterMap (Item.box env)).getLast?,
    offset := (its.filterMap (Item.shift env)).getLast? }

/-- The input files among the items `its`, each with the option values established by
the items before it, `pre` being the items that come before `its`. -/
def filesWithOptions (env : Env) : List Item → List Item → List (String × Options)
  | _, [] => []
  | pre, Item.file name :: its =>
    (name, optionsAfter env pre) :: filesWithOptions env (pre ++ [Item.file name]) its
  | pre, it :: its => filesWithOptions env (pre ++ [it]) its

/-! ## The name of the output file -/

/-- The argument of an `-o` item. -/
def Item.outputName : Item → Option String
  | Item.output name => some name
  | _ => none

/-- The argument of the last `-o` among the items and the items after it; `none` when
there is no `-o`. -/
def splitLastOutput : List Item → Option (String × List Item)
  | [] => none
  | it :: its =>
    match splitLastOutput its with
    | some r => some r
    | none => it.outputName.map (fun name => (name, its))

/-- The first input file among the items. -/
def firstFile : List Item → Option String
  | [] => none
  | Item.file name :: _ => some name
  | _ :: its => firstFile its

/-- The output path as the specification gives it: the argument of the last `-o`, or
without `-o` the first input file with `.bt` appended. -/
def claimedOutput (its : List Item) : Option String :=
  match splitLastOutput its with
  | some (name, _) => some name
  | none => (firstFile its).map (fun f => f ++ ".bt")

/-- The output path that the program uses: the argument of the last `-o` when it is not
empty; otherwise the first input file that follows the last `-o`, or the first input
file of all when there is no `-o`, with `.bt` appended. -/
def outputPath (its : List Item) : Option String :=
  match splitLastOutput its with
  | some (name, after) =>
    if name ≠ "" then some name else (firstFile after).map (fun f => f ++ ".bt")
  | none => (firstFile its).map (fun f => f ++ ".bt")

/-- The value of `output_filename` after the items `its`, from the value `cur`: `-o`
assigns it (line 118) and an input file gives it its default when it is empty (lines
157-160). -/
def nameAfter : List Item → String → String
  | [], cur => cur
  | Item.output name :: its, _ => nameAfter its name
  | Item.file name :: its, cur => nameAfter its (if cur = "" then name ++ ".bt" else cur)
  | _ :: its, cur => nameAfter its cur

/-! ## The header as the header loop reads it -/

/-- The first token of a byte stream: the bytes between the leading white space and the
next white space. -/
def firstToken (content : List my_byte) : List my_byte :=
  (content.dropWhile isspace).takeWhile (fun c => !isspace c)

/-- The variables of the header loop when it is entered (line 176): the magic string
and the version have been extracted and `depth` is `-1`. -/
def headerStart (content : List my_byte) (v : Locals) : HeaderState :=
  { line := (extractString [] { buf := content, good := true }).1,
    done := false,
    input := (extractInt v.version (extractString [] { buf := content, good := true }).2).2,
    v := { v with
      version := (extractInt v.version (extractString [] { buf := content, good := true }).2).1,
      depth := -1 } }

/-- The variables of the header loop when it is left (line 197). -/
def headerEnd (content : List my_byte) (v : Locals) : HeaderState :=
  headerLoop ((headerStart content v).input.buf.length + 1) (headerStart content v)

/-- The values that `line` takes at `*input >> line` (line 178) in the iterations of the
header loop, in order: the keywords that the loop reads. -/
def headerLines : Nat → HeaderState → List (List my_byte)
  | 0, _ => []
  | n + 1, h =>
    if h.input.good && !h.done then (headerStep h).line :: headerLines n (headerStep h)
    else []

/-- The keywords that the header loop reads in a file with the given content. -/
def keywordsRead (content : List my_byte) (v : Locals) : List (List my_byte) :=
  headerLines ((headerStart content v).input.buf.length + 1) (headerStart content v)

/-! ## A line inserted in the header -/

/-- The line `tok ++ sp ++ [10]` is a line that the header loop skips: it ends at its
first newline, and it starts with the token `tok`, which is none of the keywords
`data`, `dim`, `translate`, `scale`; `sp` is the rest of the line. -/
def UnknownLine (tok sp : List my_byte) : Prop :=
  tok ≠ [] ∧ (∀ a ∈ tok, isspace a = false) ∧
  tok ≠ bytesOf "data" ∧ tok ≠ bytesOf "dim" ∧
  tok ≠ bytesOf "translate" ∧ tok ≠ bytesOf "scale" ∧
  (∀ a ∈ sp, a ≠ 10) ∧ (∀ a ∈ sp.head?, isspace a = true)

/-- The bytes are none, or they end with white space. -/
def Guarded (p : List my_byte) : Prop :=
  p = [] ∨ ∃ p0 g, p = p0 ++ [g] ∧ isspace g = true

/-- Two states of the header loop, one in a file and one in the same file with the line
`tok ++ sp ++ [10]` inserted in front of the keyword `data` that is followed by `post`:
the loops are not done, the variables agree, and the same bytes `p`, empty or ending
with white space, are left in front of the keyword and in front of the inserted line. -/
def InsertRel (tok sp post : List my_byte) (h h' : HeaderState) : Prop :=
  ∃ p, Guarded p ∧
    h.input = { buf := p ++ (bytesOf "data" ++ post), good := true } ∧
    h'.input = { buf := p ++ (tok ++ sp ++ 10 :: (bytesOf "data" ++ post)), good := true } ∧
    h'.v = h.v ∧ h.done = false ∧ h'.done = false

/-- A state of the header loop from which the loop cannot end with `done` set and
exactly `post` left in the stream. -/
def DeadEnd (post : List my_byte) (h : HeaderState) : Prop :=
  (h.done = false ∧ h.input.good = false) ∨ h.input.buf.length < post.length ∨
  (h.done = true ∧ post.length < h.input.buf.length)

/-! ## Sample data used to instantiate the theorems -/

/-- Sample variables: a `4 x 5 x 1` grid of 20 cells with scale 5 (resolution 1),
no translation, `mark_free` off, and the box `[0,10] x [0,2] x [0,10]` applied. -/
def sampleLocals : Locals :=
  { version := 1, depth := 1, height := 5, width := 4,
    tx := 0, ty := 0, tz := 0, scale := 5,
    mark_free := false, rotate := false, output_filename := "",
    minX := 0, minY := 0, minZ := 0, maxX := 10, maxY := 2, maxZ := 10,
    applyBBX := true, applyOffset := false, offset := ⟨0, 0, 0⟩,
    tree := none, log := [] }

/-- Sample tree of resolution 1 without calls. -/
def sampleTree : OcTree := { resolution := 1, calls := [] }

/-- State after the loop body has run for voxel 0 with value 1 from the initial state
on the sample grid: the voxel is inside the box and one call is made. -/
def sampleAfter0 : DataState :=
  { DataState.init sampleTree with
    visited := [0],
    tree := { resolution := 1,
              calls := [TreeCall.updateNode ⟨1 / 1000000, 1 / 1000000, 1 / 1000000⟩ true true] } }

/-- State after the loop body has run for voxel 3 with value 1 from the initial state
on the sample grid: the voxel is outside the box (`y = 3 + 1/1000000 > 2`). -/
def sampleAfter3 : DataState :=
  { DataState.init sampleTree with visited := [3], nr_voxels_out := 1 }

/-- A binvox file of the 20-cell sample grid: header and the payload `(1,3), (0,17)`. -/
def sampleFile : List my_byte :=
  bytesOf "#binvox 1\ndim 1 5 4\ntranslate 0 0 0\nscale 5\ndata\n" ++ [1, 3, 0, 17]

/-- A second file of the same grid with scale 10 and the payload `(1,1), (0,19)`. -/
def sampleFile2 : List my_byte :=
  bytesOf "#binvox 1\ndim 1 5 4\ntranslate 0 0 0\nscale 10\ndata\n" ++ [1, 1, 0, 19]

/-- A file whose first token is not `#binvox`. -/
def badMagicFile : List my_byte := bytesOf "binvox 1\ndim 1 5 4\ndata\n"

/-- A file whose header ends without the `data` keyword. -/
def noDataFile : List my_byte := bytesOf "#binvox 1\ndim 1 5 4\nscale 5\n"

/-- A file whose header reaches `data` without dimensions. -/
def noDimFile : List my_byte := bytesOf "#binvox 1\nscale 5\ndata\n" ++ [1, 3]

/-- A file of the 20-cell grid whose payload `(1,3), (0,18)` runs past `size`. -/
def overrunFile : List my_byte :=
  bytesOf "#binvox 1\ndim 1 5 4\ntranslate 0 0 0\nscale 5\ndata\n" ++ [1, 3, 0, 18]

/-- Sample environment: the sample files, numbers of the command line all read as 0,
no rotation. -/
def sampleEnv : Env :=
  { files := fun name =>
      if name = "a.binvox" then some sampleFile
      else if name = "b.binvox" then some sampleFile2
      else if name = "bad.binvox" then some badMagicFile
      else if name = "nodata.binvox" then some noDataFile
      else if name = "nodim.binvox" then some noDimFile
      else if name = "overrun.binvox" then some overrunFile
      else none,
    atof := fun _ => 0,
    rotate_IP := id,
    version0 := 0, depth0 := 0, height0 := 0, width0 := 0,
    tx0 := 0, ty0 := 0, tz0 := 0, scale0 := 0 }

/-- The variables after the first sample file has been processed from the initial
state. -/
def sampleAfterFile : Locals :=
  outLocals (processFile sampleEnv "a.binvox" (initLocals sampleEnv))

/-- End of the run on the file with the wrong magic string, from the initial state. -/
def sampleBadMagic : Result :=
  ⟨Termination.badMagic, afterOpen "bad.binvox" (initLocals sampleEnv)⟩

/-- A binvox file of the grid `2 x 2 x 2` (8 cells) with scale 2 (resolution 1) and the
payload `(1,4), (0,4)`. -/
def smallFile : List my_byte :=
  bytesOf "#binvox 1\ndim 2 2 2\ntranslate 0 0 0\nscale 2\ndata\n" ++ [1, 4, 0, 4]

/-- Environment in which `small.binvox` is the file of the `2 x 2 x 2` grid; numbers of
the command line are read as 0 except `0.5` and `2`. -/
def smallEnv : Env :=
  { sampleEnv with
    files := fun name => if name = "small.binvox" then some smallFile else none,
    atof := fun s => if s = "0.5" then 1 / 2 else if s = "2" then 2 else 0 }

/-- The variables after the header of the `2 x 2 x 2` grid has been read, with the box
`[0,2] x [0.5,2] x [0,2]` applied and `mark_free` off. -/
def smallLocals : Locals :=
  { sampleLocals with
    depth := 2, height := 2, width := 2, scale := 2,
    minX := 0, minY := 1 / 2, minZ := 0, maxX := 2, maxY := 2, maxZ := 2 }

/-- A file whose header gives the depth `-1`. -/
def minusOneFile : List my_byte := bytesOf "#binvox 1\ndim -1 5 4\ndata\n" ++ [1, 3]

/-- The header of the sample file up to the line `scale 5`, without the newline that
ends that line. -/
def sampleHeaderLines : List my_byte :=
  bytesOf "#binvox 1\ndim 1 5 4\ntranslate 0 0 0\nscale 5"

/-- What follows the keyword `data` in the sample file: a newline and the payload. -/
def samplePost : List my_byte := [10, 1, 3, 0, 17]

/-- The variables after the header line `dim 2 65537 65537`: `width * height` does not
fit in `int`. -/
def wideLocals : Locals := { sampleLocals with depth := 2, height := 65537, width := 65537 }

/-- The variables after the header line `dim 65534 65535 65536`. -/
def hugeLocals : Locals :=
  { sampleLocals with depth := 65534, height := 65535, width := 65536 }

/-- The variables after the header line `dim 1 1431655766 3`, without bounding box. -/
def wrapLocals : Locals :=
  { sampleLocals with depth := 1, height := 1431655766, width := 3, applyBBX := false }

/-- A file whose scale is too large for a `float`. -/
def overflowFile : List my_byte :=
  bytesOf "#binvox 1\ndim 1 5 4\nscale 1e50\ndata\n" ++ [1, 3, 0, 17]

/-- A file whose second dimension is not a number. -/
def badDimFile : List my_byte := bytesOf "#binvox 1\ndim 1 x 4\ndata\n" ++ [1, 3, 0, 17]

/-! # Theorems -/

/-! ## Index decomposition -/

/-- A value in the range of `int` is not changed by the reduction to 32 bits. -/
theorem wrap32_of_range (n : Int) (h1 : -2147483648 ≤ n) (h2 : n ≤ 2147483647) :
    wrap32 n = n := by
  unfold wrap32
  omega

/-- On non-negative integers whose product `w * h` fits in `int`, the truncating
decomposition is the one of the natural numbers. -/
theorem voxelCoords_natCast (w h i : Nat) (hfit : w * h ≤ 2147483647) :
    voxelCoords (w : Int) (h : Int) (i : Int)
      = (((i / (w * h) : Nat) : Int), ((i % w : Nat) : Int), (((i / w) % h : Nat) : Int)) := by
  have h0 : (0 : Int) ≤ (i : Int) := Int.ofNat_nonneg i
  have hw0 : (0 : Int) ≤ (w : Int) := Int.ofNat_nonneg w
  have hh0 : (0 : Int) ≤ (h : Int) := Int.ofNat_nonneg h
  have hwh : (0 : Int) ≤ (w : Int) * (h : Int) := Int.mul_nonneg hw0 hh0
  have hq : (0 : Int) ≤ (i : Int) / (w : Int) := Int.ediv_nonneg h0 hw0
  have hfit2 : (w : Int) * (h : Int) ≤ 2147483647 := by exact_mod_cast hfit
  simp only [voxelCoords]
  rw [wrap32_of_range _ (by omega) hfit2]
  rw [Int.tmod_eq_emod h0 hw0, Int.tdiv_eq_ediv h0 hw0, Int.tmod_eq_emod hq hh0,
    Int.tdiv_eq_ediv h0 hwh]
  norm_cast

/-- With `d ≥ 1` the product `w * h` is at most `w * h * d`. -/
theorem mul_le_of_fit (w h d : Nat) (hd : 1 ≤ d) (hfit : w * h * d ≤ 2147483647) :
    w * h ≤ 2147483647 :=
  le_trans (Nat.le_mul_of_pos_right _ (by omega)) hfit

/-- C1 (amended): for a grid with `width, height, depth ≥ 1` whose number of cells
`width * height * depth` fits in `int`, and a linear index `0 ≤ i < size`, decomposing
`i` into `(x, y, z)` as lines 252-254 do and recomposing
`x*(width*height) + z*width + y` gives `i` back. -/
theorem voxelCoords_roundtrip (width height depth i : Int)
    (hw : 1 ≤ width) (hh : 1 ≤ height) (hd : 1 ≤ depth)
    (h0 : 0 ≤ i) (_hi : i < width * height * depth)
    (hfit : width * height * depth ≤ 2147483647) :
    recompose width height (voxelCoords width height i) = i := by
  obtain ⟨w, rfl⟩ := Int.eq_ofNat_of_zero_le (show (0 : Int) ≤ width by omega)
  obtain ⟨h, rfl⟩ := Int.eq_ofNat_of_zero_le (show (0 : Int) ≤ height by omega)
  obtain ⟨d, rfl⟩ := Int.eq_ofNat_of_zero_le (show (0 : Int) ≤ depth by omega)
  obtain ⟨n, rfl⟩ := Int.eq_ofNat_of_zero_le h0
  have hd1 : 1 ≤ d := by exact_mod_cast hd
  have hfit1 : w * h * d ≤ 2147483647 := by exact_mod_cast hfit
  rw [voxelCoords_natCast w h n (mul_le_of_fit w h d hd1 hfit1)]
  simp only [recompose]
  have e1 := Nat.mod_add_div n w
  have e2 := Nat.mod_add_div (n / w) h
  have e3 := Nat.div_div_eq_div_mul n w h
  have key : n / (w * h) * (w * h) + n / w % h * w + n % w = n := by
    rw [← e3]
    nlinarith [e1, e2]
  exact_mod_cast key

/-- Witness of C1 (amended) on the grid `2 x 3 x 4` at index `17`. -/
theorem voxelCoords_roundtrip_witness :
    recompose 2 3 (voxelCoords 2 3 17) = 17 :=
  voxelCoords_roundtrip 2 3 4 17 (by decide) (by decide) (by decide) (by decide) (by decide)
    (by decide)

/-- C1 fails on the code: with the header line `dim 2 65537 65537` the product
`width * height` of line 254 is `131073` in 32 bits and `size` is `262146`.  The index
`131073` is below `size`, and lines 252-254 give it the coordinates
`(x, y, z) = (1, 65536, 1)`, which recompose to another index, with the exact product
and with the product in 32 bits alike. -/
theorem voxelCoords_roundtrip_overflow :
    (1 ≤ wideLocals.width ∧ 1 ≤ wideLocals.height ∧ 1 ≤ wideLocals.depth) ∧
    wideLocals.size = 262146 ∧ (0 : Int) ≤ 131073 ∧ (131073 : Int) < wideLocals.size ∧
    (131073 : Int) < wideLocals.width * wideLocals.height * wideLocals.depth ∧
    voxelCoords wideLocals.width wideLocals.height 131073 = (1, 65536, 1) ∧
    recompose wideLocals.width wideLocals.height
      (voxelCoords wideLocals.width wideLocals.height 131073) ≠ 131073 ∧
    1 * wrap32 (wideLocals.width * wideLocals.height) + 1 * wideLocals.width + 65536
      ≠ (131073 : Int) := by
  decide

/-! ## Bounding-box filter -/

/-- C5: without a configured box every point is accepted; with a box a point is
accepted iff `min ≤ coord ≤ max` on each of the three axes, both ends included. -/
theorem inBBX_spec (v : Locals) (p : point3d) :
    (v.applyBBX = false → inBBX v p = true) ∧
    (v.applyBBX = true →
      (inBBX v p = true ↔
        (v.minX ≤ p.x ∧ p.x ≤ v.maxX) ∧ (v.minY ≤ p.y ∧ p.y ≤ v.maxY) ∧
        (v.minZ ≤ p.z ∧ p.z ≤ v.maxZ))) := by
  constructor
  · intro h
    simp [inBBX, h]
  · intro h
    simp only [inBBX, h, Bool.not_true, Bool.false_or, Bool.and_eq_true, decide_eq_true_eq,
      ge_iff_le]
    tauto

/-! ## One voxel (lines 246-277) -/

/-- C4: when the body of the inner loop runs for a voxel whose mapped point passes the
bounding-box test, the tree receives exactly one call `updateNode(point, value == 1,
true)` if `mark_free` is set or `value == 1`, and no call otherwise. -/
theorem voxelBody_accepted (rot : point3d → point3d) (v : Locals) (res : ℚ)
    (value : my_byte) (i : Int) (s s' : DataState)
    (hb : voxelBody rot v res value i s = some s')
    (hacc : inBBX v (endpoint rot v res i) = true) :
    ((v.mark_free = true ∨ value = 1) →
        s'.tree = { s.tree with calls := s.tree.calls ++
          [TreeCall.updateNode (endpoint rot v res i) (value == 1) true] }) ∧
    (¬ (v.mark_free = true ∨ value = 1) → s'.tree = s.tree) := by
  unfold voxelBody at hb
  split at hb
  · exact absurd hb (by simp)
  · simp only [hacc, if_true] at hb
    constructor
    · intro h
      have hc : (v.mark_free || value == 1) = true := by
        rcases h with h | h
        · simp [h]
        · simp [h]
      simp only [hc, if_true, Option.some.injEq] at hb
      rw [← hb]
    · intro h
      have hc : (v.mark_free || value == 1) = false := by
        rcases hm : v.mark_free with _ | _
        · by_cases hv : value = 1
          · exact absurd (Or.inr hv) h
          · simp [hv]
        · exact absurd (Or.inl hm) h
      simp only [hc, Bool.false_eq_true, if_false, Option.some.injEq] at hb
      rw [← hb]

/-- Witness of C4: voxel 0 with value 1 on the sample grid. -/
theorem voxelBody_accepted_witness :
    voxelBody id sampleLocals 1 1 0 (DataState.init sampleTree) = some sampleAfter0 ∧
    inBBX sampleLocals (endpoint id sampleLocals 1 0) = true ∧
    sampleAfter0.tree = { (DataState.init sampleTree).tree with
      calls := (DataState.init sampleTree).tree.calls ++
        [TreeCall.updateNode (endpoint id sampleLocals 1 0) ((1 : my_byte) == 1) true] } :=
  ⟨by decide!, by decide!,
    (voxelBody_accepted id sampleLocals 1 1 0 (DataState.init sampleTree) sampleAfter0
      (by decide!) (by decide!)).1 (Or.inr rfl)⟩

/-- C6: when the body of the inner loop runs for a voxel whose mapped point fails the
bounding-box test, the tree is left as it was and, of the program variables, only
`nr_voxels_out` changes: it is incremented as an `unsigned`, which is an increase by
exactly one below `2 ^ 32 - 1` (in a run the counter never exceeds the voxel index,
an `int`). -/
theorem voxelBody_rejected (rot : point3d → point3d) (v : Locals) (res : ℚ)
    (value : my_byte) (i : Int) (s s' : DataState)
    (hb : voxelBody rot v res value i s = some s')
    (hrej : inBBX v (endpoint rot v res i) = false) :
    s'.tree = s.tree ∧ s'.nr_voxels_out = (s.nr_voxels_out + 1) % 2 ^ 32 ∧
    (s.nr_voxels_out + 1 < 2 ^ 32 → s'.nr_voxels_out = s.nr_voxels_out + 1) ∧
    s'.nr_voxels = s.nr_voxels ∧ s'.index = s.index ∧ s'.end_index = s.end_index := by
  unfold voxelBody at hb
  split at hb
  · exact absurd hb (by simp)
  · simp only [hrej, Bool.false_eq_true, if_false, Option.some.injEq] at hb
    rw [← hb]
    exact ⟨rfl, rfl, fun hc => Nat.mod_eq_of_lt hc, rfl, rfl, rfl⟩

/-- Witness of C6: voxel 3 with value 1 on the sample grid. -/
theorem voxelBody_rejected_witness :
    voxelBody id sampleLocals 1 1 3 (DataState.init sampleTree) = some sampleAfter3 ∧
    inBBX sampleLocals (endpoint id sampleLocals 1 3) = false ∧
    sampleAfter3.tree = (DataState.init sampleTree).tree ∧
    sampleAfter3.nr_voxels_out = (DataState.init sampleTree).nr_voxels_out + 1 :=
  ⟨by decide!, by decide!,
    (voxelBody_rejected id sampleLocals 1 1 3 (DataState.init sampleTree) sampleAfter3
      (by decide!) (by decide!)).1,
    (voxelBody_rejected id sampleLocals 1 1 3 (DataState.init sampleTree) sampleAfter3
      (by decide!) (by decide!)).2.2.1 (by decide)⟩

/-! ## The inner loop -/

theorem indicesFrom_succ (i : Int) (n : Nat) :
    indicesFrom i (n + 1) = i :: indicesFrom (i + 1) n := by
  unfold indicesFrom
  rw [List.range_succ_eq_map, List.map_cons, List.map_map]
  congr 1
  · simp
  · apply List.map_congr_left
    intro k _
    simp only [Function.comp, Nat.succ_eq_add_one]
    push_cast
    ring

theorem indicesFrom_add (i : Int) (m n : Nat) :
    indicesFrom i (m + n) = indicesFrom i m ++ indicesFrom (i + (m : Int)) n := by
  induction m generalizing i with
  | zero => simp [indicesFrom]
  | succ m ih =>
    have e : i + 1 + (m : Int) = i + ((m + 1 : Nat) : Int) := by push_cast; ring
    rw [show m + 1 + n = (m + n) + 1 by omega, indicesFrom_succ, indicesFrom_succ, ih, e]
    rfl

theorem valuesCalls_append (rot : point3d → point3d) (v : Locals) (res : ℚ)
    (a b : List my_byte) (i : Int) :
    valuesCalls rot v res (a ++ b) i
      = valuesCalls rot v res a i ++ valuesCalls rot v res b (i + (a.length : Int)) := by
  induction a generalizing i with
  | nil => simp [valuesCalls]
  | cons x a ih =>
    have e : i + 1 + (a.length : Int) = i + (((x :: a).length : Nat) : Int) := by
      simp only [List.length_cons]; push_cast; ring
    rw [List.cons_append, valuesCalls, valuesCalls, ih, e, List.append_assoc]

theorem countSum_append (a b : List (my_byte × my_byte)) :
    countSum (a ++ b) = countSum a + countSum b := by
  induction a with
  | nil => simp [countSum]
  | cons p a ih => simp [countSum, ih]; omega

/-- Effect of the body of the inner loop when it runs: the voxel is recorded as
visited, the tree receives `voxelCall`, and the loop variables other than
`nr_voxels_out` are untouched. -/
theorem voxelBody_some (rot : point3d → point3d) (v : Locals) (res : ℚ)
    (value : my_byte) (i : Int) (s s' : DataState)
    (hb : voxelBody rot v res value i s = some s') :
    s'.index = s.index ∧ s'.end_index = s.end_index ∧ s'.nr_voxels = s.nr_voxels ∧
    s'.pairs = s.pairs ∧ s'.visited = s.visited ++ [i] ∧
    s'.tree = { s.tree with calls := s.tree.calls ++ voxelCall rot v res value i } := by
  unfold voxelBody at hb
  split at hb
  · exact absurd hb (by simp)
  · unfold voxelCall
    cases hin : inBBX v (endpoint rot v res i) <;>
      cases hm : (v.mark_free || value == 1) <;>
      simp only [hin, hm, Bool.false_eq_true, if_false, if_true, Option.some.injEq] at hb <;>
      subst hb <;> simp

/-- The body of the inner loop fails exactly when one of its divisors is zero. -/
theorem voxelBody_eq_none (rot : point3d → point3d) (v : Locals) (res : ℚ)
    (value : my_byte) (i : Int) (s : DataState) :
    voxelBody rot v res value i s = none ↔
      (v.size.tdiv 20 = 0 ∨ v.width = 0 ∨ wrap32 (v.width * v.height) = 0) := by
  unfold voxelBody
  split
  · rename_i h
    exact ⟨fun _ => h, fun _ => rfl⟩
  · rename_i h
    simp only [h, iff_false]
    split <;> [split; skip] <;> simp

/-- Effect of the inner loop when it runs to its end. -/
theorem voxelLoop_some (rot : point3d → point3d) (v : Locals) (res : ℚ) (value : my_byte)
    (n : Nat) (i : Int) (s s' : DataState)
    (hl : voxelLoop rot v res value n i s = some s') :
    s'.index = s.index ∧ s'.end_index = s.end_index ∧ s'.nr_voxels = s.nr_voxels ∧
    s'.pairs = s.pairs ∧ s'.visited = s.visited ++ indicesFrom i n ∧
    s'.tree = { s.tree with
      calls := s.tree.calls ++ valuesCalls rot v res (List.replicate n value) i } := by
  induction n generalizing i s with
  | zero =>
    simp only [voxelLoop, Option.some.injEq] at hl
    subst hl
    simp [indicesFrom, valuesCalls]
  | succ n ih =>
    simp only [voxelLoop] at hl
    cases hb : voxelBody rot v res value i s with
    | none => rw [hb] at hl; exact absurd hl (by simp)
    | some s1 =>
      rw [hb] at hl
      obtain ⟨h1, h2, h3, h4, h5, h6⟩ := voxelBody_some rot v res value i s s1 hb
      obtain ⟨k1, k2, k3, k4, k5, k6⟩ := ih (i + 1) s1 hl
      refine ⟨k1.trans h1, k2.trans h2, k3.trans h3, k4.trans h4, ?_, ?_⟩
      · rw [k5, h5, indicesFrom_succ]; simp
      · rw [k6, h6]; simp [List.replicate_succ, valuesCalls]

/-- The inner loop fails exactly when it has an iteration to run and a divisor is
zero. -/
theorem voxelLoop_eq_none (rot : point3d → point3d) (v : Locals) (res : ℚ) (value : my_byte)
    (n : Nat) (i : Int) (s : DataState) :
    voxelLoop rot v res value n i s = none ↔
      (0 < n ∧ (v.size.tdiv 20 = 0 ∨ v.width = 0 ∨ wrap32 (v.width * v.height) = 0)) := by
  induction n generalizing i s with
  | zero => simp [voxelLoop]
  | succ n ih =>
    simp only [voxelLoop]
    cases hb : voxelBody rot v res value i s with
    | none =>
      have := (voxelBody_eq_none rot v res value i s).1 hb
      exact ⟨fun _ => ⟨Nat.succ_pos n, this⟩, fun _ => rfl⟩
    | some s1 =>
      have hne : ¬ (v.size.tdiv 20 = 0 ∨ v.width = 0 ∨ wrap32 (v.width * v.height) = 0) := by
        intro h
        rw [(voxelBody_eq_none rot v res value i s).2 h] at hb
        exact absurd hb (by simp)
      simp only [ih, hne, and_false]

/-! ## The voxel-data loop -/

/-- The voxel-data loop started with `index = end_index` meets `DecodeSpec`. -/
theorem dataLoop_spec (rot : point3d → point3d) (v : Locals) (res : ℚ)
    (bytes : List my_byte) (s : DataState) :
    s.index = s.end_index → DecodeSpec rot v res bytes s (dataLoop rot v res bytes s) := by
  induction bytes, s using dataLoop.induct rot v res with
  | case1 value count rest s hlt s1 hgt =>
    intro hie
    have hr : dataLoop rot v res (value :: count :: rest) s = (LoopExit.overrun, s1) := by
      rw [dataLoop]; simp only [hlt, if_true]; rw [if_pos hgt]
    rw [hr]
    refine ⟨[(value, count)], pairsOfBytes rest, [], rfl, rfl, ?_, ?_, ?_, ?_, fun _ => rfl, ?_, ?_, ?_, ?_⟩
    · intro q a q2 h
      cases q with
      | nil => simp only [countSum]; rw [hie]; simpa using hlt
      | cons p q => simp at h
    · simp [s1, countSum]
    · simp [s1, countSum, indicesFrom]
    · simp [s1, expand, valuesCalls]
    · intro h; cases h
    · intro h; cases h
    · intro _
      exact ⟨(value, count), rfl, rfl, hgt⟩
    · intro h; cases h
  | case2 value count rest s hlt s1 hle hnone =>
    intro hie
    have hr : dataLoop rot v res (value :: count :: rest) s = (LoopExit.divByZero, s1) := by
      rw [dataLoop]; simp only [hlt, if_true]; rw [if_neg hle]; simp only [s1] at hnone; rw [hnone]
    rw [hr]
    refine ⟨[(value, count)], pairsOfBytes rest, [], rfl, rfl, ?_, ?_, ?_, ?_, fun _ => rfl, ?_, ?_, ?_, ?_⟩
    · intro q a q2 h
      cases q with
      | nil => simp only [countSum]; rw [hie]; simpa using hlt
      | cons p q => simp at h
    · simp [s1, countSum]
    · simp [s1, countSum, indicesFrom]
    · simp [s1, expand, valuesCalls]
    · intro h; cases h
    · intro h; cases h
    · intro h; cases h
    · intro _
      have := (voxelLoop_eq_none rot v res value count.val s1.index s1).1 hnone
      exact ⟨(value, count), rfl, rfl, not_lt.1 hle, this.1, this.2⟩
  | case3 value count rest s hlt s1 hle s2 hsome ih =>
    intro hie
    have hr : dataLoop rot v res (value :: count :: rest) s
        = dataLoop rot v res rest
            { s2 with nr_voxels := if value ≠ 0 then (s2.nr_voxels + count.val) % 2 ^ 32
                                   else s2.nr_voxels,
                      index := s2.end_index } := by
      rw [dataLoop]; simp only [hlt, if_true]; rw [if_neg hle]; simp only [s1] at hsome
      rw [hsome]
    rw [hr]
    obtain ⟨k1, k2, k3, k4, k5, k6⟩ := voxelLoop_some rot v res value count.val s1.index s1 s2 hsome
    obtain ⟨new, rest2, done, p1, p2, p3, p4, p5, p6, p7, e1, e2, e3, e4⟩ := ih rfl
    have hidx : s2.end_index = s.index + (count.val : Int) := by rw [k2]
    refine ⟨(value, count) :: new, rest2, (value, count) :: done, ?_, ?_, ?_, ?_, ?_, ?_, ?_, ?_, ?_, ?_, ?_⟩
    · rw [p1]; simp [k4, s1]
    · simp [pairsOfBytes, p2]
    · intro q a q2 h
      cases q with
      | nil => simp only [countSum]; rw [hie]; simpa using hlt
      | cons p q =>
        simp only [List.cons_append, List.cons.injEq] at h
        have := p3 q a q2 h.2
        simp only [hidx] at this
        rw [← h.1]
        simp only [countSum]
        push_cast
        linarith
    · rw [p4]; simp only [hidx, countSum]; push_cast; ring
    · rw [p5]; simp only [k5, hidx, countSum, s1, indicesFrom_add, List.append_assoc]
    · rw [p6]
      simp only [k6, hidx, expand, s1, valuesCalls_append, List.append_assoc,
        List.length_replicate]
    · intro hz
      have hc : ¬ (0 < count.val) := fun hpos =>
        absurd ((voxelLoop_eq_none rot v res value count.val s1.index s1).2 ⟨hpos, hz⟩)
          (by rw [hsome]; simp)
      simp only [countSum, p7 hz]
      omega
    · intro h
      obtain ⟨a1, a2, a3, a4⟩ := e1 h
      refine ⟨by rw [a1], a2, a3, fun _ => ?_⟩
      by_cases hn : new = []
      · rw [p4, a1, hn]
        simp only [hidx, countSum]
        have := not_lt.1 hle
        simp only [s1] at this
        simpa using this
      · exact a4 hn
    · intro h
      obtain ⟨a1, a2, a3, a4⟩ := e2 h
      exact ⟨by rw [a1], a2, a3, a4⟩
    · intro h
      obtain ⟨a, a1, a2, a3⟩ := e3 h
      exact ⟨a, by rw [a1]; rfl, a2, a3⟩
    · intro h
      obtain ⟨a, a1, a2⟩ := e4 h
      exact ⟨a, by rw [a1]; rfl, a2⟩
  | case4 value count rest s hge =>
    intro hie
    have hr : dataLoop rot v res (value :: count :: rest) s = (LoopExit.complete, s) := by
      rw [dataLoop]; simp only [hge, if_false]
    rw [hr]
    refine ⟨[], pairsOfBytes (value :: count :: rest), [], by simp, rfl, ?_, ?_, ?_, ?_, fun _ => rfl, ?_, ?_, ?_, ?_⟩
    · intro q a q2 h; simp at h
    · simp [countSum]
    · simp [countSum, indicesFrom]
    · simp [expand, valuesCalls]
    · intro _
      exact ⟨rfl, hie.symm, by rw [hie]; exact hge, fun h => absurd rfl h⟩
    · intro h; cases h
    · intro h; cases h
    · intro h; cases h
  | case5 t s hlt hne =>
    intro hie
    have hr : dataLoop rot v res t s = (LoopExit.exhausted, s) := by
      rw [dataLoop]
      · simp only [hlt, if_true]
      · intro value count rest h; exact hne value count rest h
    have hp : pairsOfBytes t = [] := by
      rw [pairsOfBytes]
      intro value count rest h; exact hne value count rest h
    rw [hr]
    refine ⟨[], [], [], by simp, by simp [hp], ?_, ?_, ?_, ?_, fun _ => rfl, ?_, ?_, ?_, ?_⟩
    · intro q a q2 h; simp at h
    · simp [countSum]
    · simp [countSum, indicesFrom]
    · simp [expand, valuesCalls]
    · intro h; cases h
    · intro _
      exact ⟨rfl, hie.symm, by rw [hie]; exact hlt, rfl⟩
    · intro h; cases h
    · intro h; cases h
  | case6 t s hge hne =>
    intro hie
    have hr : dataLoop rot v res t s = (LoopExit.complete, s) := by
      rw [dataLoop]
      · simp only [hge, if_false]
      · intro value count rest h; exact hne value count rest h
    have hp : pairsOfBytes t = [] := by
      rw [pairsOfBytes]
      intro value count rest h; exact hne value count rest h
    rw [hr]
    refine ⟨[], [], [], by simp, by simp [hp], ?_, ?_, ?_, ?_, fun _ => rfl, ?_, ?_, ?_, ?_⟩
    · intro q a q2 h; simp at h
    · simp [countSum]
    · simp [countSum, indicesFrom]
    · simp [expand, valuesCalls]
    · intro _
      exact ⟨rfl, hie.symm, by rw [hie]; exact hge, fun h => absurd rfl h⟩
    · intro h; cases h
    · intro h; cases h
    · intro h; cases h

/-- The facts of `DecodeSpec` for `readVoxels`. -/
theorem readVoxels_spec (rot : point3d → point3d) (v : Locals) (res : ℚ) (t : OcTree)
    (bytes : List my_byte) :
    DecodeSpec rot v res bytes (DataState.init t) (readVoxels rot v res t bytes) :=
  dataLoop_spec rot v res bytes (DataState.init t) rfl

theorem countSum_take_le (l : List (my_byte × my_byte)) (j : Nat) :
    countSum (l.take j) ≤ countSum l := by
  induction l generalizing j with
  | nil => simp [countSum]
  | cons p l ih =>
    cases j with
    | zero => simp [countSum]
    | succ j => simp only [List.take_succ_cons, countSum]; have := ih j; omega

/-- The abort in terms of the payload alone: the loop ends with the abort of line 244
exactly when some leading pairs of the payload keep the sum of the counts below `size`,
the next pair brings it above `size`, and the loop gets that far, that is, no voxel has
been met before while a divisor of the loop body is zero. -/
theorem readVoxels_overrun_payload (rot : point3d → point3d) (v : Locals) (res : ℚ)
    (t : OcTree) (bytes : List my_byte) :
    (readVoxels rot v res t bytes).1 = LoopExit.overrun ↔
      ∃ k, k < (pairsOfBytes bytes).length ∧
        (∀ j, j ≤ k → (countSum ((pairsOfBytes bytes).take j) : Int) < v.size) ∧
        v.size < (countSum ((pairsOfBytes bytes).take (k + 1)) : Int) ∧
        ((v.size.tdiv 20 = 0 ∨ v.width = 0 ∨ wrap32 (v.width * v.height) = 0) →
          countSum ((pairsOfBytes bytes).take k) = 0) := by
  obtain ⟨new, rest, done, p1, p2, p3, p4, p5, p6, p7, e1, e2, e3, e4⟩ :=
    readVoxels_spec rot v res t bytes
  generalize readVoxels rot v res t bytes = r at *
  obtain ⟨e, s⟩ := r
  simp only [DataState.init, List.nil_append, zero_add] at p1 p3 p4 p5 p6
  simp only at e1 e2 e3 e4
  simp only
  rw [p2]
  constructor
  · intro h
    obtain ⟨a, a1, a2, a3⟩ := e3 h
    refine ⟨done.length, ?_, ?_, ?_, ?_⟩
    · rw [a1]; simp
    · intro j hj
      have hlen : j < new.length := by rw [a1]; simp; omega
      have hsplit : new = new.take j ++ new[j] :: new.drop (j + 1) := by
        rw [← List.drop_eq_getElem_cons hlen, List.take_append_drop]
      rw [List.take_append_of_le_length (by omega)]
      exact p3 _ _ _ hsplit
    · rw [List.take_append_of_le_length (by rw [a1]; simp)]
      have : new.take (done.length + 1) = new := by
        apply List.take_of_length_le; rw [a1]; simp
      rw [this, a1, countSum_append]
      rw [a2, p4] at a3
      simp only [countSum] at a3 ⊢
      push_cast at a3 ⊢
      omega
    · intro hz
      rw [List.take_append_of_le_length (by rw [a1]; simp), a1, List.take_left']
      · exact p7 hz
      · rfl
  · rintro ⟨k, hk, hlt, hgt, hz⟩
    have hmono : ∀ j, j ≤ new.length →
        countSum ((new ++ rest).take j) ≤ countSum new := by
      intro j hj
      rw [List.take_append_of_le_length hj]
      exact countSum_take_le new j
    have hfull : (new ++ rest).take new.length = new := List.take_left' rfl
    cases e with
    | overrun => rfl
    | complete =>
      obtain ⟨a1, a2, a3, a4⟩ := e1 rfl
      rw [p4, a1] at a3 a4
      exfalso
      by_cases hn : k + 1 ≤ new.length
      · have h1 := hmono (k + 1) hn
        have hne : new ≠ [] := by
          intro h0; rw [h0] at hn; simp at hn
        have := a4 hne
        omega
      · have h1 := hlt new.length (by omega)
        rw [hfull] at h1
        omega
    | exhausted =>
      obtain ⟨a1, a2, a3, a4⟩ := e2 rfl
      rw [p4, a1] at a3
      exfalso
      rw [a4, List.append_nil] at hk
      have h1 := hmono (k + 1) (by omega)
      omega
    | divByZero =>
      obtain ⟨a, a1, a2, a3, a4, a5⟩ := e4 rfl
      exfalso
      have hsum : (countSum new : Int) ≤ v.size := by
        rw [a2, p4] at a3
        rw [a1, countSum_append]
        simp only [countSum]
        push_cast
        omega
      by_cases hn : k + 1 ≤ new.length
      · have h1 := hmono (k + 1) hn
        omega
      · have h0 := hz a5
        have h1 : countSum new ≤ countSum ((new ++ rest).take k) := by
          have hk2 : new.length ≤ k := by omega
          have : (new ++ rest).take k = new ++ rest.take (k - new.length) := by
            rw [List.take_append_eq_append_take, List.take_of_length_le hk2]
          rw [this, countSum_append]
          omega
        have h2 : 0 < countSum new := by
          rw [a1, countSum_append]
          simp only [countSum]
          omega
        omega

theorem dropWhile_length_le (p : my_byte → Bool) (l : List my_byte) :
    (l.dropWhile p).length ≤ l.length :=
  (List.dropWhile_sublist p).length_le

theorem dropSign_length_le (l : List my_byte) : (dropSign l).length ≤ l.length := by
  unfold dropSign
  split
  · simp
  · exact Nat.le_refl _

theorem sentry_length_le (s : ifstream) : (sentry s).2.buf.length ≤ s.buf.length := by
  unfold sentry
  split
  · simp only
    split
    · simp
    · exact dropWhile_length_le _ _
  · exact Nat.le_refl _

theorem sentry_good (s : ifstream) : (sentry s).2.good = (sentry s).1 := by
  unfold sentry
  split
  · simp only
    split <;> rfl
  · rename_i h
    simp only [Bool.not_eq_true] at h
    simpa using h

theorem sentry_true (s : ifstream) (h : (sentry s).1 = true) :
    s.good = true ∧ ∃ c rest, (sentry s).2.buf = c :: rest ∧ isspace c = false := by
  unfold sentry at h ⊢
  split at h
  · rename_i hg
    simp only [hg, if_true] at h ⊢
    split at h
    · exact absurd h (by simp)
    · rename_i hne
      simp only [hne, if_false, Bool.false_eq_true]
      refine ⟨trivial, ?_⟩
      cases hd : s.buf.dropWhile isspace with
      | nil => rw [hd] at hne; exact absurd rfl hne
      | cons c rest =>
        refine ⟨c, rest, rfl, ?_⟩
        have := List.head_dropWhile_not isspace s.buf (by rw [hd]; simp)
        simpa [hd] using this
  · exact absurd h (by simp)

/-- A string extraction that leaves the stream good has consumed at least one byte. -/
theorem extractString_lt (line : List my_byte) (s : ifstream)
    (h : (extractString line s).2.good = true) :
    s.good = true ∧ (extractString line s).2.buf.length < s.buf.length := by
  unfold extractString at h ⊢
  have hs := sentry_good s
  have hl := sentry_length_le s
  have ht := sentry_true s
  generalize sentry s = r at h hs hl ht ⊢
  obtain ⟨b, s1⟩ := r
  simp only at hs hl ht
  cases b with
  | false =>
    simp only at h
    rw [hs] at h
    exact absurd h (by simp)
  | true =>
    obtain ⟨hg, c, rest, hb, hc⟩ := ht rfl
    refine ⟨hg, ?_⟩
    simp only [hb, List.dropWhile_cons, hc, Bool.not_false, if_true]
    have := dropWhile_length_le (fun c => !isspace c) rest
    rw [hb] at hl
    simp only [List.length_cons] at hl
    omega

theorem extractInt_le (cur : Int) (s : ifstream) :
    (extractInt cur s).2.buf.length ≤ s.buf.length ∧
    ((extractInt cur s).2.good = true → s.good = true) := by
  unfold extractInt
  have hs := sentry_good s
  have hl := sentry_length_le s
  have ht := sentry_true s
  generalize sentry s = r at hs hl ht ⊢
  obtain ⟨b, s1⟩ := r
  simp only at hs hl ht
  cases b with
  | false =>
    simp only
    refine ⟨hl, fun h => ?_⟩
    rw [hs] at h
    exact absurd h (by simp)
  | true =>
    have hg := (ht rfl).1
    have h1 := dropSign_length_le s1.buf
    have h2 := dropWhile_length_le isdigit (dropSign s1.buf)
    refine ⟨?_, fun _ => hg⟩
    simp only
    repeat' split
    all_goals (try simp only); omega

theorem takeDigits_le (b : List my_byte) : (takeDigits b).2.length ≤ b.length :=
  dropWhile_length_le isdigit b

theorem takeFraction_le (b : List my_byte) : (takeFraction b).2.length ≤ b.length := by
  unfold takeFraction
  split
  · have := takeDigits_le b.tail
    simp only [List.length_tail] at this
    omega
  · exact Nat.le_refl _

theorem takeExponent_le (m : Bool) (b : List my_byte) :
    (takeExponent m b).2.length ≤ b.length := by
  unfold takeExponent
  split
  · have a1 := takeDigits_le (dropSign b.tail)
    have a2 := dropSign_length_le b.tail
    simp only [List.length_tail] at a2
    simp only
    omega
  · exact Nat.le_refl _

/-- The bytes left after a `float` has been stored. -/
theorem storeFloat_buf (neg : Bool) (a : ℚ) (rest : List my_byte) :
    (storeFloat neg a rest).2.buf = rest := by
  unfold storeFloat
  split <;> rfl

theorem extractFloat_le (cur : ℚ) (s : ifstream) :
    (extractFloat cur s).2.buf.length ≤ s.buf.length ∧
    ((extractFloat cur s).2.good = true → s.good = true) := by
  unfold extractFloat
  have hs := sentry_good s
  have hl := sentry_length_le s
  have ht := sentry_true s
  generalize sentry s = r at hs hl ht ⊢
  obtain ⟨b, s1⟩ := r
  simp only at hs hl ht
  cases b with
  | false =>
    simp only
    refine ⟨hl, fun h => ?_⟩
    rw [hs] at h
    exact absurd h (by simp)
  | true =>
    have hg := (ht rfl).1
    have h1 := dropSign_length_le s1.buf
    have h2 := takeDigits_le (dropSign s1.buf)
    have h3 := takeFraction_le (takeDigits (dropSign s1.buf)).2
    have h4 := takeExponent_le
      (!((takeDigits (dropSign s1.buf)).1.isEmpty &&
        (takeFraction (takeDigits (dropSign s1.buf)).2).1.isEmpty))
      (takeFraction (takeDigits (dropSign s1.buf)).2).2
    simp only
    split
    · split
      · exact ⟨by simp only; omega, fun _ => hg⟩
      · exact ⟨by rw [storeFloat_buf]; omega, fun _ => hg⟩
    · split
      · exact ⟨by simp only; omega, fun _ => hg⟩
      · exact ⟨by rw [storeFloat_buf]; omega, fun _ => hg⟩

theorem skipLine_le (s : ifstream) :
    (skipLine s).buf.length ≤ s.buf.length ∧ ((skipLine s).good = true → s.good = true) := by
  unfold skipLine
  split
  · rename_i hg
    have := dropWhile_length_le (fun c => decide (c ≠ 10)) s.buf
    split
    · exact ⟨by simp, fun _ => hg⟩
    · rename_i h
      rw [h] at this
      simp only [List.length_cons] at this
      exact ⟨by simp only; omega, fun _ => hg⟩
  · exact ⟨Nat.le_refl _, fun h => h⟩

/-- An iteration of the header loop after which the loop goes on has consumed at least
one byte. -/
theorem headerStep_lt (h : HeaderState) (hg : (headerStep h).input.good = true) :
    (headerStep h).input.buf.length < h.input.buf.length := by
  unfold headerStep at hg ⊢
  simp only at hg ⊢
  generalize hr : extractString h.line h.input = r at hg ⊢
  have hlt := extractString_lt h.line h.input
  rw [hr] at hlt
  split
  · rename_i hd
    simp only [hd, if_true] at hg
    exact (hlt hg).2
  · rename_i hd
    simp only [hd, if_false] at hg
    split
    · rename_i hdim
      simp only [hdim, if_true] at hg
      have a1 := extractInt_le h.v.depth r.2
      have a2 := extractInt_le h.v.height (extractInt h.v.depth r.2).2
      have a3 := extractInt_le h.v.width (extractInt h.v.height (extractInt h.v.depth r.2).2).2
      have := (hlt (a1.2 (a2.2 (a3.2 hg)))).2
      simp only
      omega
    · rename_i hdim
      simp only [hdim, if_false] at hg
      split
      · rename_i htr
        simp only [htr, if_true] at hg
        have a1 := extractFloat_le h.v.tx r.2
        have a2 := extractFloat_le h.v.ty (extractFloat h.v.tx r.2).2
        have a3 := extractFloat_le h.v.tz (extractFloat h.v.ty (extractFloat h.v.tx r.2).2).2
        have := (hlt (a1.2 (a2.2 (a3.2 hg)))).2
        simp only
        omega
      · rename_i htr
        simp only [htr, if_false] at hg
        split
        · rename_i hsc
          simp only [hsc, if_true] at hg
          have a1 := extractFloat_le h.v.scale r.2
          have := (hlt (a1.2 hg)).2
          simp only
          omega
        · rename_i hsc
          simp only [hsc, if_false] at hg
          have a1 := skipLine_le r.2
          have := (hlt (a1.2 hg)).2
          simp only
          omega

theorem headerLoop_step (n : Nat) (h : HeaderState) :
    headerLoop (n + 1) h
      = if (h.input.good && !h.done) = true then headerLoop n (headerStep h) else h := rfl

theorem headerLoop_stop (n : Nat) (h : HeaderState)
    (hc : ¬ (h.input.good && !h.done) = true) : headerLoop n h = h := by
  cases n with
  | zero => rfl
  | succ m => rw [headerLoop_step, if_neg hc]

/-- With more iterations allowed than bytes left, allowing one more changes nothing:
the header loop has ended by itself. -/
theorem headerLoop_succ (n : Nat) (h : HeaderState) (hn : h.input.buf.length < n) :
    headerLoop (n + 1) h = headerLoop n h := by
  induction n generalizing h with
  | zero => exact absurd hn (Nat.not_lt_zero _)
  | succ n ih =>
    rw [headerLoop_step (n + 1) h, headerLoop_step n h]
    split
    · by_cases hc2 : ((headerStep h).input.good && !(headerStep h).done) = true
      · have hg : (headerStep h).input.good = true := by
          simp only [Bool.and_eq_true] at hc2; exact hc2.1
        have := headerStep_lt h hg
        exact ih (headerStep h) (by omega)
      · rw [headerLoop_stop _ _ hc2, headerLoop_stop _ _ hc2]
    · rfl

/-- The bound `buf.length + 1` that `readHeader` gives the header loop is enough: any
larger bound gives the same result. -/
theorem headerLoop_enough (n : Nat) (h : HeaderState) (hn : h.input.buf.length + 1 ≤ n) :
    headerLoop n h = headerLoop (h.input.buf.length + 1) h := by
  induction n with
  | zero => exact absurd hn (by omega)
  | succ n ih =>
    by_cases hlt : h.input.buf.length + 1 ≤ n
    · rw [headerLoop_succ n h (by omega), ih hlt]
    · have : n = h.input.buf.length := by omega
      rw [this]

/-! ## The header leaves the options, the tree and the log alone -/

theorem SameOutsideHeader.refl (v : Locals) : SameOutsideHeader v v :=
  ⟨rfl, rfl, rfl, rfl, rfl, rfl, rfl, rfl, rfl, rfl, rfl, rfl, rfl, rfl⟩

theorem SameOutsideHeader.trans {u v w : Locals} (h1 : SameOutsideHeader u v)
    (h2 : SameOutsideHeader v w) : SameOutsideHeader u w := by
  obtain ⟨a1, a2, a3, a4, a5, a6, a7, a8, a9, a10, a11, a12, a13, a14⟩ := h1
  obtain ⟨b1, b2, b3, b4, b5, b6, b7, b8, b9, b10, b11, b12, b13, b14⟩ := h2
  exact ⟨b1.trans a1, b2.trans a2, b3.trans a3, b4.trans a4, b5.trans a5, b6.trans a6,
    b7.trans a7, b8.trans a8, b9.trans a9, b10.trans a10, b11.trans a11, b12.trans a12,
    b13.trans a13, b14.trans a14⟩

theorem headerStep_frame (h : HeaderState) : SameOutsideHeader h.v (headerStep h).v := by
  unfold headerStep
  simp only
  split
  · exact SameOutsideHeader.refl _
  · split
    · exact ⟨rfl, rfl, rfl, rfl, rfl, rfl, rfl, rfl, rfl, rfl, rfl, rfl, rfl, rfl⟩
    · split
      · exact ⟨rfl, rfl, rfl, rfl, rfl, rfl, rfl, rfl, rfl, rfl, rfl, rfl, rfl, rfl⟩
      · split
        · exact ⟨rfl, rfl, rfl, rfl, rfl, rfl, rfl, rfl, rfl, rfl, rfl, rfl, rfl, rfl⟩
        · exact SameOutsideHeader.refl _

theorem headerLoop_frame (n : Nat) (h : HeaderState) :
    SameOutsideHeader h.v (headerLoop n h).v := by
  induction n generalizing h with
  | zero => exact SameOutsideHeader.refl _
  | succ n ih =>
    rw [headerLoop]
    split
    · exact (headerStep_frame h).trans (ih (headerStep h))
    · exact SameOutsideHeader.refl _

/-! ## One input file -/

theorem newTrees_append (a b : List Event) : newTrees (a ++ b) = newTrees a ++ newTrees b := by
  induction a with
  | nil => rfl
  | cons e a ih => cases e <;> simp [newTrees, ih]

theorem opened_append (a b : List Event) : opened (a ++ b) = opened a ++ opened b := by
  induction a with
  | nil => rfl
  | cons e a ih => cases e <;> simp [opened, ih]

theorem valuesCalls_isUpdateNode (rot : point3d → point3d) (v : Locals) (res : ℚ)
    (vs : List my_byte) (i : Int) :
    ∀ c ∈ valuesCalls rot v res vs i, c.isUpdateNode = true := by
  induction vs generalizing i with
  | nil => intro c hc; simp [valuesCalls] at hc
  | cons x vs ih =>
    intro c hc
    rw [valuesCalls, List.mem_append] at hc
    rcases hc with hc | hc
    · unfold voxelCall at hc
      split at hc
      · simp only [List.mem_singleton] at hc; rw [hc]; rfl
      · simp at hc
    · exact ih (i + 1) c hc

/-- The tree after the voxel-data loop is the tree before it with `updateNode` calls
added. -/
theorem readVoxels_tree (rot : point3d → point3d) (v : Locals) (res : ℚ) (t : OcTree)
    (bytes : List my_byte) :
    ∃ cs : List TreeCall, (∀ c ∈ cs, c.isUpdateNode = true) ∧
      (readVoxels rot v res t bytes).2.tree = t.addCalls cs := by
  obtain ⟨new, rest, done, _, _, _, _, _, p6, _⟩ := readVoxels_spec rot v res t bytes
  exact ⟨valuesCalls rot v res (expand done) 0, valuesCalls_isUpdateNode rot v res _ 0, p6⟩

/-- Reading the header changes only the variables of the header, and its errors are
the three header errors. -/
theorem readHeader_spec (content : List my_byte) (v : Locals) :
    (∀ w input, readHeader content v = Except.ok (w, input) → SameOutsideHeader v w) ∧
    (∀ e, readHeader content v = Except.error e →
      SameOutsideHeader v e.final ∧
      (e.term = Termination.badMagic ∨ e.term = Termination.headerError ∨
        e.term = Termination.missingDimensions)) := by
  unfold readHeader
  simp only
  split
  · refine ⟨by simp, ?_⟩
    intro e he
    simp only [Except.error.injEq] at he
    rw [← he]
    exact ⟨SameOutsideHeader.refl v, Or.inl rfl⟩
  · generalize hh : headerLoop _ _ = h
    have hfr : SameOutsideHeader v h.v := by
      rw [← hh]
      exact SameOutsideHeader.trans
        ⟨rfl, rfl, rfl, rfl, rfl, rfl, rfl, rfl, rfl, rfl, rfl, rfl, rfl, rfl⟩
        (headerLoop_frame _ _)
    split
    · refine ⟨by simp, ?_⟩
      intro e he
      simp only [Except.error.injEq] at he
      rw [← he]
      exact ⟨hfr, Or.inr (Or.inl rfl)⟩
    · split
      · refine ⟨by simp, ?_⟩
        intro e he
        simp only [Except.error.injEq] at he
        rw [← he]
        exact ⟨hfr, Or.inr (Or.inr rfl)⟩
      · refine ⟨?_, by simp⟩
        intro w input he
        simp only [Except.ok.injEq, Prod.mk.injEq] at he
        rw [← he.1]
        exact hfr

/-- Reading the voxel data of a file: the tree is created with the resolution of the
file if there is none, and receives `updateNode` calls; no file is opened; the errors
are the overrun and the division by zero. -/
theorem readData_spec (env : Env) (v : Locals) (input : ifstream) :
    (∃ cs : List TreeCall, (∀ c ∈ cs, c.isUpdateNode = true) ∧
      ((∃ t, v.tree = some t ∧ (outLocals (readData env v input)).tree = some (t.addCalls cs) ∧
          newTrees (outLocals (readData env v input)).log = newTrees v.log) ∨
       (v.tree = none ∧
          (outLocals (readData env v input)).tree = some ((OcTree.mk v.res []).addCalls cs) ∧
          newTrees (outLocals (readData env v input)).log = newTrees v.log ++ [v.res]))) ∧
    (outLocals (readData env v input)).res = v.res ∧
    opened (outLocals (readData env v input)).log = opened v.log ∧
    (∀ e, readData env v input = Except.error e →
      e.term = Termination.overrun ∨ e.term = Termination.divByZero) := by
  unfold readData
  simp only
  generalize payloadOf input = bytes
  obtain ⟨cs, hcs, hrt⟩ := readVoxels_tree env.rotate_IP (ensureTree v v.res).2
    v.res (ensureTree v v.res).1 bytes
  have hens : ((∃ t, v.tree = some t ∧ (ensureTree v v.res).1 = t ∧
        (ensureTree v v.res).2.log = v.log) ∨
      (v.tree = none ∧ (ensureTree v v.res).1 = OcTree.mk v.res [] ∧
        (ensureTree v v.res).2.log = v.log ++ [Event.newTree v.res])) ∧
      (ensureTree v v.res).2.res = v.res := by
    unfold ensureTree
    cases v.tree with
    | none => exact ⟨Or.inr ⟨rfl, rfl, rfl⟩, rfl⟩
    | some t => exact ⟨Or.inl ⟨t, rfl, rfl, rfl⟩, rfl⟩
  have key : ∀ w : Locals,
      w.tree = some (readVoxels env.rotate_IP (ensureTree v v.res).2 v.res
        (ensureTree v v.res).1 bytes).2.tree →
      (∃ l, w.log = (ensureTree v v.res).2.log ++ l ∧ newTrees l = [] ∧ opened l = []) →
      (∃ cs : List TreeCall, (∀ c ∈ cs, c.isUpdateNode = true) ∧
      ((∃ t, v.tree = some t ∧ w.tree = some (t.addCalls cs) ∧
          newTrees w.log = newTrees v.log) ∨
       (v.tree = none ∧ w.tree = some ((OcTree.mk v.res []).addCalls cs) ∧
          newTrees w.log = newTrees v.log ++ [v.res]))) ∧
      opened w.log = opened v.log := by
    intro w hwt ⟨l, hwl, hl1, hl2⟩
    rw [hrt] at hwt
    rcases hens.1 with ⟨t, h1, h2, h3⟩ | ⟨h1, h2, h3⟩
    · refine ⟨⟨cs, hcs, Or.inl ⟨t, h1, by rw [hwt, h2], ?_⟩⟩, ?_⟩
      · rw [hwl, h3, newTrees_append, hl1, List.append_nil]
      · rw [hwl, h3, opened_append, hl2, List.append_nil]
    · refine ⟨⟨cs, hcs, Or.inr ⟨h1, by rw [hwt, h2], ?_⟩⟩, ?_⟩
      · rw [hwl, h3, newTrees_append, newTrees_append, hl1]; simp [newTrees]
      · rw [hwl, h3, opened_append, opened_append, hl2]; simp [opened]
  split
  · generalize hw : outLocals _ = w
    obtain ⟨k1, k2⟩ := key w (by rw [← hw]; rfl) ⟨[], by rw [← hw]; simp [outLocals], rfl, rfl⟩
    refine ⟨k1, by rw [← hw]; exact hens.2, k2, ?_⟩
    intro e he
    simp only [Except.error.injEq] at he
    rw [← he]; exact Or.inl rfl
  · generalize hw : outLocals _ = w
    obtain ⟨k1, k2⟩ := key w (by rw [← hw]; rfl) ⟨[], by rw [← hw]; simp [outLocals], rfl, rfl⟩
    refine ⟨k1, by rw [← hw]; exact hens.2, k2, ?_⟩
    intro e he
    simp only [Except.error.injEq] at he
    rw [← he]; exact Or.inr rfl
  · generalize hw : outLocals _ = w
    obtain ⟨k1, k2⟩ := key w (by rw [← hw]; rfl)
      ⟨[Event.report _ _], by rw [← hw]; rfl, rfl, rfl⟩
    exact ⟨k1, by rw [← hw]; exact hens.2, k2, by simp⟩

/-- The abort of the voxel-data loop is the end of the run with `return 0` (line 244),
and the run ends that way only then. -/
theorem readData_overrun (env : Env) (v : Locals) (input : ifstream) :
    (∃ e, readData env v input = Except.error e ∧ e.term = Termination.overrun) ↔
      (readVoxels env.rotate_IP (ensureTree v v.res).2 v.res (ensureTree v v.res).1
        (payloadOf input)).1 = LoopExit.overrun := by
  unfold readData
  simp only
  split
  · rename_i h
    simp [h]
  · rename_i h
    simp [h]
  · rename_i h1 h2
    simp only [exists_false, false_iff, reduceCtorEq, false_and]
    exact h1

/-- An input file changes the tree as `TreeStep` says, and adds its name, and no
other, to the files opened.  When the file is processed to its end there is a tree. -/
theorem processFile_spec (env : Env) (a : String) (v : Locals) :
    TreeStep v (outLocals (processFile env a v)) ∧
    opened (outLocals (processFile env a v)).log = opened v.log ++ [a] ∧
    (∀ v1, processFile env a v = Except.ok v1 → v1.tree ≠ none) ∧
    (∀ e, processFile env a v = Except.error e →
      e.term.isFatalError = true ∨ e.term = Termination.divByZero) := by
  unfold processFile
  cases hf : env.files a with
  | none =>
    simp only [outLocals]
    refine ⟨⟨[], by simp, ?_⟩, by simp [opened_append, opened], by simp, ?_⟩
    · cases ht : v.tree with
      | none => exact Or.inr (Or.inl ⟨rfl, rfl, by simp [newTrees_append, newTrees]⟩)
      | some t =>
        exact Or.inl ⟨t, rfl, by simp [OcTree.addCalls], by simp [newTrees_append, newTrees]⟩
    · intro e he
      simp only [Except.error.injEq] at he
      rw [← he]; exact Or.inl rfl
  | some content =>
    simp only
    generalize hv1 : afterOpen a v = v1
    have hv1t : v1.tree = v.tree := by rw [← hv1]; rfl
    have hv1l : v1.log = v.log ++ [Event.openInput a] := by rw [← hv1]; rfl
    obtain ⟨hok, herr⟩ := readHeader_spec content v1
    cases hr : readHeader content v1 with
    | error e =>
      simp only [outLocals]
      obtain ⟨hfr, hterm⟩ := herr e hr
      obtain ⟨_, _, _, _, _, _, _, _, _, _, _, _, ht, hl⟩ := hfr
      refine ⟨⟨[], by simp, ?_⟩, ?_, by simp, ?_⟩
      · rw [ht, hl, hv1t, hv1l]
        cases htv : v.tree with
        | none => exact Or.inr (Or.inl ⟨rfl, rfl, by simp [newTrees_append, newTrees]⟩)
        | some t =>
          exact Or.inl ⟨t, rfl, by simp [OcTree.addCalls], by simp [newTrees_append, newTrees]⟩
      · rw [hl, hv1l]; simp [opened_append, opened]
      · intro e' he'
        simp only [Except.error.injEq] at he'
        rw [← he']
        rcases hterm with h | h | h <;> rw [h] <;> exact Or.inl rfl
    | ok p =>
      obtain ⟨hv, input⟩ := p
      simp only
      obtain ⟨_, _, _, _, _, _, _, _, _, _, _, _, ht, hl⟩ := hok hv input hr
      obtain ⟨⟨cs, hcs, hstep⟩, hres, hop, hterm⟩ := readData_spec env hv input
      refine ⟨⟨cs, hcs, ?_⟩, ?_, ?_, ?_⟩
      · rcases hstep with ⟨t, h1, h2, h3⟩ | ⟨h1, h2, h3⟩
        · refine Or.inl ⟨t, by rw [← hv1t, ← ht, h1], h2, ?_⟩
          rw [h3, hl, hv1l]; simp [newTrees_append, newTrees]
        · refine Or.inr (Or.inr ⟨by rw [← hv1t, ← ht, h1], by rw [h2, hres], ?_⟩)
          rw [h3, hl, hv1l, hres]; simp [newTrees_append, newTrees]
      · rw [hop, hl, hv1l]; simp [opened_append, opened]
      · intro v2 hv2
        have : (outLocals (readData env hv input)).tree ≠ none := by
          rcases hstep with ⟨t, _, h2, _⟩ | ⟨_, h2, _⟩ <;> rw [h2] <;> simp
        rw [hv2] at this
        exact this
      · intro e he
        rcases hterm e he with h | h
        · rw [h]; exact Or.inl rfl
        · exact Or.inr h

/-- An option leaves the tree and the log alone. -/
theorem parseOption_frame (env : Env) (a : String) (rest : List String) (v v1 : Locals)
    (k : Nat) (h : parseOption env a rest v = some (v1, k)) :
    v1.tree = v.tree ∧ v1.log = v.log := by
  unfold parseOption at h
  repeat' split at h
  all_goals first
    | (simp only [Option.some.injEq, Prod.mk.injEq] at h; rw [← h.1]; exact ⟨rfl, rfl⟩)
    | exact absurd h (by simp)

/-- A result that is not an error is the `ok` of the variables it carries. -/
theorem except_eq_ok (x : Except Result Locals) (h : x.toBool = true) :
    x = Except.ok (outLocals x) := by
  cases x with
  | error e => exact absurd h (by simp [Except.toBool])
  | ok v => rfl

theorem except_eq_error (x : Except Result Locals) (e : Result) (h : isError x e = true) :
    x = Except.error e := by
  cases x with
  | error e1 => simp only [isError, decide_eq_true_eq] at h; rw [h]
  | ok v => exact absurd h (by simp [isError])

/-! ## The tree is created once -/

/-- Once there is a tree, the rest of the run keeps it, with its resolution, and
creates no other, whatever arguments and files follow. -/
theorem mainLoop_keeps_tree (env : Env) (args : List String) (skip : Nat) (v : Locals)
    (t : OcTree) (ht : v.tree = some t) :
    ∃ t1, (mainLoop env args skip v).final.tree = some t1 ∧
      t1.resolution = t.resolution ∧
      newTrees (mainLoop env args skip v).final.log = newTrees v.log := by
  induction args generalizing skip v t with
  | nil =>
    rw [mainLoop]
    unfold finish
    rw [ht]
    simp only
    split
    · exact ⟨_, rfl, rfl, rfl⟩
    · exact ⟨_, rfl, rfl, rfl⟩
  | cons a rest ih =>
    cases skip with
    | succ k => rw [mainLoop]; exact ih k v t ht
    | zero =>
      rw [mainLoop]
      cases hp : parseOption env a rest v with
      | some p =>
        obtain ⟨v1, k⟩ := p
        obtain ⟨f1, f2⟩ := parseOption_frame env a rest v v1 k hp
        simp only
        obtain ⟨t1, h1, h2, h3⟩ := ih k v1 t (by rw [f1, ht])
        exact ⟨t1, h1, h2, by rw [h3, f2]⟩
      | none =>
        simp only
        obtain ⟨⟨cs, _, hstep⟩, _, _, _⟩ := processFile_spec env a v
        have hw : ∃ t2, (outLocals (processFile env a v)).tree = some t2 ∧
            t2.resolution = t.resolution ∧
            newTrees (outLocals (processFile env a v)).log = newTrees v.log := by
          rcases hstep with ⟨t', h1, h2, h3⟩ | ⟨h1, _⟩ | ⟨h1, _⟩
          · rw [ht] at h1
            simp only [Option.some.injEq] at h1
            exact ⟨_, h2, by rw [h1]; rfl, h3⟩
          · rw [ht] at h1; exact absurd h1 (by simp)
          · rw [ht] at h1; exact absurd h1 (by simp)
        cases hpf : processFile env a v with
        | error e =>
          rw [hpf] at hw
          exact hw
        | ok v1 =>
          rw [hpf] at hw
          obtain ⟨t2, h1, h2, h3⟩ := hw
          simp only [outLocals] at h1 h3
          obtain ⟨t1, g1, g2, g3⟩ := ih 0 v1 t2 h1
          exact ⟨t1, g1, g2.trans h2, g3.trans h3⟩

/-- From a state without a tree, the rest of the run creates at most one tree. -/
theorem mainLoop_newTrees_le_one (env : Env) (args : List String) (skip : Nat) (v : Locals)
    (hnone : v.tree = none) (hlog : newTrees v.log = []) :
    (newTrees (mainLoop env args skip v).final.log).length ≤ 1 := by
  induction args generalizing skip v with
  | nil =>
    rw [mainLoop]
    unfold finish
    rw [hnone]
    simp [hlog]
  | cons a rest ih =>
    cases skip with
    | succ k => rw [mainLoop]; exact ih k v hnone hlog
    | zero =>
      rw [mainLoop]
      cases hp : parseOption env a rest v with
      | some p =>
        obtain ⟨v1, k⟩ := p
        obtain ⟨f1, f2⟩ := parseOption_frame env a rest v v1 k hp
        exact ih k v1 (by rw [f1, hnone]) (by rw [f2, hlog])
      | none =>
        simp only
        obtain ⟨⟨cs, _, hstep⟩, _, _, _⟩ := processFile_spec env a v
        cases hpf : processFile env a v with
        | error e =>
          rw [hpf] at hstep
          simp only [outLocals] at hstep
          rcases hstep with ⟨t, h1, _⟩ | ⟨_, _, h3⟩ | ⟨_, _, h3⟩
          · rw [hnone] at h1; exact absurd h1 (by simp)
          · simp [h3, hlog]
          · simp [h3, hlog]
        | ok v1 =>
          rw [hpf] at hstep
          simp only [outLocals] at hstep
          rcases hstep with ⟨t, h1, _⟩ | ⟨_, h2, h3⟩ | ⟨_, h2, h3⟩
          · rw [hnone] at h1; exact absurd h1 (by simp)
          · exact ih 0 v1 h2 (by rw [h3, hlog])
          · obtain ⟨t1, _, _, g3⟩ := mainLoop_keeps_tree env rest 0 v1 _ h2
            simp [g3, h3, hlog]

/-- A run of `main` creates at most one tree. -/
theorem main_newTrees_le_one (env : Env) (args : List String) :
    (newTrees (main env args).final.log).length ≤ 1 := by
  unfold main
  split
  · simp [initLocals, newTrees]
  · exact mainLoop_newTrees_le_one env args 0 (initLocals env) rfl rfl

/-- C8: when no tree exists yet and the input file `a` is parsed and read
successfully, the whole run, whatever arguments and files follow, creates exactly one
tree: the `new OcTree` of this file, with resolution `scale / max(width, height, depth)`
of its header; the tree at the end of the run has that resolution. -/
theorem tree_created_once (env : Env) (a : String) (rest : List String) (v v1 : Locals)
    (hfile : parseOption env a rest v = none)
    (hnone : v.tree = none) (hlog : newTrees v.log = [])
    (hok : processFile env a v = Except.ok v1) :
    newTrees (mainLoop env (a :: rest) 0 v).final.log
      = [v1.scale / ((max (max v1.width v1.height) v1.depth : Int) : ℚ)] ∧
    ∃ t, (mainLoop env (a :: rest) 0 v).final.tree = some t ∧
      t.resolution = v1.scale / ((max (max v1.width v1.height) v1.depth : Int) : ℚ) := by
  obtain ⟨⟨cs, _, hstep⟩, _, _, _⟩ := processFile_spec env a v
  rw [hok] at hstep
  simp only [outLocals] at hstep
  rw [mainLoop, hfile]
  simp only [hok]
  rcases hstep with ⟨t', h1, _⟩ | ⟨_, h2, _⟩ | ⟨_, h2, h3⟩
  · rw [hnone] at h1; exact absurd h1 (by simp)
  · exact absurd h2 ((processFile_spec env a v).2.2.1 v1 hok)
  · obtain ⟨t1, g1, g2, g3⟩ := mainLoop_keeps_tree env rest 0 v1 _ h2
    refine ⟨?_, t1, g1, ?_⟩
    · rw [g3, h3, hlog]; rfl
    · rw [g2]; rfl

/-- Witness of C8: the run on `a.binvox` (scale 5, resolution 1) followed by `b.binvox`
(scale 10) creates one tree, of resolution 1. -/
theorem tree_created_once_witness :
    newTrees (mainLoop sampleEnv ["a.binvox", "b.binvox"] 0 (initLocals sampleEnv)).final.log
      = [sampleAfterFile.scale /
          ((max (max sampleAfterFile.width sampleAfterFile.height) sampleAfterFile.depth : Int) : ℚ)] ∧
    sampleAfterFile.scale /
        ((max (max sampleAfterFile.width sampleAfterFile.height) sampleAfterFile.depth : Int) : ℚ)
      = 1 :=
  ⟨(tree_created_once sampleEnv "a.binvox" ["b.binvox"] (initLocals sampleEnv) sampleAfterFile
      (by decide!) (by decide!) (by decide!) (except_eq_ok _ (by decide!))).1, by decide!⟩

/-! ## Fatal errors -/

/-- An input file leaves a tree that has received only `updateNode` calls in that
state. -/
theorem TreeStep_calls (v w : Locals) (h : TreeStep v w)
    (hv : ∀ c ∈ v.treeCalls, c.isUpdateNode = true) :
    ∀ c ∈ w.treeCalls, c.isUpdateNode = true := by
  obtain ⟨cs, hcs, hstep⟩ := h
  intro c hc
  unfold Locals.treeCalls at hc hv
  rcases hstep with ⟨t, h1, h2, _⟩ | ⟨_, h2, _⟩ | ⟨_, h2, _⟩
  · rw [h2] at hc
    rw [h1] at hv
    simp only [OcTree.addCalls, List.mem_append] at hc
    rcases hc with hc | hc
    · exact hv c hc
    · exact hcs c hc
  · rw [h2] at hc; simp at hc
  · rw [h2] at hc
    simp only [OcTree.addCalls, List.nil_append] at hc
    exact hcs c hc

/-- A run that ends with a fatal error of an input file has made no call of lines
294-305 on the tree. -/
theorem mainLoop_fatal_calls (env : Env) (args : List String) (skip : Nat) (v : Locals)
    (hv : ∀ c ∈ v.treeCalls, c.isUpdateNode = true)
    (hf : (mainLoop env args skip v).term.isFatalError = true) :
    ∀ c ∈ (mainLoop env args skip v).final.treeCalls, c.isUpdateNode = true := by
  induction args generalizing skip v with
  | nil =>
    rw [mainLoop] at hf
    unfold finish at hf
    split at hf
    · exact absurd hf (by simp [Termination.isFatalError])
    · split at hf <;> exact absurd hf (by simp [Termination.isFatalError])
  | cons a rest ih =>
    cases skip with
    | succ k => rw [mainLoop] at hf ⊢; exact ih k v hv hf
    | zero =>
      rw [mainLoop] at hf ⊢
      cases hp : parseOption env a rest v with
      | some p =>
        obtain ⟨v1, k⟩ := p
        rw [hp] at hf
        simp only at hf ⊢
        obtain ⟨f1, _⟩ := parseOption_frame env a rest v v1 k hp
        exact ih k v1 (by unfold Locals.treeCalls at hv ⊢; rw [f1]; exact hv) hf
      | none =>
        rw [hp] at hf
        simp only at hf ⊢
        have hw := TreeStep_calls v _ (processFile_spec env a v).1 hv
        cases hpf : processFile env a v with
        | error e =>
          rw [hpf] at hw
          exact hw
        | ok v1 =>
          rw [hpf] at hw hf
          exact ih 0 v1 hw hf

/-- C9: when the loop over the arguments is at an input file `a` whose processing hits
a fatal error (it cannot be opened, wrong magic string, header without `data`, missing
dimensions, payload past `size`), the run ends there with that error whatever
arguments `rest` follow: `a` is the last file opened.  And a run of `main` that ends
with such an error has made none of the calls `updateInnerOccupancy`, `prune`,
`writeBinary` on the tree: no output file is written. -/
theorem fatal_error_ends_run (env : Env) :
    (∀ (a : String) (rest : List String) (v : Locals) (e : Result),
      parseOption env a rest v = none → processFile env a v = Except.error e →
      mainLoop env (a :: rest) 0 v = e ∧ opened e.final.log = opened v.log ++ [a]) ∧
    (∀ args : List String, (main env args).term.isFatalError = true →
      ∀ c ∈ (main env args).final.treeCalls, c.isUpdateNode = true) := by
  constructor
  · intro a rest v e hfile herr
    constructor
    · rw [mainLoop, hfile]
      simp only [herr]
    · have := (processFile_spec env a v).2.1
      rw [herr] at this
      exact this
  · intro args hf
    unfold main at hf ⊢
    split
    · rename_i h
      rw [if_pos h] at hf
      exact absurd hf (by simp [Termination.isFatalError])
    · rename_i h
      rw [if_neg h] at hf
      exact mainLoop_fatal_calls env args 0 (initLocals env)
        (by intro c hc; simp [Locals.treeCalls, initLocals] at hc) hf

/-- Witness of C9: the command line `bad.binvox a.binvox`, whose first file has a wrong
magic string; the second file is not opened and nothing is written. -/
theorem fatal_error_ends_run_witness :
    (mainLoop sampleEnv ["bad.binvox", "a.binvox"] 0 (initLocals sampleEnv) = sampleBadMagic ∧
      opened sampleBadMagic.final.log = opened (initLocals sampleEnv).log ++ ["bad.binvox"]) ∧
    (∀ c ∈ (main sampleEnv ["bad.binvox", "a.binvox"]).final.treeCalls,
      c.isUpdateNode = true) :=
  ⟨(fatal_error_ends_run sampleEnv).1 "bad.binvox" ["a.binvox"] (initLocals sampleEnv)
      sampleBadMagic (by decide!) (except_eq_error _ _ (by decide!)),
   (fatal_error_ends_run sampleEnv).2 ["bad.binvox", "a.binvox"] (by decide!)⟩

/-! ## Exit status -/

/-- C10 fails on the code: the runs ended by a wrong magic string, a header without
`data`, missing dimensions and a payload past `size` all leave `main` through
`return 0` (lines 169, 199, 203, 244), so the exit status is 0. -/
theorem fatal_errors_exit_zero :
    ((main sampleEnv ["bad.binvox"]).term = Termination.badMagic ∧
      exitStatus (main sampleEnv ["bad.binvox"]).term = some 0) ∧
    ((main sampleEnv ["nodata.binvox"]).term = Termination.headerError ∧
      exitStatus (main sampleEnv ["nodata.binvox"]).term = some 0) ∧
    ((main sampleEnv ["nodim.binvox"]).term = Termination.missingDimensions ∧
      exitStatus (main sampleEnv ["nodim.binvox"]).term = some 0) ∧
    ((main sampleEnv ["overrun.binvox"]).term = Termination.overrun ∧
      exitStatus (main sampleEnv ["overrun.binvox"]).term = some 0) := by
  decide!

/-! ## Coordinates stay inside the grid -/

/-- On the natural numbers the decomposition of an index below `w * h * d` stays inside
the grid. -/
theorem decompose_range (w h d n : Nat) (hw : 1 ≤ w) (hh : 1 ≤ h) (hn : n < w * h * d) :
    n % w < w ∧ n / w % h < h ∧ n / (w * h) < d := by
  refine ⟨Nat.mod_lt _ (by omega), Nat.mod_lt _ (by omega), ?_⟩
  rw [Nat.div_lt_iff_lt_mul (Nat.mul_pos (by omega) (by omega))]
  rw [Nat.mul_comm]
  exact hn

/-- On the natural numbers an index is determined by its decomposition. -/
theorem decompose_recompose (w h n : Nat) :
    n / (w * h) * (w * h) + n / w % h * w + n % w = n := by
  have e1 := Nat.mod_add_div n w
  have e2 := Nat.mod_add_div (n / w) h
  have e3 := Nat.div_div_eq_div_mul n w h
  rw [← e3]
  nlinarith [e1, e2]

/-- C20 (amended): for a grid with `width, height, depth ≥ 1` whose number of cells
`width * height * depth` fits in `int`, and linear indices `0 ≤ i < size`, the
coordinates computed by lines 252-254 lie inside the grid, `0 ≤ y < width`,
`0 ≤ z < height`, `0 ≤ x < depth`, and two indices with the same coordinates are
equal. -/
theorem voxelCoords_in_grid (width height depth i : Int)
    (hw : 1 ≤ width) (hh : 1 ≤ height) (hd : 1 ≤ depth)
    (h0 : 0 ≤ i) (hi : i < width * height * depth)
    (hfit : width * height * depth ≤ 2147483647) :
    (0 ≤ (voxelCoords width height i).2.1 ∧ (voxelCoords width height i).2.1 < width) ∧
    (0 ≤ (voxelCoords width height i).2.2 ∧ (voxelCoords width height i).2.2 < height) ∧
    (0 ≤ (voxelCoords width height i).1 ∧ (voxelCoords width height i).1 < depth) ∧
    (∀ j : Int, 0 ≤ j → j < width * height * depth →
      voxelCoords width height j = voxelCoords width height i → j = i) := by
  obtain ⟨w, rfl⟩ := Int.eq_ofNat_of_zero_le (show (0 : Int) ≤ width by omega)
  obtain ⟨h, rfl⟩ := Int.eq_ofNat_of_zero_le (show (0 : Int) ≤ height by omega)
  obtain ⟨d, rfl⟩ := Int.eq_ofNat_of_zero_le (show (0 : Int) ≤ depth by omega)
  obtain ⟨n, rfl⟩ := Int.eq_ofNat_of_zero_le h0
  have hw1 : 1 ≤ w := by exact_mod_cast hw
  have hh1 : 1 ≤ h := by exact_mod_cast hh
  have hd1 : 1 ≤ d := by exact_mod_cast hd
  have hn : n < w * h * d := by exact_mod_cast hi
  have hfit1 : w * h * d ≤ 2147483647 := by exact_mod_cast hfit
  have hwh := mul_le_of_fit w h d hd1 hfit1
  obtain ⟨r1, r2, r3⟩ := decompose_range w h d n hw1 hh1 hn
  rw [voxelCoords_natCast w h n hwh]
  dsimp only
  refine ⟨⟨Int.ofNat_nonneg _, by exact_mod_cast r1⟩, ⟨Int.ofNat_nonneg _, by exact_mod_cast r2⟩,
    ⟨Int.ofNat_nonneg _, by exact_mod_cast r3⟩, ?_⟩
  intro j hj0 _ hj
  obtain ⟨m, rfl⟩ := Int.eq_ofNat_of_zero_le hj0
  rw [voxelCoords_natCast w h m hwh] at hj
  simp only [Prod.mk.injEq, Nat.cast_inj] at hj
  obtain ⟨a1, a2, a3⟩ := hj
  have k1 := decompose_recompose w h m
  have k2 := decompose_recompose w h n
  rw [a1, a2, a3] at k1
  have : m = n := by omega
  exact_mod_cast this

/-- Witness of C20 (amended) on the grid `2 x 3 x 4` at index `17`. -/
theorem voxelCoords_in_grid_witness :
    (0 ≤ (voxelCoords 2 3 17).2.1 ∧ (voxelCoords 2 3 17).2.1 < 2) ∧
    (0 ≤ (voxelCoords 2 3 17).2.2 ∧ (voxelCoords 2 3 17).2.2 < 3) ∧
    (0 ≤ (voxelCoords 2 3 17).1 ∧ (voxelCoords 2 3 17).1 < 4) ∧
    (∀ j : Int, 0 ≤ j → j < 2 * 3 * 4 →
      voxelCoords 2 3 j = voxelCoords 2 3 17 → j = 17) :=
  voxelCoords_in_grid 2 3 4 17 (by decide) (by decide) (by decide) (by decide) (by decide)
    (by decide)

/-- C20 fails on the code: with the header line `dim 65534 65535 65536` the product
`width * height` of line 254 is `-65536` in 32 bits and `size` is `131072`.  The index
`65536` is below `size` and below the number of cells, and line 254 gives it
`x = 65536 / (-65536) = -1`, outside the grid. -/
theorem voxelCoords_in_grid_overflow :
    (1 ≤ hugeLocals.width ∧ 1 ≤ hugeLocals.height ∧ 1 ≤ hugeLocals.depth) ∧
    wrap32 (hugeLocals.width * hugeLocals.height) = -65536 ∧
    hugeLocals.size = 131072 ∧ (0 : Int) ≤ 65536 ∧ (65536 : Int) < hugeLocals.size ∧
    (65536 : Int) < hugeLocals.width * hugeLocals.height * hugeLocals.depth ∧
    (voxelCoords hugeLocals.width hugeLocals.height 65536).1 = -1 ∧
    ¬ (0 ≤ (voxelCoords hugeLocals.width hugeLocals.height 65536).1) := by
  decide

/-! ## Divisors of the inner loop -/

/-- C19 (amended): for a header with `width, height, depth ≥ 1` and a payload whose
first pair has `count ≥ 1` and fits in the grid (`count ≤ size`), the three divisors of
the inner loop (`width`, `width * height` and `size / 20`, the products being the
32-bit values of the program) are all non-zero iff `size ≥ 20`, and the voxel-data
loop ends in a division by zero iff `size < 20`.  When the number of cells
`width * height * depth` fits in `int`, `size` is that number, and the loop is free of
a division by zero exactly when the grid has at least 20 cells. -/
theorem divisors_nonzero_iff (rot : point3d → point3d) (v : Locals) (res : ℚ) (t : OcTree)
    (value count : my_byte) (rest : List my_byte)
    (hw : 1 ≤ v.width) (hh : 1 ≤ v.height) (hd : 1 ≤ v.depth)
    (hc : 1 ≤ count.val) (hfit : (count.val : Int) ≤ v.size) :
    ((v.width ≠ 0 ∧ wrap32 (v.width * v.height) ≠ 0 ∧ v.size.tdiv 20 ≠ 0) ↔ 20 ≤ v.size) ∧
    ((readVoxels rot v res t (value :: count :: rest)).1 ≠ LoopExit.divByZero ↔
      20 ≤ v.size) ∧
    (v.width * v.height * v.depth ≤ 2147483647 →
      v.size = v.width * v.height * v.depth ∧
      ((readVoxels rot v res t (value :: count :: rest)).1 ≠ LoopExit.divByZero ↔
        20 ≤ v.width * v.height * v.depth)) := by
  have hs : 0 < v.size := by omega
  have hwh : wrap32 (v.width * v.height) ≠ 0 := by
    intro h0
    have : v.size = 0 := by
      unfold Locals.size
      rw [h0, Int.zero_mul]
      rfl
    omega
  have hdiv : v.size.tdiv 20 ≠ 0 ↔ 20 ≤ v.size := by
    rw [Int.tdiv_eq_ediv (by omega) (by omega)]
    omega
  have hcond : (v.size.tdiv 20 = 0 ∨ v.width = 0 ∨ wrap32 (v.width * v.height) = 0) ↔
      ¬ 20 ≤ v.size := by
    constructor
    · rintro (h | h | h)
      · exact fun h20 => (hdiv.2 h20) h
      · omega
      · exact absurd h hwh
    · intro h
      exact Or.inl (by_contra fun h0 => h (hdiv.1 h0))
  have hrun : (readVoxels rot v res t (value :: count :: rest)).1 ≠ LoopExit.divByZero ↔
      20 ≤ v.size := by
    constructor
    · intro hne
      by_contra h20
      apply hne
      have hnone := (voxelLoop_eq_none rot v res value count.val (DataState.init t).index
        { DataState.init t with
          end_index := (DataState.init t).index + (count.val : Int),
          pairs := (DataState.init t).pairs ++ [(value, count)] }).2
          ⟨by omega, hcond.2 h20⟩
      have h1 : (DataState.init t).end_index < v.size := by
        show (0 : Int) < v.size
        exact hs
      have h2 : ¬ ((DataState.init t).index + (count.val : Int) > v.size) := by
        show ¬ ((0 : Int) + (count.val : Int) > v.size)
        omega
      unfold readVoxels dataLoop
      simp only [h1, if_true, h2, if_false, hnone]
    · intro h20 hexit
      obtain ⟨new, rest1, done, -, -, -, -, -, -, -, -, -, -, e4⟩ :=
        readVoxels_spec rot v res t (value :: count :: rest)
      obtain ⟨a, -, -, -, -, hz⟩ := e4 hexit
      exact (hcond.1 hz) h20
  refine ⟨⟨fun h => hdiv.1 h.2.2, fun h => ⟨by omega, hwh, hdiv.2 h⟩⟩, hrun, ?_⟩
  · intro hcells
    have p1 : 0 < v.width * v.height := Int.mul_pos (by omega) (by omega)
    have p2 : v.width * v.height ≤ v.width * v.height * v.depth :=
      le_mul_of_one_le_right (le_of_lt p1) hd
    have p3 : 0 < v.width * v.height * v.depth := Int.mul_pos p1 (by omega)
    have hsz : v.size = v.width * v.height * v.depth := by
      unfold Locals.size
      rw [wrap32_of_range (v.width * v.height) (by omega) (by omega),
        wrap32_of_range _ (by omega) hcells]
    refine ⟨hsz, ?_⟩
    rw [← hsz]
    exact hrun

/-- Witness of C19 (amended) on the 20-cell sample grid with the first pair `(1, 3)`. -/
theorem divisors_nonzero_iff_witness :
    ((sampleLocals.width ≠ 0 ∧ wrap32 (sampleLocals.width * sampleLocals.height) ≠ 0 ∧
        sampleLocals.size.tdiv 20 ≠ 0) ↔ 20 ≤ sampleLocals.size) ∧
    ((readVoxels id sampleLocals 1 sampleTree (1 :: 3 :: [0, 17])).1 ≠ LoopExit.divByZero ↔
      20 ≤ sampleLocals.size) ∧
    (sampleLocals.width * sampleLocals.height * sampleLocals.depth ≤ 2147483647 →
      sampleLocals.size = sampleLocals.width * sampleLocals.height * sampleLocals.depth ∧
      ((readVoxels id sampleLocals 1 sampleTree (1 :: 3 :: [0, 17])).1 ≠ LoopExit.divByZero ↔
        20 ≤ sampleLocals.width * sampleLocals.height * sampleLocals.depth)) :=
  divisors_nonzero_iff id sampleLocals 1 sampleTree 1 3 [0, 17]
    (by decide) (by decide) (by decide) (by decide) (by decide)

/-- C19 fails on the code: the header line `dim 1 1431655766 3` has positive
dimensions and a grid of `4294967298` cells, which is more than 20, and the first pair
`(1, 1)` of the payload has `count ≥ 1` and fits in the grid.  The product of line 206
is `2` in 32 bits, so `size / 20` is zero and the first voxel ends the loop in the
remainder by zero of line 247. -/
theorem divisors_zero_overflow :
    (1 ≤ wrapLocals.width ∧ 1 ≤ wrapLocals.height ∧ 1 ≤ wrapLocals.depth) ∧
    wrapLocals.width * wrapLocals.height * wrapLocals.depth = 4294967298 ∧
    20 ≤ wrapLocals.width * wrapLocals.height * wrapLocals.depth ∧
    wrapLocals.size = 2 ∧ wrapLocals.size.tdiv 20 = 0 ∧
    (1 : Int) ≤ wrapLocals.size ∧
    (readVoxels id wrapLocals 1 sampleTree [1, 1]).1 = LoopExit.divByZero := by
  decide!

/-! ## The command line -/

/-- The option branches of the loop make the assignments of the option recognised. -/
theorem parseOption_eq (env : Env) (a : String) (rest : List String) (v : Locals) :
    parseOption env a rest v
      = (optionItem a rest).map (fun p => (applyItem env p.1 v, p.2)) := by
  unfold parseOption optionItem
  repeat' split
  all_goals rfl

/-- An argument is taken as an input file exactly when no option is recognised. -/
theorem parseOption_eq_none (env : Env) (a : String) (rest : List String) (v : Locals) :
    parseOption env a rest v = none ↔ optionItem a rest = none := by
  rw [parseOption_eq]
  simp

/-- An argument recognised as an option is not an input file. -/
theorem optionItem_isFile (a : String) (rest : List String) (it : Item) (k : Nat)
    (h : optionItem a rest = some (it, k)) : it.isFile = false := by
  unfold optionItem at h
  repeat' split at h
  all_goals first
    | (simp only [Option.some.injEq, Prod.mk.injEq] at h; rw [← h.1]; rfl)
    | exact absurd h (by simp)

/-! ## A command line without input file -/

/-- Without a tree and without an input file among the arguments left, the loop over
the arguments ends at line 294 with the null tree. -/
theorem mainLoop_no_file (env : Env) (args : List String) (skip : Nat) (v : Locals)
    (hnone : v.tree = none) (hno : ∀ it ∈ items args skip, it.isFile = false) :
    (mainLoop env args skip v).term = Termination.nullTree ∧
    (mainLoop env args skip v).final.tree = none ∧
    (mainLoop env args skip v).final.log = v.log := by
  induction args generalizing skip v with
  | nil =>
    rw [mainLoop]
    unfold finish
    rw [hnone]
    exact ⟨rfl, hnone, rfl⟩
  | cons a rest ih =>
    cases skip with
    | succ k =>
      rw [mainLoop]
      rw [items] at hno
      exact ih k v hnone hno
    | zero =>
      rw [mainLoop]
      rw [items] at hno
      cases ho : optionItem a rest with
      | some p =>
        obtain ⟨it, k⟩ := p
        rw [ho] at hno
        have hp : parseOption env a rest v = some (applyItem env it v, k) := by
          rw [parseOption_eq, ho]; rfl
        rw [hp]
        simp only
        obtain ⟨f1, f2⟩ := parseOption_frame env a rest v _ k hp
        obtain ⟨g1, g2, g3⟩ := ih k (applyItem env it v) (by rw [f1, hnone])
          (fun it1 h1 => hno it1 (List.mem_cons_of_mem _ h1))
        exact ⟨g1, g2, by rw [g3, f2]⟩
      | none =>
        rw [ho] at hno
        have := hno (Item.file a) (List.mem_cons_self _ _)
        exact absurd this (by simp [Item.isFile])

/-- C11 fails on the code: for every command line that asks for no help and names no
input file, so that no tree is created, the run does not reach the test of line 297:
it calls `updateInnerOccupancy` through the null pointer `tree` at line 294, which is
undefined behaviour, and there is no exit status 1. -/
theorem no_input_file_null_tree (env : Env) (args : List String)
    (hargs : args ≠ []) (hhelp : args.any isHelp = false)
    (hno : ∀ it ∈ items args 0, it.isFile = false) :
    (main env args).term = Termination.nullTree ∧
    (main env args).term ≠ Termination.noInputFiles ∧
    exitStatus (main env args).term = none ∧
    (main env args).final.tree = none := by
  have hm : main env args = mainLoop env args 0 (initLocals env) := by
    unfold main
    have : args.isEmpty = false := by
      cases args with
      | nil => exact absurd rfl hargs
      | cons a l => rfl
    rw [this, hhelp]
    rfl
  obtain ⟨g1, g2, _⟩ := mainLoop_no_file env args 0 (initLocals env) rfl hno
  rw [hm, g1]
  exact ⟨rfl, by decide, rfl, g2⟩

/-- Witness of the failure of C11: the command line `--mark-free`. -/
theorem no_input_file_null_tree_witness :
    (main sampleEnv ["--mark-free"]).term = Termination.nullTree ∧
    (main sampleEnv ["--mark-free"]).term ≠ Termination.noInputFiles ∧
    exitStatus (main sampleEnv ["--mark-free"]).term = none ∧
    (main sampleEnv ["--mark-free"]).final.tree = none :=
  no_input_file_null_tree sampleEnv ["--mark-free"] (by decide) (by decide) (by decide)

/-! ## The grid `2 x 2 x 2` -/

/-- When a divisor of the inner loop is zero and the first pair of the payload has
`count ≥ 1` and fits in the grid, the voxel-data loop ends at the first voxel in a
division by zero: no call is made on the tree and nothing is counted. -/
theorem readVoxels_divByZero (rot : point3d → point3d) (v : Locals) (res : ℚ) (t : OcTree)
    (value count : my_byte) (rest : List my_byte)
    (hz : v.size.tdiv 20 = 0 ∨ v.width = 0 ∨ wrap32 (v.width * v.height) = 0)
    (hc : 1 ≤ count.val) (hfit : (count.val : Int) ≤ v.size) :
    readVoxels rot v res t (value :: count :: rest)
      = (LoopExit.divByZero,
          { DataState.init t with end_index := (count.val : Int), pairs := [(value, count)] }) := by
  have hnone := (voxelLoop_eq_none rot v res value count.val (DataState.init t).index
    { DataState.init t with
      end_index := (DataState.init t).index + (count.val : Int),
      pairs := (DataState.init t).pairs ++ [(value, count)] }).2 ⟨by omega, hz⟩
  have h1 : (DataState.init t).end_index < v.size := by
    show (0 : Int) < v.size
    omega
  have h2 : ¬ ((DataState.init t).index + (count.val : Int) > v.size) := by
    show ¬ ((0 : Int) + (count.val : Int) > v.size)
    omega
  unfold readVoxels dataLoop
  simp only [h1, if_true, h2, if_false, hnone]
  simp [DataState.init]

/-- C14 fails on the code in its own example: on the file with header `dim 2 2 2`,
`translate 0 0 0`, `scale 2` and payload `(1,4), (0,4)` the tree is created with
resolution 1, and the first iteration of the inner loop computes `0 % (8 / 20)`, a
remainder by zero.  The run ends there (undefined behaviour, no exit status) and the
tree has received no call at all instead of the four occupied updates. -/
theorem small_grid_divByZero :
    (main smallEnv ["small.binvox"]).term = Termination.divByZero ∧
    exitStatus (main smallEnv ["small.binvox"]).term = none ∧
    (main smallEnv ["small.binvox"]).final.size.tdiv 20 = 0 ∧
    (main smallEnv ["small.binvox"]).final.tree = some { resolution := 1, calls := [] } ∧
    occupiedUpdates (main smallEnv ["small.binvox"]).final.treeCalls = 0 := by
  decide!

/-! ## A bounding box on the grid `2 x 2 x 2` -/

/-- Without a configured box every point passes the box test. -/
theorem inBBX_not_applied (v : Locals) (p : point3d) (h : v.applyBBX = false) :
    inBBX v p = true := by
  simp [inBBX, h]

/-- With a configured box a point passes the test iff it lies between the bounds on
the three axes. -/
theorem inBBX_applied (v : Locals) (p : point3d) (h : v.applyBBX = true) :
    inBBX v p = true ↔
      (v.minX ≤ p.x ∧ p.x ≤ v.maxX) ∧ (v.minY ≤ p.y ∧ p.y ≤ v.maxY) ∧
      (v.minZ ≤ p.z ∧ p.z ≤ v.maxZ) := by
  simp only [inBBX, h, Bool.not_true, Bool.false_or, Bool.and_eq_true, decide_eq_true_eq,
    ge_iff_le]
  tauto

/-- The voxel coordinates of the indices 0 to 3 of a grid with `width = height = 2`. -/
theorem voxelCoords_small :
    voxelCoords 2 2 0 = (0, 0, 0) ∧ voxelCoords 2 2 1 = (0, 1, 0) ∧
    voxelCoords 2 2 2 = (0, 0, 1) ∧ voxelCoords 2 2 3 = (0, 1, 1) := by
  decide

/-- A box that rejects the point of index 0 of a grid with `width = height = 2`
rejects the point of index 1 or the point of index 2: each of these two points agrees
with the first one on two axes. -/
theorem small_grid_corner (rot : point3d → point3d) (v : Locals) (res : ℚ)
    (hw : v.width = 2) (hh : v.height = 2) (hrot : v.rotate = false)
    (h0 : inBBX v (endpoint rot v res 0) = false) :
    inBBX v (endpoint rot v res 1) = false ∨ inBBX v (endpoint rot v res 2) = false := by
  obtain ⟨c0, c1, c2, -⟩ := voxelCoords_small
  by_contra hcon
  simp only [not_or, Bool.not_eq_false] at hcon
  obtain ⟨h1, h2⟩ := hcon
  have hb : v.applyBBX = true := by
    cases hb : v.applyBBX with
    | true => rfl
    | false => rw [inBBX_not_applied v _ hb] at h0; exact absurd h0 (by simp)
  rw [← Bool.not_eq_true, inBBX_applied v _ hb] at h0
  rw [inBBX_applied v _ hb] at h1 h2
  apply h0
  simp only [endpoint, hw, hh, hrot, c0, c1, c2, Bool.false_eq_true, if_false] at h1 h2 ⊢
  cases ho : v.applyOffset
  · simp only [ho, Bool.false_eq_true, if_false] at h1 h2 ⊢
    exact ⟨h1.1, h2.2.1, h1.2.2⟩
  · simp only [ho, if_true, point3d.add] at h1 h2 ⊢
    exact ⟨h1.1, h2.2.1, h1.2.2⟩

/-- The number of occupied updates among the calls for one voxel is at most one, and
zero when the voxel is rejected by the box or is unoccupied with `mark_free` off. -/
theorem occupiedUpdates_voxelCall (rot : point3d → point3d) (v : Locals) (res : ℚ)
    (value : my_byte) (i : Int) :
    occupiedUpdates (voxelCall rot v res value i) ≤ 1 ∧
    (inBBX v (endpoint rot v res i) = false → voxelCall rot v res value i = []) ∧
    (v.mark_free = false → value ≠ 1 → voxelCall rot v res value i = []) := by
  unfold voxelCall
  refine ⟨?_, ?_, ?_⟩
  · split
    · cases hv : (value == 1) <;> simp [occupiedUpdates]
    · simp [occupiedUpdates]
  · intro h; simp [h]
  · intro hm hv
    have : (value == 1) = false := by simpa using hv
    simp [hm, this]

/-- The occupied updates of two lists of calls add up. -/
theorem occupiedUpdates_append (a b : List TreeCall) :
    occupiedUpdates (a ++ b) = occupiedUpdates a + occupiedUpdates b := by
  simp [occupiedUpdates]

/-- On a grid with `width = height = 2`, `mark_free` off and no rotation, a box that
rejects the point of index 0 lets at most two of the voxels of the payload
`(1,4), (0,4)` through. -/
theorem small_grid_forwarded_le (rot : point3d → point3d) (v : Locals) (res : ℚ)
    (hw : v.width = 2) (hh : v.height = 2) (hrot : v.rotate = false)
    (hmf : v.mark_free = false)
    (h0 : inBBX v (endpoint rot v res 0) = false) :
    occupiedUpdates (valuesCalls rot v res (expand [(1, 4), (0, 4)]) 0) ≤ 2 := by
  have hc := small_grid_corner rot v res hw hh hrot h0
  have e : expand [((1 : my_byte), (4 : my_byte)), (0, 4)] = [1, 1, 1, 1, 0, 0, 0, 0] := by
    decide
  rw [e]
  have a1 : (0 : Int) + 1 = 1 := rfl
  have a2 : (1 : Int) + 1 = 2 := rfl
  have a3 : (2 : Int) + 1 = 3 := rfl
  have z : ∀ i, voxelCall rot v res 0 i = [] := fun i =>
    (occupiedUpdates_voxelCall rot v res 0 i).2.2 hmf (by decide)
  have k0 : voxelCall rot v res 1 0 = [] := (occupiedUpdates_voxelCall rot v res 1 0).2.1 h0
  have k1 := (occupiedUpdates_voxelCall rot v res 1 1).1
  have k2 := (occupiedUpdates_voxelCall rot v res 1 2).1
  have k3 := (occupiedUpdates_voxelCall rot v res 1 3).1
  simp only [valuesCalls, a1, a2, a3, z, k0, List.append_nil, List.nil_append,
    occupiedUpdates_append]
  rcases hc with h | h
  · rw [(occupiedUpdates_voxelCall rot v res 1 1).2.1 h]
    simp only [occupiedUpdates, List.filter_nil, List.length_nil, zero_add] at k2 k3 ⊢
    omega
  · rw [(occupiedUpdates_voxelCall rot v res 1 2).2.1 h]
    simp only [occupiedUpdates, List.filter_nil, List.length_nil, zero_add] at k1 k3 ⊢
    omega

/-- C15 (amended): on the grid `dim 2 2 2` with the payload `(1,4), (0,4)`, `mark_free`
off and no rotation, a bounding box that rejects the point of index 0 also rejects the
point of index 1 or the point of index 2, so that of the four occupied voxels at most
two are forwarded by lines 267-274: no box forwards exactly the three occupied voxels
1, 2 and 3. -/
theorem small_grid_box (rot : point3d → point3d) (v : Locals) (res : ℚ)
    (hw : v.width = 2) (hh : v.height = 2) (hrot : v.rotate = false)
    (hmf : v.mark_free = false)
    (h0 : inBBX v (endpoint rot v res 0) = false) :
    (inBBX v (endpoint rot v res 1) = false ∨ inBBX v (endpoint rot v res 2) = false) ∧
    occupiedUpdates (valuesCalls rot v res (expand [(1, 4), (0, 4)]) 0) ≤ 2 :=
  ⟨small_grid_corner rot v res hw hh hrot h0,
    small_grid_forwarded_le rot v res hw hh hrot hmf h0⟩

/-- Witness of C15 (amended): the box `[0,2] x [0.5,2] x [0,2]` rejects the points of
the indices 0 and 2 and lets the occupied voxels 1 and 3 through; the voxels 0, 2, 4
and 6 are the ones rejected. -/
theorem small_grid_box_witness :
    (valuesCalls id smallLocals 1 (expand [(1, 4), (0, 4)]) 0
        = [TreeCall.updateNode ⟨1 / 1000000, 1 + 1 / 1000000, 1 / 1000000⟩ true true,
           TreeCall.updateNode ⟨1 / 1000000, 1 + 1 / 1000000, 1 + 1 / 1000000⟩ true true] ∧
      (List.filter (fun i => !inBBX smallLocals (endpoint id smallLocals 1 i))
        (indicesFrom 0 8)) = [0, 2, 4, 6]) ∧
    ((inBBX smallLocals (endpoint id smallLocals 1 1) = false ∨
        inBBX smallLocals (endpoint id smallLocals 1 2) = false) ∧
      occupiedUpdates (valuesCalls id smallLocals 1 (expand [(1, 4), (0, 4)]) 0) ≤ 2) :=
  ⟨by decide!, small_grid_box id smallLocals 1 rfl rfl rfl rfl (by decide!)⟩

/-- C15 fails on the code: on the grid `dim 2 2 2` with the payload `(1,4), (0,4)` and
`mark_free` off there is no bounding box for which the voxel-data loop forwards three
occupied updates and counts one voxel as skipped: whatever the box, the loop ends at
voxel 0 in the remainder by zero `0 % (8 / 20)` without any call on the tree.  Nor is
there, without rotation, a box that rejects the point of index 0 and for which the
calls of lines 267-274 for the eight voxels hold three occupied updates. -/
theorem small_grid_no_box :
    (¬ ∃ v : Locals, v.width = 2 ∧ v.height = 2 ∧ v.depth = 2 ∧ v.mark_free = false ∧
      v.applyBBX = true ∧ inBBX v (endpoint id v 1 0) = false ∧
      occupiedUpdates (readVoxels id v 1 (OcTree.mk 1 []) [1, 4, 0, 4]).2.tree.calls = 3 ∧
      (readVoxels id v 1 (OcTree.mk 1 []) [1, 4, 0, 4]).2.nr_voxels_out = 1) ∧
    (¬ ∃ v : Locals, v.width = 2 ∧ v.height = 2 ∧ v.rotate = false ∧ v.mark_free = false ∧
      inBBX v (endpoint id v 1 0) = false ∧
      occupiedUpdates (valuesCalls id v 1 (expand [(1, 4), (0, 4)]) 0) = 3) := by
  constructor
  · rintro ⟨v, hw, hh, hd, -, -, -, h3, -⟩
    have hs : v.size = 8 := by
      unfold Locals.size
      rw [hw, hh, hd]
      rfl
    rw [readVoxels_divByZero id v 1 _ 1 4 [0, 4] (Or.inl (by rw [hs]; decide)) (by decide)
      (by rw [hs]; decide)] at h3
    simp [occupiedUpdates, DataState.init] at h3
  · rintro ⟨v, hw, hh, hrot, hmf, h0, h3⟩
    have := small_grid_forwarded_le id v 1 hw hh hrot hmf h0
    omega

/-! ## Forwarded and skipped voxels -/

/-- An option among the items is passed over when the input files are listed. -/
theorem filesWithOptions_cons_option (env : Env) (pre : List Item) (it : Item)
    (its : List Item) (h : it.isFile = false) :
    filesWithOptions env pre (it :: its) = filesWithOptions env (pre ++ [it]) its := by
  cases it <;> first | rfl | exact absurd h (by simp [Item.isFile])

/-- The assignments of an item keep the variables in line with the option values
established by the items so far. -/
theorem optionsAfter_snoc (env : Env) (pre : List Item) (it : Item) (v : Locals)
    (h : v.options = optionsAfter env pre) :
    (applyItem env it v).options = optionsAfter env (pre ++ [it]) := by
  unfold Locals.options optionsAfter at h ⊢
  simp only [Options.mk.injEq] at h ⊢
  obtain ⟨h1, h2, h3, h4⟩ := h
  cases it <;>
    simp [applyItem, List.filter_append, List.filterMap_append, Item.isMark, Item.box,
      Item.shift, h1, h2, h3, h4]

/-- An input file that is processed to its end leaves the option values alone. -/
theorem processFile_options (env : Env) (a : String) (v v1 : Locals)
    (h : processFile env a v = Except.ok v1) : v1.options = v.options := by
  unfold processFile at h
  cases hf : env.files a with
  | none => rw [hf] at h; exact absurd h (by simp)
  | some content =>
    rw [hf] at h
    simp only at h
    cases hr : readHeader content (afterOpen a v) with
    | error e => rw [hr] at h; exact absurd h (by simp)
    | ok p =>
      obtain ⟨hv, input⟩ := p
      rw [hr] at h
      simp only at h
      obtain ⟨f1, f2, _, f4, f5, f6, f7, f8, f9, f10, f11, f12, _, _⟩ :=
        (readHeader_spec content (afterOpen a v)).1 hv input hr
      have e1 : hv.options = v.options := by
        unfold Locals.options
        rw [f1, f2, f4, f5, f6, f7, f8, f9, f10, f11, f12]
        rfl
      have e2 : v1.options = hv.options := by
        unfold readData at h
        simp only at h
        split at h
        · exact absurd h (by simp)
        · exact absurd h (by simp)
        · simp only [Except.ok.injEq] at h
          rw [← h]
          unfold ensureTree
          cases hv.tree <;> rfl
      rw [e2, e1]

/-- The files listed by `fileCalls` are the files the run opens. -/
theorem fileCalls_opened (env : Env) (args : List String) (skip : Nat) (v : Locals) :
    opened (mainLoop env args skip v).final.log
      = opened v.log ++ (fileCalls env args skip v).map Prod.fst := by
  induction args generalizing skip v with
  | nil =>
    rw [mainLoop, fileCalls]
    unfold finish
    cases v.tree with
    | none => simp
    | some t => simp only; split <;> simp
  | cons a rest ih =>
    cases skip with
    | succ k => rw [mainLoop, fileCalls]; exact ih k v
    | zero =>
      rw [mainLoop, fileCalls]
      cases hp : parseOption env a rest v with
      | some p =>
        obtain ⟨v1, k⟩ := p
        simp only
        rw [ih k v1, (parseOption_frame env a rest v v1 k hp).2]
      | none =>
        simp only
        have hop := (processFile_spec env a v).2.1
        cases hpf : processFile env a v with
        | error e =>
          rw [hpf] at hop
          simp only [outLocals] at hop
          simp [hop]
        | ok v1 =>
          rw [hpf] at hop
          simp only [outLocals] at hop
          simp only [List.map_cons]
          rw [ih 0 v1, hop]
          simp

/-- From variables that hold the option values established by the items `pre`, the loop
over the arguments opens each input file with the option values established by the
items before it. -/
theorem fileCalls_options (env : Env) (args : List String) (skip : Nat) (v : Locals)
    (pre : List Item) (h : v.options = optionsAfter env pre) :
    ∃ rest, filesWithOptions env pre (items args skip)
        = (fileCalls env args skip v).map (fun c => (c.1, c.2.options)) ++ rest ∧
      ((mainLoop env args skip v).term = Termination.done → rest = []) := by
  induction args generalizing skip v pre with
  | nil => exact ⟨[], by simp [items, fileCalls, filesWithOptions], fun _ => rfl⟩
  | cons a rest ih =>
    cases skip with
    | succ k => rw [mainLoop, fileCalls, items]; exact ih k v pre h
    | zero =>
      rw [mainLoop, fileCalls, items]
      cases ho : optionItem a rest with
      | some p =>
        obtain ⟨it, k⟩ := p
        have hp : parseOption env a rest v = some (applyItem env it v, k) := by
          rw [parseOption_eq, ho]; rfl
        rw [hp]
        simp only
        rw [filesWithOptions_cons_option env pre it _ (optionItem_isFile a rest it k ho)]
        exact ih k (applyItem env it v) (pre ++ [it]) (optionsAfter_snoc env pre it v h)
      | none =>
        have hp : parseOption env a rest v = none := (parseOption_eq_none env a rest v).2 ho
        rw [hp]
        simp only [filesWithOptions, List.map_cons, List.cons_append]
        have hpre : optionsAfter env (pre ++ [Item.file a]) = optionsAfter env pre := by
          rw [← optionsAfter_snoc env pre (Item.file a) v h, ← h]
          rfl
        cases hpf : processFile env a v with
        | error e =>
          refine ⟨filesWithOptions env (pre ++ [Item.file a]) (items rest 0), ?_, ?_⟩
          · simp [h]
          · intro hd
            rcases (processFile_spec env a v).2.2.2 e hpf with hf | hf
            · simp only at hd
              rw [hd] at hf
              exact absurd hf (by simp [Termination.isFatalError])
            · simp only at hd
              rw [hd] at hf
              exact absurd hf (by simp)
        | ok v1 =>
          obtain ⟨r, hr1, hr2⟩ := ih 0 v1 (pre ++ [Item.file a])
            (by rw [processFile_options env a v v1 hpf, h, hpre])
          exact ⟨r, by simp only; rw [hr1, h], hr2⟩

/-- C17: in every command line the loop over the arguments opens each input file with
the option values established by the options before it, whatever follows it:
`mark_free` is set iff the last `--mark-free` / `--no-mark-free` before the file is
`--mark-free`, `rotate` iff a `--rotate` comes before it, and the bounding box and the
offset are those of the last `--bb` and `--offset` before it, none if there is none.
The files in question are the files that the run opens, and they are all the input
files of the command line when the run reaches its end. -/
theorem options_of_preceding_flags (env : Env) (args : List String) :
    opened (mainLoop env args 0 (initLocals env)).final.log
      = (fileCalls env args 0 (initLocals env)).map Prod.fst ∧
    ∃ rest, filesWithOptions env [] (items args 0)
        = (fileCalls env args 0 (initLocals env)).map (fun c => (c.1, c.2.options)) ++ rest ∧
      ((mainLoop env args 0 (initLocals env)).term = Termination.done → rest = []) := by
  refine ⟨?_, fileCalls_options env args 0 (initLocals env) [] ?_⟩
  · rw [fileCalls_opened]
    rfl
  · simp [Locals.options, optionsAfter, initLocals]

/-- Witness of C17: the run on `--mark-free a.binvox --no-mark-free --rotate b.binvox`
reaches its end, and its two input files are opened with the option values established
by the options in front of each of them. -/
theorem options_of_preceding_flags_witness :
    filesWithOptions sampleEnv []
        (items ["--mark-free", "a.binvox", "--no-mark-free", "--rotate", "b.binvox"] 0)
      = (fileCalls sampleEnv
          ["--mark-free", "a.binvox", "--no-mark-free", "--rotate", "b.binvox"] 0
          (initLocals sampleEnv)).map (fun c => (c.1, c.2.options)) := by
  obtain ⟨_, rest, h2, h3⟩ := options_of_preceding_flags sampleEnv
    ["--mark-free", "a.binvox", "--no-mark-free", "--rotate", "b.binvox"]
  rw [h2, h3 (by decide!), List.append_nil]

/-- Example: in `--mark-free a.binvox --no-mark-free --rotate b.binvox --mark-free`
the first file is processed with `mark_free` set and without rotation, the second one
with `mark_free` off and with rotation. -/
theorem fileCalls_sample :
    (fileCalls sampleEnv
        ["--mark-free", "a.binvox", "--no-mark-free", "--rotate", "b.binvox", "--mark-free"]
        0 (initLocals sampleEnv)).map (fun c => (c.1, c.2.options))
      = [("a.binvox", ⟨true, false, none, none⟩), ("b.binvox", ⟨false, true, none, none⟩)] := by
  decide!

/-! ## The output path -/

/-- A file name with `.bt` appended is not empty. -/
theorem append_bt_ne (name : String) : name ++ ".bt" ≠ "" := by
  intro h
  have := congrArg String.length h
  simp only [String.length_append, String.length_empty, Nat.add_eq_zero] at this
  exact absurd this.2 (by decide)

/-- Without `-o` among the items the name stays as it is when it is not empty, and
becomes the first input file with `.bt` appended otherwise. -/
theorem nameAfter_no_output (its : List Item) (cur : String)
    (h : splitLastOutput its = none) :
    nameAfter its cur
      = if cur = "" then ((firstFile its).map (fun f => f ++ ".bt")).getD "" else cur := by
  induction its generalizing cur with
  | nil => simp only [nameAfter, firstFile]; split <;> simp_all
  | cons it its ih =>
    rw [splitLastOutput] at h
    cases hs : splitLastOutput its with
    | some r => rw [hs] at h; exact absurd h (by simp)
    | none =>
      rw [hs] at h
      cases it with
      | output name => exact absurd h (by simp [Item.outputName])
      | file name =>
        simp only [nameAfter, firstFile, Option.map_some', Option.getD_some]
        rw [ih _ hs]
        split
        · rename_i hc; simp [hc, append_bt_ne]
        · rename_i hc; simp [hc]
      | markFree => simp only [nameAfter, firstFile]; exact ih cur hs
      | noMarkFree => simp only [nameAfter, firstFile]; exact ih cur hs
      | rotate => simp only [nameAfter, firstFile]; exact ih cur hs
      | bb x0 y0 z0 x1 y1 z1 => simp only [nameAfter, firstFile]; exact ih cur hs
      | offset x y z => simp only [nameAfter, firstFile]; exact ih cur hs

/-- With `-o` among the items only the last one and the items after it count. -/
theorem nameAfter_output (its : List Item) (cur name : String) (after : List Item)
    (h : splitLastOutput its = some (name, after)) :
    nameAfter its cur = nameAfter after name ∧ splitLastOutput after = none := by
  induction its generalizing cur with
  | nil => exact absurd h (by simp [splitLastOutput])
  | cons it its ih =>
    rw [splitLastOutput] at h
    cases hs : splitLastOutput its with
    | some r =>
      rw [hs] at h
      simp only [Option.some.injEq] at h
      rw [h] at hs
      cases it with
      | output n => simp only [nameAfter]; exact ih n hs
      | file n => simp only [nameAfter]; exact ih _ hs
      | markFree => simp only [nameAfter]; exact ih cur hs
      | noMarkFree => simp only [nameAfter]; exact ih cur hs
      | rotate => simp only [nameAfter]; exact ih cur hs
      | bb x0 y0 z0 x1 y1 z1 => simp only [nameAfter]; exact ih cur hs
      | offset x y z => simp only [nameAfter]; exact ih cur hs
    | none =>
      rw [hs] at h
      cases it with
      | output n =>
        simp only [Item.outputName, Option.map_some', Option.some.injEq, Prod.mk.injEq] at h
        obtain ⟨h1, h2⟩ := h
        subst h1 h2
        exact ⟨by simp [nameAfter], hs⟩
      | file n => exact absurd h (by simp [Item.outputName])
      | markFree => exact absurd h (by simp [Item.outputName])
      | noMarkFree => exact absurd h (by simp [Item.outputName])
      | rotate => exact absurd h (by simp [Item.outputName])
      | bb x0 y0 z0 x1 y1 z1 => exact absurd h (by simp [Item.outputName])
      | offset x y z => exact absurd h (by simp [Item.outputName])

/-- A non-empty name after the items is the output path of the items. -/
theorem nameAfter_outputPath (its : List Item) (h : nameAfter its "" ≠ "") :
    outputPath its = some (nameAfter its "") := by
  unfold outputPath
  cases hs : splitLastOutput its with
  | none =>
    simp only
    rw [nameAfter_no_output its "" hs] at h ⊢
    simp only [if_true] at h ⊢
    cases hf : firstFile its with
    | none => rw [hf] at h; exact absurd rfl h
    | some f => simp
  | some r =>
    obtain ⟨name, after⟩ := r
    obtain ⟨e1, e2⟩ := nameAfter_output its "" name after hs
    simp only
    rw [e1, nameAfter_no_output after name e2] at h ⊢
    split
    · rename_i hn; simp [hn]
    · rename_i hn
      simp only [ne_eq, Decidable.not_not] at hn
      rw [if_pos hn] at h ⊢
      cases hf : firstFile after with
      | none => rw [hf] at h; exact absurd rfl h
      | some f => simp

/-- An option changes the output file name as `nameAfter` says. -/
theorem nameAfter_option (env : Env) (it : Item) (its : List Item) (v : Locals)
    (h : it.isFile = false) :
    nameAfter (it :: its) v.output_filename
      = nameAfter its (applyItem env it v).output_filename := by
  cases it <;> first | rfl | exact absurd h (by simp [Item.isFile])

/-- An input file that is processed to its end leaves the output file name as it is
after the file has been opened. -/
theorem processFile_output (env : Env) (a : String) (v v1 : Locals)
    (h : processFile env a v = Except.ok v1) :
    v1.output_filename = if v.output_filename = "" then a ++ ".bt" else v.output_filename := by
  unfold processFile at h
  cases hf : env.files a with
  | none => rw [hf] at h; exact absurd h (by simp)
  | some content =>
    rw [hf] at h
    simp only at h
    cases hr : readHeader content (afterOpen a v) with
    | error e => rw [hr] at h; exact absurd h (by simp)
    | ok p =>
      obtain ⟨hv, input⟩ := p
      rw [hr] at h
      simp only at h
      obtain ⟨_, _, f3, _⟩ := (readHeader_spec content (afterOpen a v)).1 hv input hr
      have e2 : v1.output_filename = hv.output_filename := by
        unfold readData at h
        simp only at h
        split at h
        · exact absurd h (by simp)
        · exact absurd h (by simp)
        · simp only [Except.ok.injEq] at h
          rw [← h]
          unfold ensureTree
          cases hv.tree <;> rfl
      rw [e2, f3]
      rfl

/-- A run that reaches line 305 writes the tree to the file named by `output_filename`,
whose value is the one `nameAfter` computes from the items of the command line. -/
theorem mainLoop_output (env : Env) (args : List String) (skip : Nat) (v : Locals)
    (h : (mainLoop env args skip v).term = Termination.done) :
    (mainLoop env args skip v).final.output_filename
      = nameAfter (items args skip) v.output_filename ∧
    (mainLoop env args skip v).final.output_filename ≠ "" ∧
    (mainLoop env args skip v).final.treeCalls.getLast?
      = some (TreeCall.writeBinary (mainLoop env args skip v).final.output_filename) := by
  induction args generalizing skip v with
  | nil =>
    rw [mainLoop] at h ⊢
    unfold finish at h ⊢
    cases ht : v.tree with
    | none => rw [ht] at h; exact absurd h (by simp)
    | some t =>
      rw [ht] at h
      simp only at h ⊢
      split at h
      · exact absurd h (by simp)
      · rename_i hne
        rw [if_neg hne]
        exact ⟨rfl, hne, by simp [Locals.treeCalls, OcTree.addCalls]⟩
  | cons a rest ih =>
    cases skip with
    | succ k => rw [mainLoop] at h ⊢; rw [items]; exact ih k v h
    | zero =>
      rw [mainLoop] at h ⊢
      rw [items]
      cases ho : optionItem a rest with
      | some p =>
        obtain ⟨it, k⟩ := p
        have hp : parseOption env a rest v = some (applyItem env it v, k) := by
          rw [parseOption_eq, ho]; rfl
        rw [hp] at h ⊢
        simp only at h ⊢
        rw [nameAfter_option env it _ v (optionItem_isFile a rest it k ho)]
        exact ih k _ h
      | none =>
        have hp : parseOption env a rest v = none := (parseOption_eq_none env a rest v).2 ho
        rw [hp] at h ⊢
        simp only at h ⊢
        cases hpf : processFile env a v with
        | error e =>
          rw [hpf] at h
          simp only at h
          rcases (processFile_spec env a v).2.2.2 e hpf with hf | hf
          · rw [h] at hf; exact absurd hf (by simp [Termination.isFatalError])
          · rw [h] at hf; exact absurd hf (by simp)
        | ok v1 =>
          rw [hpf] at h
          simp only at h ⊢
          rw [nameAfter, ← processFile_output env a v v1 hpf]
          exact ih 0 v1 h

/-- C18 (amended): a run that reaches serialization writes the tree to the argument of
the last `-o` option when that argument is not empty, wherever the `-o` stands; when
there is no `-o`, to the first input file with `.bt` appended; and when the argument of
the last `-o` is empty, to the first input file after that `-o` with `.bt` appended.
As long as no `-o` has an empty argument this is the path the specification gives. -/
theorem output_path (env : Env) (args : List String)
    (h : (main env args).term = Termination.done) :
    outputPath (items args 0) = some (main env args).final.output_filename ∧
    (main env args).final.treeCalls.getLast?
      = some (TreeCall.writeBinary (main env args).final.output_filename) ∧
    ((∀ name after, splitLastOutput (items args 0) = some (name, after) → name ≠ "") →
      claimedOutput (items args 0) = some (main env args).final.output_filename) := by
  have hm : main env args = mainLoop env args 0 (initLocals env) := by
    unfold main at h ⊢
    split
    · rename_i hc
      rw [if_pos hc] at h
      exact absurd h (by simp)
    · rfl
  rw [hm] at h ⊢
  obtain ⟨e1, e2, e3⟩ := mainLoop_output env args 0 (initLocals env) h
  have e4 : (initLocals env).output_filename = "" := rfl
  rw [e4] at e1
  have e5 := nameAfter_outputPath (items args 0) (by rw [← e1]; exact e2)
  rw [← e1] at e5
  refine ⟨e5, e3, ?_⟩
  intro hne
  rw [← e5]
  unfold claimedOutput outputPath
  cases hs : splitLastOutput (items args 0) with
  | none => rfl
  | some r =>
    obtain ⟨name, after⟩ := r
    simp only
    rw [if_pos (hne name after hs)]

/-- Witness of C18 (amended): in `a.binvox -o out.bt` the tree is written to `out.bt`. -/
theorem output_path_witness :
    (main sampleEnv ["a.binvox", "-o", "out.bt"]).final.output_filename = "out.bt" ∧
    (outputPath (items ["a.binvox", "-o", "out.bt"] 0)
        = some (main sampleEnv ["a.binvox", "-o", "out.bt"]).final.output_filename ∧
      (main sampleEnv ["a.binvox", "-o", "out.bt"]).final.treeCalls.getLast?
        = some (TreeCall.writeBinary
            (main sampleEnv ["a.binvox", "-o", "out.bt"]).final.output_filename) ∧
      ((∀ name after, splitLastOutput (items ["a.binvox", "-o", "out.bt"] 0)
            = some (name, after) → name ≠ "") →
        claimedOutput (items ["a.binvox", "-o", "out.bt"] 0)
          = some (main sampleEnv ["a.binvox", "-o", "out.bt"]).final.output_filename)) :=
  ⟨by decide!, output_path sampleEnv ["a.binvox", "-o", "out.bt"] (by decide!)⟩

/-- C18 fails on the code: in `-o "" a.binvox` an `-o` option is given, with the empty
string as its argument, and the run reaches serialization; the tree is not written to
the argument of `-o` but to `a.binvox.bt`, because the empty name makes line 158 assign
the default. -/
theorem output_path_empty_argument :
    items ["-o", "", "a.binvox"] 0 = [Item.output "", Item.file "a.binvox"] ∧
    claimedOutput (items ["-o", "", "a.binvox"] 0) = some "" ∧
    (main sampleEnv ["-o", "", "a.binvox"]).term = Termination.done ∧
    (main sampleEnv ["-o", "", "a.binvox"]).final.treeCalls.getLast?
      = some (TreeCall.writeBinary "a.binvox.bt") := by
  decide!

/-! ## The outcome of reading a header -/


/-- The magic string that `readHeader` compares is the first token of the file. -/
theorem extractString_firstToken (content : List my_byte) :
    (extractString [] { buf := content, good := true }).1 = firstToken content := by
  unfold extractString sentry firstToken
  simp only [if_true]
  split
  · rename_i h
    split at h
    · rename_i he
      simp only [List.isEmpty_iff] at he
      rw [he]; rfl
    · exact absurd h (by simp)
  · rename_i h
    split at h
    · exact absurd h (by simp)
    · simp only [Prod.mk.injEq, true_and] at h
      rw [← h]

/-- The outcome of `readHeader` in terms of the state in which the header loop ends. -/
theorem readHeader_eq (content : List my_byte) (v : Locals) :
    readHeader content v
      = if firstToken content ≠ bytesOf "#binvox" then
          Except.error ⟨Termination.badMagic, v⟩
        else if (headerEnd content v).done = false then
          Except.error ⟨Termination.headerError, (headerEnd content v).v⟩
        else if (headerEnd content v).v.depth = -1 then
          Except.error ⟨Termination.missingDimensions, (headerEnd content v).v⟩
        else Except.ok ((headerEnd content v).v, (headerEnd content v).input) := by
  rw [← extractString_firstToken]
  unfold readHeader headerEnd headerStart
  simp only [Bool.not_eq_true']

/-- The body of the header loop sets `done` exactly when the keyword read is `data`. -/
theorem headerStep_done (h : HeaderState) :
    (headerStep h).done = (h.done || decide ((headerStep h).line = bytesOf "data")) := by
  unfold headerStep
  simp only
  split
  · rename_i h1; simp [h1]
  · rename_i h1
    split
    · simp [h1]
    · split
      · simp [h1]
      · split
        · simp [h1]
        · simp [h1]

/-- The body of the header loop changes `depth` only when the keyword read is `dim`. -/
theorem headerStep_depth (h : HeaderState) (hl : (headerStep h).line ≠ bytesOf "dim") :
    (headerStep h).v.depth = h.v.depth := by
  unfold headerStep at hl ⊢
  simp only at hl ⊢
  split
  · rfl
  · split
    · rename_i h2
      rw [if_neg (by assumption), if_pos h2] at hl
      exact absurd h2 hl
    · split
      · rfl
      · split
        · rfl
        · rfl

/-- The header loop ends with `done` set exactly when it was set before or the keyword
`data` is among the keywords read. -/
theorem headerLoop_done (n : Nat) (h : HeaderState) :
    (headerLoop n h).done = true ↔ (h.done = true ∨ bytesOf "data" ∈ headerLines n h) := by
  induction n generalizing h with
  | zero => simp [headerLoop, headerLines]
  | succ n ih =>
    rw [headerLoop, headerLines]
    split
    · rename_i hc
      simp only [Bool.and_eq_true, Bool.not_eq_true'] at hc
      rw [ih, headerStep_done, hc.2]
      simp only [Bool.false_or, decide_eq_true_eq, Bool.false_eq_true, false_or, List.mem_cons]
      constructor
      · rintro (h1 | h1)
        · exact Or.inl h1.symm
        · exact Or.inr h1
      · rintro (h1 | h1)
        · exact Or.inl h1.symm
        · exact Or.inr h1
    · simp

/-- The header loop leaves `depth` alone when `dim` is not among the keywords read. -/
theorem headerLoop_depth (n : Nat) (h : HeaderState)
    (hd : bytesOf "dim" ∉ headerLines n h) : (headerLoop n h).v.depth = h.v.depth := by
  induction n generalizing h with
  | zero => rfl
  | succ n ih =>
    rw [headerLoop]
    rw [headerLines] at hd
    split
    · rename_i hc
      rw [if_pos hc] at hd
      simp only [List.mem_cons, not_or] at hd
      rw [ih _ hd.2, headerStep_depth h (fun e => hd.1 e.symm)]
    · rfl

/-! ## Tokens and numbers in the stream -/

/-- A decimal digit is neither white space nor a sign. -/
theorem isdigit_props :
    ∀ c : my_byte, isdigit c = true → isspace c = false ∧ c ≠ 45 ∧ c ≠ 43 := by
  intro c h
  unfold isdigit at h
  simp only [Bool.and_eq_true, decide_eq_true_eq] at h
  refine ⟨?_, ?_, ?_⟩
  · unfold isspace
    simp only [Bool.or_eq_false_iff, beq_eq_false_iff_ne, ne_eq, Bool.and_eq_false_imp,
      decide_eq_true_eq, decide_eq_false_iff_not, not_le]
    omega
  · intro hc
    rw [hc] at h
    exact absurd h.1 (by decide)
  · intro hc
    rw [hc] at h
    exact absurd h.1 (by decide)

/-- A scan that cannot pass the byte `g` ends in front of it, whatever follows. -/
theorem span_guard (q : my_byte → Bool) (l : List my_byte) (g : my_byte) (z : List my_byte)
    (hg : q g = false) :
    (l ++ g :: z).takeWhile q = l.takeWhile q ∧
    (l ++ g :: z).dropWhile q = l.dropWhile q ++ g :: z := by
  induction l with
  | nil => simp [hg]
  | cons a l ih =>
    cases ha : q a
    · simp [ha]
    · simp [ha, ih]

/-- The sentry skips the leading white space of a good stream that holds a byte other
than white space. -/
theorem sentry_skip (ws : List my_byte) (c : my_byte) (r : List my_byte)
    (hws : ∀ a ∈ ws, isspace a = true) (hc : isspace c = false) :
    sentry { buf := ws ++ c :: r, good := true } = (true, { buf := c :: r, good := true }) := by
  unfold sentry
  simp only [if_true]
  rw [List.dropWhile_append_of_pos hws, List.dropWhile_cons_of_neg (by simp [hc])]
  simp

/-- Extraction of a token that is followed by white space. -/
theorem extractString_token (line ws tok : List my_byte) (c : my_byte) (rest : List my_byte)
    (hws : ∀ a ∈ ws, isspace a = true) (hne : tok ≠ [])
    (htok : ∀ a ∈ tok, isspace a = false) (hc : isspace c = true) :
    extractString line { buf := ws ++ tok ++ c :: rest, good := true }
      = (tok, { buf := c :: rest, good := true }) := by
  cases tok with
  | nil => exact absurd rfl hne
  | cons t tok =>
    have ht : isspace t = false := htok t (List.mem_cons_self _ _)
    unfold extractString
    rw [List.append_assoc, List.cons_append, sentry_skip ws t _ hws ht]
    simp only
    have hall : ∀ a ∈ t :: tok, (fun c => !isspace c) a = true := by
      intro a ha
      simp [htok a ha]
    rw [← List.cons_append, List.takeWhile_append_of_pos hall,
      List.dropWhile_append_of_pos hall,
      List.takeWhile_cons_of_neg (by simp [hc]), List.dropWhile_cons_of_neg (by simp [hc])]
    simp

/-- Extraction of a token that ends the stream. -/
theorem extractString_last (line ws tok : List my_byte)
    (hws : ∀ a ∈ ws, isspace a = true) (hne : tok ≠ [])
    (htok : ∀ a ∈ tok, isspace a = false) :
    extractString line { buf := ws ++ tok, good := true }
      = (tok, { buf := [], good := false }) := by
  cases tok with
  | nil => exact absurd rfl hne
  | cons t tok =>
    have ht : isspace t = false := htok t (List.mem_cons_self _ _)
    unfold extractString
    rw [sentry_skip ws t _ hws ht]
    simp only
    have hall : ∀ a ∈ t :: tok, (fun c => !isspace c) a = true := by
      intro a ha
      simp [htok a ha]
    rw [List.takeWhile_eq_self_iff.2 hall, List.dropWhile_eq_nil_iff.2 hall]
    simp

/-- Extraction of an unsigned decimal number within the range of `int` that is followed
by a byte other than a digit. -/
theorem extractInt_digits (cur : Int) (ws ds : List my_byte) (c : my_byte)
    (rest : List my_byte) (hws : ∀ a ∈ ws, isspace a = true) (hne : ds ≠ [])
    (hds : ∀ a ∈ ds, isdigit a = true) (hc : isdigit c = false)
    (hmax : digitsValue ds ≤ 2147483647) :
    extractInt cur { buf := ws ++ ds ++ c :: rest, good := true }
      = ((digitsValue ds : Int), { buf := c :: rest, good := true }) := by
  cases ds with
  | nil => exact absurd rfl hne
  | cons d ds =>
    obtain ⟨hd1, hd2, hd3⟩ := isdigit_props d (hds d (List.mem_cons_self _ _))
    unfold extractInt
    rw [List.append_assoc, List.cons_append, sentry_skip ws d _ hws hd1]
    simp only
    have hsign : dropSign (d :: (ds ++ c :: rest)) = d :: (ds ++ c :: rest) := by
      unfold dropSign
      simp [hd2, hd3]
    rw [hsign, ← List.cons_append, List.takeWhile_append_of_pos hds,
      List.dropWhile_append_of_pos hds,
      List.takeWhile_cons_of_neg (by simp [hc]), List.dropWhile_cons_of_neg (by simp [hc])]
    simp only [List.append_nil, List.isEmpty_cons, Bool.false_eq_true, if_false,
      List.cons_append, List.head?_cons, Option.some.injEq, hd2, Bool.not_false]
    have h1 : ¬ ((digitsValue (d :: ds) : Int) > 2147483647) := by omega
    have h2 : ¬ ((digitsValue (d :: ds) : Int) < -2147483648) := by omega
    rw [if_neg h1, if_neg h2]

/-- White space is not a digit. -/
theorem isspace_not_digit (c : my_byte) (h : isspace c = true) : isdigit c = false := by
  cases hd : isdigit c with
  | false => rfl
  | true => rw [(isdigit_props c hd).1] at h; exact absurd h (by simp)

/-- The keyword `dim` followed by three unsigned decimal numbers within the range of
`int`, separated by white space: the numbers are stored in `depth`, `height` and
`width`, in that order. -/
theorem headerStep_dim (h : HeaderState) (ws0 ws1 ws2 ws3 d e w : List my_byte)
    (s1 s2 s3 c : my_byte) (rest : List my_byte)
    (hin : h.input = { buf := ws0 ++ bytesOf "dim" ++ s1 :: ws1 ++ d ++ s2 :: ws2 ++ e
                                ++ s3 :: ws3 ++ w ++ c :: rest,
                       good := true })
    (h0 : ∀ a ∈ ws0, isspace a = true) (h1 : ∀ a ∈ s1 :: ws1, isspace a = true)
    (h2 : ∀ a ∈ s2 :: ws2, isspace a = true) (h3 : ∀ a ∈ s3 :: ws3, isspace a = true)
    (hd : ∀ a ∈ d, isdigit a = true) (he : ∀ a ∈ e, isdigit a = true)
    (hw : ∀ a ∈ w, isdigit a = true) (nd : d ≠ []) (ne : e ≠ []) (nw : w ≠ [])
    (md : digitsValue d ≤ 2147483647) (me : digitsValue e ≤ 2147483647)
    (mw : digitsValue w ≤ 2147483647) (hc : isdigit c = false) :
    (headerStep h).line = bytesOf "dim" ∧
    (headerStep h).v.depth = (digitsValue d : Int) ∧
    (headerStep h).v.height = (digitsValue e : Int) ∧
    (headerStep h).v.width = (digitsValue w : Int) ∧
    (headerStep h).input = { buf := c :: rest, good := true } := by
  have hs1 : isspace s1 = true := h1 s1 (List.mem_cons_self _ _)
  have hs2 := isspace_not_digit s2 (h2 s2 (List.mem_cons_self _ _))
  have hs3 := isspace_not_digit s3 (h3 s3 (List.mem_cons_self _ _))
  have hstr : extractString h.line h.input
      = (bytesOf "dim", { buf := (s1 :: ws1) ++ d ++ s2 :: (ws2 ++ e ++ s3 :: ws3 ++ w
                                    ++ c :: rest),
                          good := true }) := by
    rw [hin]
    have := extractString_token h.line ws0 (bytesOf "dim") s1
      (ws1 ++ d ++ s2 :: ws2 ++ e ++ s3 :: ws3 ++ w ++ c :: rest) h0 (by decide) (by decide!) hs1
    simpa [List.append_assoc] using this
  have hi1 := extractInt_digits h.v.depth (s1 :: ws1) d s2
    (ws2 ++ e ++ s3 :: ws3 ++ w ++ c :: rest) h1 nd hd hs2 md
  have hi2 : extractInt h.v.height
      { buf := s2 :: (ws2 ++ e ++ s3 :: ws3 ++ w ++ c :: rest), good := true }
      = ((digitsValue e : Int), { buf := s3 :: (ws3 ++ w ++ c :: rest), good := true }) := by
    have := extractInt_digits h.v.height (s2 :: ws2) e s3 (ws3 ++ w ++ c :: rest) h2 ne he hs3 me
    simpa [List.append_assoc] using this
  have hi3 : extractInt h.v.width { buf := s3 :: (ws3 ++ w ++ c :: rest), good := true }
      = ((digitsValue w : Int), { buf := c :: rest, good := true }) := by
    have := extractInt_digits h.v.width (s3 :: ws3) w c rest h3 nw hw hc mw
    simpa [List.append_assoc] using this
  have hnd : bytesOf "dim" ≠ bytesOf "data" := by decide
  unfold headerStep
  simp only [hstr, if_neg hnd, if_true, hi1, hi2, hi3]
  refine ⟨?_, ?_, ?_, ?_, ?_⟩ <;> trivial

/-- Iterations of the header loop add up. -/
theorem headerLoop_add (k m : Nat) (h : HeaderState) :
    headerLoop (k + m) h = headerLoop m (headerLoop k h) := by
  induction k generalizing h with
  | zero => rw [Nat.zero_add]; rfl
  | succ k ih =>
    rw [Nat.add_right_comm, headerLoop_step (k + m) h, headerLoop_step k h]
    split
    · exact ih (headerStep h)
    · rename_i hc
      exact (headerLoop_stop m h hc).symm

/-- When the loop condition fails after `k` iterations, the header loop has ended in
that state. -/
theorem headerLoop_end (k : Nat) (h : HeaderState)
    (hc : ¬ ((headerLoop k h).input.good && !(headerLoop k h).done) = true) :
    headerLoop (h.input.buf.length + 1) h = headerLoop k h := by
  by_cases hk : k ≤ h.input.buf.length + 1
  · obtain ⟨m, hm⟩ := Nat.exists_eq_add_of_le hk
    rw [hm, headerLoop_add, headerLoop_stop m _ hc]
  · exact (headerLoop_enough k h (by omega)).symm

/-- One iteration after `k` iterations. -/
theorem headerLoop_next (k : Nat) (h : HeaderState)
    (hg : (headerLoop k h).input.good = true) (hd : (headerLoop k h).done = false) :
    headerLoop (k + 1) h = headerStep (headerLoop k h) := by
  rw [headerLoop_add, headerLoop_step, if_pos (by rw [hg, hd]; rfl)]
  rfl

/-- A number cannot start with a byte other than a digit or a sign. -/
theorem extractInt_not_number (cur : Int) (ws : List my_byte) (c : my_byte)
    (r : List my_byte) (hws : ∀ a ∈ ws, isspace a = true) (hc : isspace c = false)
    (hd : isdigit c = false) (h45 : c ≠ 45) (h43 : c ≠ 43) :
    (extractInt cur { buf := ws ++ c :: r, good := true }).2.good = false := by
  unfold extractInt
  rw [sentry_skip ws c r hws hc]
  have h1 : dropSign (c :: r) = c :: r := by
    unfold dropSign
    rw [if_neg (by simp [h45, h43])]
  have h2 : (c :: r).takeWhile isdigit = [] := List.takeWhile_cons_of_neg (by simp [hd])
  simp only [h1, h2, List.isEmpty_nil, if_true]

/-- A `float` cannot start with a byte other than a digit, a sign or a point. -/
theorem extractFloat_not_number (cur : ℚ) (ws : List my_byte) (c : my_byte)
    (r : List my_byte) (hws : ∀ a ∈ ws, isspace a = true) (hc : isspace c = false)
    (hd : isdigit c = false) (h45 : c ≠ 45) (h43 : c ≠ 43) (h46 : c ≠ 46) :
    (extractFloat cur { buf := ws ++ c :: r, good := true }).2.good = false := by
  unfold extractFloat
  rw [sentry_skip ws c r hws hc]
  have h1 : takeDigits (dropSign (c :: r)) = ([], c :: r) := by
    unfold dropSign takeDigits
    rw [if_neg (by simp [h45, h43]), List.takeWhile_cons_of_neg (by simp [hd]),
      List.dropWhile_cons_of_neg (by simp [hd])]
  have h2 : takeFraction (c :: r) = ([], c :: r) := by
    unfold takeFraction
    rw [if_neg (by simp [h46])]
  have h3 : takeExponent false (c :: r) = (none, c :: r) := by
    unfold takeExponent
    rw [if_neg (by simp)]
  simp only [h1, h2, List.isEmpty_nil, Bool.and_self, Bool.not_true, h3, if_true]

/-- An iteration in which a value of `dim`, `translate` or `scale` is not extracted with
success leaves the stream not good and `done` unset. -/
theorem headerStep_failed (h : HeaderState) (hd : h.done = false)
    (hf : ((extractString h.line h.input).1 = bytesOf "dim" ∧
          (extractInt h.v.width (extractInt h.v.height
            (extractInt h.v.depth (extractString h.line h.input).2).2).2).2.good = false) ∨
        ((extractString h.line h.input).1 = bytesOf "translate" ∧
          (extractFloat h.v.tz (extractFloat h.v.ty
            (extractFloat h.v.tx (extractString h.line h.input).2).2).2).2.good = false) ∨
        ((extractString h.line h.input).1 = bytesOf "scale" ∧
          (extractFloat h.v.scale (extractString h.line h.input).2).2.good = false)) :
    (headerStep h).input.good = false ∧ (headerStep h).done = false := by
  have n1 : bytesOf "dim" ≠ bytesOf "data" := by decide
  have n2 : bytesOf "translate" ≠ bytesOf "data" := by decide
  have n3 : bytesOf "translate" ≠ bytesOf "dim" := by decide
  have n4 : bytesOf "scale" ≠ bytesOf "data" := by decide
  have n5 : bytesOf "scale" ≠ bytesOf "dim" := by decide
  have n6 : bytesOf "scale" ≠ bytesOf "translate" := by decide
  unfold headerStep
  rcases hf with ⟨e, g⟩ | ⟨e, g⟩ | ⟨e, g⟩
  · simp only [e, if_neg n1, if_true] at g ⊢
    exact ⟨g, hd⟩
  · simp only [e, if_neg n2, if_neg n3, if_true] at g ⊢
    exact ⟨g, hd⟩
  · simp only [e, if_neg n4, if_neg n5, if_neg n6, if_true] at g ⊢
    exact ⟨g, hd⟩

/-- A stream that is no longer good after `k` iterations, with `done` unset, makes the
header fail with the message of line 198. -/
theorem readHeader_stuck (content : List my_byte) (v : Locals)
    (hm : firstToken content = bytesOf "#binvox") (k : Nat)
    (hg : (headerLoop k (headerStart content v)).input.good = false)
    (hd : (headerLoop k (headerStart content v)).done = false) :
    readHeader content v
      = Except.error ⟨Termination.headerError, (headerLoop k (headerStart content v)).v⟩ := by
  have he : headerEnd content v = headerLoop k (headerStart content v) :=
    headerLoop_end k (headerStart content v) (by rw [hg]; simp)
  rw [readHeader_eq, if_neg (fun hn => hn hm), he, if_pos hd]


/-! ## The outcome of the header -/

/-- C12 (amended): `readHeader` ends the run when the first token of the file is not
`#binvox`; otherwise it ends the run when the header loop stops without having read the
keyword `data`, and when `depth` is `-1` after `data` has been read, which is the case
when no keyword `dim` has been read (and also when `dim` has stored the depth `-1`); in
every other case it succeeds with the variables and the stream of the end of the loop.
The loop stops without `data` as soon as the stream is no longer good before `data` has
been read; this is the case after an iteration in which the values of `dim`,
`translate` or `scale` are not extracted with success.  The three numbers that follow
the keyword `dim` are stored in `depth`, `height` and `width`, in that order.  An `int`
whose first byte is not a digit or a sign, and a `float` whose first byte is not a
digit, a sign or a point, are not extracted with success. -/
theorem readHeader_outcome (content : List my_byte) (v : Locals) :
    (firstToken content ≠ bytesOf "#binvox" →
      readHeader content v = Except.error ⟨Termination.badMagic, v⟩) ∧
    (firstToken content = bytesOf "#binvox" →
      (bytesOf "data" ∉ keywordsRead content v →
        readHeader content v
          = Except.error ⟨Termination.headerError, (headerEnd content v).v⟩) ∧
      (bytesOf "dim" ∉ keywordsRead content v → (headerEnd content v).v.depth = -1) ∧
      (bytesOf "data" ∈ keywordsRead content v → (headerEnd content v).v.depth = -1 →
        readHeader content v
          = Except.error ⟨Termination.missingDimensions, (headerEnd content v).v⟩) ∧
      (bytesOf "data" ∈ keywordsRead content v → (headerEnd content v).v.depth ≠ -1 →
        readHeader content v
          = Except.ok ((headerEnd content v).v, (headerEnd content v).input)) ∧
      (∀ (k : Nat) (h : HeaderState), h = headerLoop k (headerStart content v) →
        h.done = false → h.input.good = false →
        readHeader content v = Except.error ⟨Termination.headerError, h.v⟩) ∧
      (∀ (k : Nat) (h : HeaderState), h = headerLoop k (headerStart content v) →
        h.done = false → h.input.good = true →
        (((extractString h.line h.input).1 = bytesOf "dim" ∧
            (extractInt h.v.width (extractInt h.v.height
              (extractInt h.v.depth (extractString h.line h.input).2).2).2).2.good = false) ∨
          ((extractString h.line h.input).1 = bytesOf "translate" ∧
            (extractFloat h.v.tz (extractFloat h.v.ty
              (extractFloat h.v.tx (extractString h.line h.input).2).2).2).2.good = false) ∨
          ((extractString h.line h.input).1 = bytesOf "scale" ∧
            (extractFloat h.v.scale (extractString h.line h.input).2).2.good = false)) →
        readHeader content v
          = Except.error ⟨Termination.headerError, (headerStep h).v⟩)) ∧
    (∀ (h : HeaderState) (ws0 ws1 ws2 ws3 d e w : List my_byte) (s1 s2 s3 c : my_byte)
        (rest : List my_byte),
      h.input = { buf := ws0 ++ bytesOf "dim" ++ s1 :: ws1 ++ d ++ s2 :: ws2 ++ e
                           ++ s3 :: ws3 ++ w ++ c :: rest,
                  good := true } →
      (∀ a ∈ ws0, isspace a = true) → (∀ a ∈ s1 :: ws1, isspace a = true) →
      (∀ a ∈ s2 :: ws2, isspace a = true) → (∀ a ∈ s3 :: ws3, isspace a = true) →
      (∀ a ∈ d, isdigit a = true) → (∀ a ∈ e, isdigit a = true) →
      (∀ a ∈ w, isdigit a = true) → d ≠ [] → e ≠ [] → w ≠ [] →
      digitsValue d ≤ 2147483647 → digitsValue e ≤ 2147483647 →
      digitsValue w ≤ 2147483647 → isdigit c = false →
      (headerStep h).line = bytesOf "dim" ∧
      (headerStep h).v.depth = (digitsValue d : Int) ∧
      (headerStep h).v.height = (digitsValue e : Int) ∧
      (headerStep h).v.width = (digitsValue w : Int) ∧
      (headerStep h).input = { buf := c :: rest, good := true }) ∧
    (∀ (ws : List my_byte) (c : my_byte) (r : List my_byte),
      (∀ a ∈ ws, isspace a = true) → isspace c = false → isdigit c = false →
      c ≠ 45 → c ≠ 43 →
      (∀ cur : Int, (extractInt cur { buf := ws ++ c :: r, good := true }).2.good = false) ∧
      (c ≠ 46 →
        ∀ cur : ℚ, (extractFloat cur { buf := ws ++ c :: r, good := true }).2.good = false)) := by
  have hs0 : (headerStart content v).done = false := rfl
  have hd0 : (headerStart content v).v.depth = -1 := rfl
  have hdone : (headerEnd content v).done = true ↔ bytesOf "data" ∈ keywordsRead content v := by
    unfold headerEnd keywordsRead
    rw [headerLoop_done, hs0]
    simp
  have hdepth : bytesOf "dim" ∉ keywordsRead content v →
      (headerEnd content v).v.depth = (headerStart content v).v.depth :=
    headerLoop_depth ((headerStart content v).input.buf.length + 1) (headerStart content v)
  refine ⟨?_, ?_, ?_, ?_⟩
  · intro hm
    rw [readHeader_eq, if_pos hm]
  · intro hm
    have hm2 : ¬ firstToken content ≠ bytesOf "#binvox" := fun hn => hn hm
    refine ⟨?_, ?_, ?_, ?_, ?_, ?_⟩
    · intro hnd
      have : (headerEnd content v).done = false := by
        cases hb : (headerEnd content v).done with
        | false => rfl
        | true => exact absurd (hdone.1 hb) hnd
      rw [readHeader_eq, if_neg hm2, if_pos this]
    · intro hnd
      exact (hdepth hnd).trans hd0
    · intro hdata hdep
      have : ¬ (headerEnd content v).done = false := by
        rw [hdone.2 hdata]; simp
      rw [readHeader_eq, if_neg hm2, if_neg this, if_pos hdep]
    · intro hdata hdep
      have : ¬ (headerEnd content v).done = false := by
        rw [hdone.2 hdata]; simp
      rw [readHeader_eq, if_neg hm2, if_neg this, if_neg hdep]
    · intro k h hk hd hg
      rw [hk] at hd hg ⊢
      exact readHeader_stuck content v hm k hg hd
    · intro k h hk hd hg hf
      obtain ⟨f1, f2⟩ := headerStep_failed h hd hf
      rw [hk] at hd hg f1 f2 ⊢
      rw [← headerLoop_next k _ hg hd] at f1 f2 ⊢
      exact readHeader_stuck content v hm (k + 1) f1 f2
  · intro h ws0 ws1 ws2 ws3 d e w s1 s2 s3 c rest hin h0 h1 h2 h3 hd he hw nd ne nw md me mw hc
    exact headerStep_dim h ws0 ws1 ws2 ws3 d e w s1 s2 s3 c rest hin h0 h1 h2 h3 hd he hw
      nd ne nw md me mw hc
  · intro ws c r hws hc hd h45 h43
    exact ⟨fun cur => extractInt_not_number cur ws c r hws hc hd h45 h43,
      fun h46 cur => extractFloat_not_number cur ws c r hws hc hd h45 h43 h46⟩

/-- Witness of C12 (amended): the sample file is read with success, and its line
`dim 1 5 4` stores depth 1, height 5 and width 4; the file with the line `scale 1e50`
is refused in the iteration that reads this line; the bytes ` x 4` are not an `int`. -/
theorem readHeader_outcome_witness :
    readHeader sampleFile sampleLocals
      = Except.ok ((headerEnd sampleFile sampleLocals).v,
          (headerEnd sampleFile sampleLocals).input) ∧
    ((headerStep ⟨[], false, ⟨bytesOf "\ndim 1 5 4\ndata\n", true⟩, sampleLocals⟩).line
        = bytesOf "dim" ∧
      (headerStep ⟨[], false, ⟨bytesOf "\ndim 1 5 4\ndata\n", true⟩, sampleLocals⟩).v.depth
        = (digitsValue (bytesOf "1") : Int) ∧
      (headerStep ⟨[], false, ⟨bytesOf "\ndim 1 5 4\ndata\n", true⟩, sampleLocals⟩).v.height
        = (digitsValue (bytesOf "5") : Int) ∧
      (headerStep ⟨[], false, ⟨bytesOf "\ndim 1 5 4\ndata\n", true⟩, sampleLocals⟩).v.width
        = (digitsValue (bytesOf "4") : Int) ∧
      (headerStep ⟨[], false, ⟨bytesOf "\ndim 1 5 4\ndata\n", true⟩, sampleLocals⟩).input
        = { buf := 10 :: bytesOf "data\n", good := true }) ∧
    readHeader overflowFile sampleLocals
      = Except.error ⟨Termination.headerError,
          (headerStep (headerLoop 1 (headerStart overflowFile sampleLocals))).v⟩ ∧
    (extractInt 0 { buf := bytesOf " x 4", good := true }).2.good = false :=
  ⟨((readHeader_outcome sampleFile sampleLocals).2.1 (by decide!)).2.2.2.1 (by decide!)
      (by decide!),
   (readHeader_outcome [] sampleLocals).2.2.1
      ⟨[], false, ⟨bytesOf "\ndim 1 5 4\ndata\n", true⟩, sampleLocals⟩
      (bytesOf "\n") [] [] [] (bytesOf "1") (bytesOf "5") (bytesOf "4") 32 32 32 10
      (bytesOf "data\n") (by decide!) (by decide!) (by decide!) (by decide!) (by decide!)
      (by decide!) (by decide!) (by decide!) (by decide!) (by decide!) (by decide!)
      (by decide!) (by decide!) (by decide!) (by decide!),
   ((readHeader_outcome overflowFile sampleLocals).2.1 (by decide!)).2.2.2.2.2 1 _ rfl
      (by decide!) (by decide!) (Or.inr (Or.inr ⟨by decide!, by decide!⟩)),
   ((readHeader_outcome [] sampleLocals).2.2.2 (bytesOf " ") 120 (bytesOf " 4")
      (by decide!) (by decide!) (by decide!) (by decide) (by decide)).1 0⟩

/-- C12 fails on the code: in the file `#binvox 1`, `dim -1 5 4`, `data` the first token
is `#binvox`, the keyword `dim` is read and then the keyword `data`, and yet the header
is refused, with the message for missing dimensions, because the depth read is the
value `-1` that marks missing dimensions. -/
theorem readHeader_minus_one :
    firstToken minusOneFile = bytesOf "#binvox" ∧
    keywordsRead minusOneFile sampleLocals = [bytesOf "dim", bytesOf "data"] ∧
    (headerEnd minusOneFile sampleLocals).v.depth = -1 ∧
    isError (processFile { sampleEnv with files := fun _ => some minusOneFile } "m.binvox"
        (initLocals sampleEnv))
      ⟨Termination.missingDimensions,
        { afterOpen "m.binvox" (initLocals sampleEnv) with
          version := 1, depth := -1, height := 5, width := 4 }⟩ = true := by
  decide!

/-- The line `scale 1e50`: the value is too large for a `float`, the extraction fails
and stores `FLT_MAX`, the loop ends in front of the keyword `data` and the header is
refused with the message of line 198. -/
theorem readHeader_scale_overflow :
    firstToken overflowFile = bytesOf "#binvox" ∧
    keywordsRead overflowFile sampleLocals = [bytesOf "dim", bytesOf "scale"] ∧
    (headerEnd overflowFile sampleLocals).v.scale = fltMax ∧
    (headerEnd overflowFile sampleLocals).input
      = { buf := bytesOf "\ndata\n" ++ [1, 3, 0, 17], good := false } ∧
    isError (processFile { sampleEnv with files := fun _ => some overflowFile } "m.binvox"
        (initLocals sampleEnv))
      ⟨Termination.headerError,
        { afterOpen "m.binvox" (initLocals sampleEnv) with
          version := 1, depth := 1, height := 5, width := 4, scale := fltMax }⟩ = true := by
  decide!

/-- The line `dim 1 x 4`: the second number fails to parse and stores 0, the third
extraction does nothing, the loop ends in front of the keyword `data` and the header
is refused with the message of line 198. -/
theorem readHeader_bad_dim :
    firstToken badDimFile = bytesOf "#binvox" ∧
    keywordsRead badDimFile sampleLocals = [bytesOf "dim"] ∧
    (headerEnd badDimFile sampleLocals).input
      = { buf := bytesOf "x 4\ndata\n" ++ [1, 3, 0, 17], good := false } ∧
    isError (processFile { sampleEnv with files := fun _ => some badDimFile } "m.binvox"
        (initLocals sampleEnv))
      ⟨Termination.headerError,
        { afterOpen "m.binvox" (initLocals sampleEnv) with
          version := 1, depth := 1, height := 0, width := (initLocals sampleEnv).width }⟩
      = true := by
  decide!

/-! ## Extractions end in front of white space -/

/-- White space is not a digit, a sign, a decimal point or an exponent marker. -/
theorem isspace_props (c : my_byte) (h : isspace c = true) :
    isdigit c = false ∧ c ≠ 45 ∧ c ≠ 43 ∧ c ≠ 46 ∧ c ≠ 101 ∧ c ≠ 69 ∧ c ≠ 100 := by
  refine ⟨isspace_not_digit c h, ?_, ?_, ?_, ?_, ?_, ?_⟩ <;>
  · intro hc
    rw [hc] at h
    exact absurd h (by decide)

/-- A list with a byte that is not white space splits at the first such byte. -/
theorem split_at_nonspace (p : List my_byte) (hp : ∃ a ∈ p, isspace a = false) :
    ∃ ws c r, p = ws ++ c :: r ∧ (∀ a ∈ ws, isspace a = true) ∧ isspace c = false := by
  induction p with
  | nil =>
    obtain ⟨a, ha, _⟩ := hp
    exact absurd ha (List.not_mem_nil a)
  | cons b p ih =>
    cases hb : isspace b with
    | false => exact ⟨[], b, p, rfl, by simp, hb⟩
    | true =>
      obtain ⟨a, ha, h⟩ := hp
      have : ∃ a ∈ p, isspace a = false := by
        rcases List.mem_cons.1 ha with e | e
        · rw [e, hb] at h; exact absurd h (by simp)
        · exact ⟨a, e, h⟩
      obtain ⟨ws, c, r, e, h1, h2⟩ := ih this
      refine ⟨b :: ws, c, r, by rw [e]; rfl, ?_, h2⟩
      intro a ha
      rcases List.mem_cons.1 ha with e | e
      · rw [e]; exact hb
      · exact h1 a e

/-- The first byte in front of a byte other than `k`. -/
theorem head?_guard (l : List my_byte) (g k : my_byte) (z : List my_byte) (h : g ≠ k) :
    ((l ++ g :: z).head? = some k) = (l.head? = some k) := by
  cases l with
  | nil => simp [h]
  | cons a l => simp

/-- Dropping a sign in front of a byte that is not a sign. -/
theorem dropSign_guard (l : List my_byte) (g : my_byte) (z : List my_byte)
    (h45 : g ≠ 45) (h43 : g ≠ 43) : dropSign (l ++ g :: z) = dropSign l ++ g :: z := by
  cases l with
  | nil => unfold dropSign; simp [h45, h43]
  | cons a l =>
    unfold dropSign
    simp only [List.cons_append, List.head?_cons, List.tail_cons]
    split <;> rfl

/-- Taking digits in front of a byte that is not a digit. -/
theorem takeDigits_guard (l : List my_byte) (g : my_byte) (z : List my_byte)
    (hg : isdigit g = false) :
    takeDigits (l ++ g :: z) = ((takeDigits l).1, (takeDigits l).2 ++ g :: z) := by
  unfold takeDigits
  rw [(span_guard isdigit l g z hg).1, (span_guard isdigit l g z hg).2]

/-- Taking a fraction in front of white space. -/
theorem takeFraction_guard (l : List my_byte) (g : my_byte) (z : List my_byte)
    (hg : isdigit g = false) (h46 : g ≠ 46) :
    takeFraction (l ++ g :: z) = ((takeFraction l).1, (takeFraction l).2 ++ g :: z) := by
  cases l with
  | nil => unfold takeFraction; simp [h46]
  | cons a l =>
    unfold takeFraction
    simp only [List.cons_append, List.head?_cons, List.tail_cons]
    split
    · exact takeDigits_guard l g z hg
    · rfl

/-- Taking an exponent in front of white space. -/
theorem takeExponent_guard (m : Bool) (l : List my_byte) (g : my_byte) (z : List my_byte)
    (hg : isdigit g = false) (h45 : g ≠ 45) (h43 : g ≠ 43) (h101 : g ≠ 101) (h69 : g ≠ 69) :
    takeExponent m (l ++ g :: z) = ((takeExponent m l).1, (takeExponent m l).2 ++ g :: z) := by
  cases l with
  | nil => unfold takeExponent; simp [h101, h69]
  | cons a l =>
    unfold takeExponent
    simp only [List.cons_append, List.head?_cons, List.tail_cons]
    split
    · rw [dropSign_guard l g z h45 h43, takeDigits_guard _ g z hg]
      simp only [head?_guard l g 45 z h45]
    · rfl

/-- A string extraction that meets a byte other than white space in front of the white
space `g` ends in front of `g`: its result does not depend on what follows `g`. -/
theorem extractString_guard (p : List my_byte) (g : my_byte)
    (hg : isspace g = true) (hp : ∃ a ∈ p, isspace a = false) :
    ∃ t R, ∀ line z, extractString line { buf := p ++ g :: z, good := true }
      = (t, { buf := R ++ g :: z, good := true }) := by
  obtain ⟨ws, c, r, rfl, hws, hc⟩ := split_at_nonspace p hp
  refine ⟨(c :: r).takeWhile (fun a => !isspace a), (c :: r).dropWhile (fun a => !isspace a),
    fun line z => ?_⟩
  unfold extractString
  rw [List.append_assoc, List.cons_append, sentry_skip ws c _ hws hc]
  simp only
  rw [← List.cons_append, (span_guard (fun a => !isspace a) (c :: r) g z (by simp [hg])).1,
    (span_guard (fun a => !isspace a) (c :: r) g z (by simp [hg])).2]
  simp

/-- An `int` extraction that meets a byte other than white space in front of the white
space `g` ends in front of `g`: its result does not depend on what follows `g`. -/
theorem extractInt_guard (cur : Int) (p : List my_byte) (g : my_byte)
    (hg : isspace g = true) (hp : ∃ a ∈ p, isspace a = false) :
    ∃ V R G, ∀ z, extractInt cur { buf := p ++ g :: z, good := true }
      = (V, { buf := R ++ g :: z, good := G }) := by
  obtain ⟨ws, c, r, rfl, hws, hc⟩ := split_at_nonspace p hp
  obtain ⟨g1, g2, g3, -⟩ := isspace_props g hg
  have key : ∀ z, extractInt cur { buf := (ws ++ c :: r) ++ g :: z, good := true }
      = if ((dropSign (c :: r)).takeWhile isdigit).isEmpty then
          (0, { buf := (dropSign (c :: r)).dropWhile isdigit ++ g :: z, good := false })
        else if (if c = 45 then -(digitsValue ((dropSign (c :: r)).takeWhile isdigit) : Int)
                 else digitsValue ((dropSign (c :: r)).takeWhile isdigit)) > 2147483647 then
          (2147483647, { buf := (dropSign (c :: r)).dropWhile isdigit ++ g :: z, good := false })
        else if (if c = 45 then -(digitsValue ((dropSign (c :: r)).takeWhile isdigit) : Int)
                 else digitsValue ((dropSign (c :: r)).takeWhile isdigit)) < -2147483648 then
          (-2147483648, { buf := (dropSign (c :: r)).dropWhile isdigit ++ g :: z, good := false })
        else
          (if c = 45 then -(digitsValue ((dropSign (c :: r)).takeWhile isdigit) : Int)
             else digitsValue ((dropSign (c :: r)).takeWhile isdigit),
           { buf := (dropSign (c :: r)).dropWhile isdigit ++ g :: z, good := true }) := by
    intro z
    unfold extractInt
    rw [List.append_assoc, List.cons_append, sentry_skip ws c _ hws hc]
    simp only
    rw [← List.cons_append, dropSign_guard (c :: r) g z g2 g3,
      (span_guard isdigit (dropSign (c :: r)) g z g1).1,
      (span_guard isdigit (dropSign (c :: r)) g z g1).2]
    have hne : ((dropSign (c :: r)).dropWhile isdigit ++ g :: z).isEmpty = false := by simp
    simp only [List.cons_append, List.head?_cons, Option.some.injEq, hne, Bool.not_false]
  by_cases h1 : ((dropSign (c :: r)).takeWhile isdigit).isEmpty = true
  · exact ⟨_, _, _, fun z => by rw [key z, if_pos h1]⟩
  · by_cases h2 : (if c = 45 then -(digitsValue ((dropSign (c :: r)).takeWhile isdigit) : Int)
        else digitsValue ((dropSign (c :: r)).takeWhile isdigit)) > 2147483647
    · exact ⟨_, _, _, fun z => by rw [key z, if_neg h1, if_pos h2]⟩
    · by_cases h3 : (if c = 45 then
            -(digitsValue ((dropSign (c :: r)).takeWhile isdigit) : Int)
          else digitsValue ((dropSign (c :: r)).takeWhile isdigit)) < -2147483648
      · exact ⟨_, _, _, fun z => by rw [key z, if_neg h1, if_neg h2, if_pos h3]⟩
      · exact ⟨_, _, _, fun z => by rw [key z, if_neg h1, if_neg h2, if_neg h3]⟩

/-- Storing a `float` in front of the byte `g` does not depend on what follows `g`. -/
theorem storeFloat_guard (neg : Bool) (a : ℚ) (R : List my_byte) (g : my_byte)
    (z : List my_byte) :
    storeFloat neg a (R ++ g :: z)
      = ((storeFloat neg a (R ++ [g])).1,
         { buf := R ++ g :: z, good := !decide (fltOverflow ≤ a) }) := by
  unfold storeFloat
  have hne : (R ++ g :: z).isEmpty = false := by simp
  have hne1 : (R ++ [g]).isEmpty = false := by simp
  by_cases h : fltOverflow ≤ a
  · rw [if_pos h, if_pos h, decide_eq_true h]
    rfl
  · rw [if_neg h, if_neg h, decide_eq_false h, hne]

/-- A `float` extraction that meets a byte other than white space in front of the white
space `g` ends in front of `g`: its result does not depend on what follows `g`. -/
theorem extractFloat_guard (cur : ℚ) (p : List my_byte) (g : my_byte)
    (hg : isspace g = true) (hp : ∃ a ∈ p, isspace a = false) :
    ∃ V R G, ∀ z, extractFloat cur { buf := p ++ g :: z, good := true }
      = (V, { buf := R ++ g :: z, good := G }) := by
  obtain ⟨ws, c, r, rfl, hws, hc⟩ := split_at_nonspace p hp
  obtain ⟨g1, g2, g3, g4, g5, g6, -⟩ := isspace_props g hg
  have e1 : ∀ z, takeDigits (dropSign (c :: (r ++ g :: z)))
      = ((takeDigits (dropSign (c :: r))).1, (takeDigits (dropSign (c :: r))).2 ++ g :: z) :=
    fun z => by
      rw [← List.cons_append, dropSign_guard _ g z g2 g3, takeDigits_guard _ g z g1]
  have e2 : ∀ l z, takeFraction (l ++ g :: z)
      = ((takeFraction l).1, (takeFraction l).2 ++ g :: z) :=
    fun l z => takeFraction_guard l g z g1 g4
  have e3 : ∀ m l z, takeExponent m (l ++ g :: z)
      = ((takeExponent m l).1, (takeExponent m l).2 ++ g :: z) :=
    fun m l z => takeExponent_guard m l g z g1 g2 g3 g5 g6
  have hne : ∀ (l : List my_byte) z, (l ++ g :: z).isEmpty = false := fun l z => by simp
  generalize hA : takeDigits (dropSign (c :: r)) = A at e1
  generalize hB : takeFraction A.2 = B
  generalize hC : takeExponent (!(A.1.isEmpty && B.1.isEmpty)) B.2 = C
  have start : ∀ z, extractFloat cur { buf := (ws ++ c :: r) ++ g :: z, good := true }
      = (match C.1 with
        | none =>
          if (A.1.isEmpty && B.1.isEmpty) = true then
            (0, { buf := C.2 ++ g :: z, good := false })
          else
            storeFloat (decide (c = 45))
              ((digitsValue (A.1 ++ B.1) : ℚ) / (10 : ℚ) ^ B.1.length) (C.2 ++ g :: z)
        | some (eneg, ed) =>
          if ed.isEmpty = true then (0, { buf := C.2 ++ g :: z, good := false })
          else
            storeFloat (decide (c = 45))
              ((digitsValue (A.1 ++ B.1) : ℚ) / (10 : ℚ) ^ B.1.length
                * (if eneg = true then 1 / (10 : ℚ) ^ digitsValue ed
                   else (10 : ℚ) ^ digitsValue ed)) (C.2 ++ g :: z)) := by
    intro z
    unfold extractFloat
    rw [List.append_assoc, List.cons_append, sentry_skip ws c _ hws hc]
    simp only [e1, e2, e3, hB, hC, hne, Bool.not_false, List.head?_cons, Option.some.injEq]
  cases hC1 : C.1 with
  | none =>
    by_cases hm : (A.1.isEmpty && B.1.isEmpty) = true
    · exact ⟨_, C.2, _, fun z => by rw [start z, hC1]; simp only; rw [if_pos hm]⟩
    · exact ⟨_, C.2, _, fun z => by
        rw [start z, hC1]; simp only; rw [if_neg hm, storeFloat_guard]⟩
  | some e =>
    obtain ⟨eneg, ed⟩ := e
    by_cases hm : ed.isEmpty = true
    · exact ⟨_, C.2, _, fun z => by rw [start z, hC1]; simp only; rw [if_pos hm]⟩
    · exact ⟨_, C.2, _, fun z => by
        rw [start z, hC1]; simp only; rw [if_neg hm, storeFloat_guard]⟩

/-! ## Skipping a line -/

/-- Skipping to a newline that is there does not depend on what follows it. -/
theorem dropWhile_newline (p : List my_byte) (h : 10 ∈ p) :
    ∃ R, ∀ z, (p ++ z).dropWhile (fun c => decide (c ≠ 10)) = 10 :: (R ++ z) := by
  induction p with
  | nil => exact absurd h (List.not_mem_nil _)
  | cons b p ih =>
    by_cases hb : b = 10
    · exact ⟨p, fun z => by rw [hb]; simp⟩
    · have : 10 ∈ p := by
        rcases List.mem_cons.1 h with e | e
        · exact absurd e.symm hb
        · exact e
      obtain ⟨R, hR⟩ := ih this
      exact ⟨R, fun z => by rw [List.cons_append, List.dropWhile_cons_of_pos (by simp [hb]), hR z]⟩

/-- A line that ends in front of the byte `g`: the stream after it does not depend on
what follows `g`. -/
theorem skipLine_guard (p : List my_byte) (g : my_byte) (h : 10 ∈ p) :
    ∃ R, ∀ z, skipLine { buf := p ++ g :: z, good := true }
      = { buf := R ++ g :: z, good := true } := by
  obtain ⟨R, hR⟩ := dropWhile_newline p h
  refine ⟨R, fun z => ?_⟩
  unfold skipLine
  simp only [if_true]
  rw [hR]

/-- A line without newline in `p` goes on into what follows `p`. -/
theorem skipLine_cross (p z : List my_byte) (h : ∀ a ∈ p, a ≠ 10) :
    skipLine { buf := p ++ z, good := true } = skipLine { buf := z, good := true } := by
  unfold skipLine
  simp only [if_true]
  rw [List.dropWhile_append_of_pos (by intro a ha; simp [h a ha])]

/-- A line that ends with the newline right in front of `z`. -/
theorem skipLine_newline (p z : List my_byte) (h : ∀ a ∈ p, a ≠ 10) :
    skipLine { buf := p ++ 10 :: z, good := true } = { buf := z, good := true } := by
  rw [skipLine_cross p _ h]
  unfold skipLine
  simp

/-- Skipping a line either ends the stream or shortens it. -/
theorem skipLine_lt (b : List my_byte) :
    (skipLine { buf := b, good := true }).good = false ∨
    (skipLine { buf := b, good := true }).buf.length < b.length := by
  unfold skipLine
  simp only [if_true]
  have := dropWhile_length_le (fun c => decide (c ≠ 10)) b
  split
  · exact Or.inl rfl
  · rename_i hd
    rw [hd] at this
    simp only [List.length_cons] at this
    exact Or.inr (by simp only; omega)

/-! ## The keyword `data` and an inserted line -/

/-- The bytes of the keyword `data`. -/
theorem bytesOf_data : bytesOf "data" = [100, 97, 116, 97] := by decide

/-- After white space only, the keyword `data` followed by white space or by the end of
the stream is the token extracted. -/
theorem extractString_data (line p post : List my_byte)
    (hp : ∀ a ∈ p, isspace a = true) (hpost : ∀ a ∈ post.head?, isspace a = true) :
    extractString line { buf := p ++ (bytesOf "data" ++ post), good := true }
      = (bytesOf "data", { buf := post, good := !post.isEmpty }) := by
  cases post with
  | nil =>
    rw [List.append_nil]
    exact extractString_last line p (bytesOf "data") hp (by decide) (by decide!)
  | cons c rest =>
    have hc : isspace c = true := hpost c (by simp)
    rw [← List.append_assoc]
    exact extractString_token line p (bytesOf "data") c rest hp (by decide) (by decide!) hc

/-- After white space only, an `int` extraction fails at the keyword `data`. -/
theorem extractInt_data (cur : Int) (p post : List my_byte)
    (hp : ∀ a ∈ p, isspace a = true) :
    (extractInt cur { buf := p ++ (bytesOf "data" ++ post), good := true }).2.good = false := by
  rw [bytesOf_data]
  unfold extractInt
  rw [List.cons_append, sentry_skip p 100 _ hp (by decide)]
  have h1 : ∀ r : List my_byte, dropSign (100 :: r) = 100 :: r := fun r => by
    unfold dropSign
    rw [if_neg (by simp)]
  have h2 : ∀ r : List my_byte, (100 :: r).takeWhile isdigit = [] := fun r =>
    List.takeWhile_cons_of_neg (by decide)
  simp only [h1, h2, List.isEmpty_nil, if_true]

/-- After white space only, a `float` extraction fails at the keyword `data`. -/
theorem extractFloat_data (cur : ℚ) (p post : List my_byte)
    (hp : ∀ a ∈ p, isspace a = true) :
    (extractFloat cur { buf := p ++ (bytesOf "data" ++ post), good := true }).2.good
      = false := by
  rw [bytesOf_data]
  unfold extractFloat
  rw [List.cons_append, sentry_skip p 100 _ hp (by decide)]
  have h1 : ∀ r : List my_byte, takeDigits (dropSign (100 :: r)) = ([], 100 :: r) := fun r => by
    unfold dropSign takeDigits
    rw [if_neg (by simp), List.takeWhile_cons_of_neg (by decide),
      List.dropWhile_cons_of_neg (by decide)]
  have h2 : ∀ r : List my_byte, takeFraction (100 :: r) = ([], 100 :: r) := fun r => by
    unfold takeFraction
    rw [if_neg (by simp)]
  have h3 : ∀ r : List my_byte, takeExponent false (100 :: r) = (none, 100 :: r) := fun r => by
    unfold takeExponent
    rw [if_neg (by simp)]
  simp only [h1, h2, List.isEmpty_nil, Bool.and_self, Bool.not_true, h3, if_true]

/-- A line that starts at the keyword `data` swallows it. -/
theorem skipLine_data (post : List my_byte) :
    (skipLine { buf := bytesOf "data" ++ post, good := true }).good = false ∨
    (skipLine { buf := bytesOf "data" ++ post, good := true }).buf.length < post.length := by
  rw [skipLine_cross (bytesOf "data") post (by decide!)]
  exact skipLine_lt post

/-- After white space only, the first token of an inserted line is the token extracted,
and the rest of the line is then skipped. -/
theorem extractString_unknown (line p tok sp z : List my_byte)
    (hp : ∀ a ∈ p, isspace a = true) (hl : UnknownLine tok sp) :
    extractString line { buf := p ++ (tok ++ sp ++ 10 :: z), good := true }
      = (tok, { buf := sp ++ 10 :: z, good := true }) ∧
    skipLine { buf := sp ++ 10 :: z, good := true } = { buf := z, good := true } := by
  obtain ⟨h1, h2, -, -, -, -, h7, h8⟩ := hl
  refine ⟨?_, skipLine_newline sp z h7⟩
  cases sp with
  | nil =>
    have := extractString_token line p tok 10 z hp h1 h2 (by decide)
    simpa [List.append_assoc] using this
  | cons c sp =>
    have hc : isspace c = true := h8 c (by simp)
    have := extractString_token line p tok c (sp ++ 10 :: z) hp h1 h2 hc
    simpa [List.append_assoc] using this

/-! ## A line inserted in front of `data` -/

/-- An extraction from a stream that is not good does nothing. -/
theorem extractInt_bad (cur : Int) (s : ifstream) (h : s.good = false) :
    extractInt cur s = (cur, s) := by
  unfold extractInt sentry
  simp [h]

/-- An extraction from a stream that is not good does nothing. -/
theorem extractFloat_bad (cur : ℚ) (s : ifstream) (h : s.good = false) :
    extractFloat cur s = (cur, s) := by
  unfold extractFloat sentry
  simp [h]

/-- A string extraction does not lengthen the stream. -/
theorem extractString_le (line : List my_byte) (s : ifstream) :
    (extractString line s).2.buf.length ≤ s.buf.length := by
  unfold extractString
  have hl := sentry_length_le s
  generalize sentry s = r at hl ⊢
  obtain ⟨b, s1⟩ := r
  cases b with
  | false => exact hl
  | true =>
    simp only at hl ⊢
    exact le_trans (dropWhile_length_le _ _) hl

/-- The body of the header loop does not lengthen the stream. -/
theorem headerStep_le (h : HeaderState) :
    (headerStep h).input.buf.length ≤ h.input.buf.length := by
  unfold headerStep
  simp only
  have h0 := extractString_le h.line h.input
  split
  · exact h0
  · split
    · exact le_trans (extractInt_le _ _).1 (le_trans (extractInt_le _ _).1
        (le_trans (extractInt_le _ _).1 h0))
    · split
      · exact le_trans (extractFloat_le _ _).1 (le_trans (extractFloat_le _ _).1
          (le_trans (extractFloat_le _ _).1 h0))
      · split
        · exact le_trans (extractFloat_le _ _).1 h0
        · exact le_trans (skipLine_le _).1 h0

/-- The header loop does not lengthen the stream. -/
theorem headerLoop_le (n : Nat) (h : HeaderState) :
    (headerLoop n h).input.buf.length ≤ h.input.buf.length := by
  induction n generalizing h with
  | zero => exact le_refl _
  | succ n ih =>
    rw [headerLoop_step]
    split
    · exact le_trans (ih _) (headerStep_le h)
    · exact le_refl _

/-- From a dead end the header loop does not end with `done` set and `post` left. -/
theorem DeadEnd.final {post : List my_byte} {h : HeaderState} (hd : DeadEnd post h)
    (n : Nat) : ¬ ((headerLoop n h).done = true ∧ (headerLoop n h).input.buf = post) := by
  rintro ⟨h1, h2⟩
  rcases hd with ⟨a, b⟩ | a | ⟨a, b⟩
  · rw [headerLoop_stop n h (by simp [b]), a] at h1
    exact absurd h1 (by simp)
  · have := headerLoop_le n h
    rw [h2] at this
    omega
  · rw [headerLoop_stop n h (by simp [a])] at h2
    rw [h2] at b
    omega

/-- Bytes that end with white space and hold a byte other than white space. -/
theorem Guarded.split {p : List my_byte} (hW : Guarded p)
    (hp : ∃ a ∈ p, isspace a = false) :
    ∃ p0 g, p = p0 ++ [g] ∧ isspace g = true ∧ ∃ a ∈ p0, isspace a = false := by
  rcases hW with rfl | ⟨p0, g, rfl, hg⟩
  · obtain ⟨a, ha, _⟩ := hp
    exact absurd ha (List.not_mem_nil a)
  · refine ⟨p0, g, rfl, hg, ?_⟩
    obtain ⟨a, ha, h⟩ := hp
    rcases List.mem_append.1 ha with e | e
    · exact ⟨a, e, h⟩
    · simp only [List.mem_singleton] at e
      rw [e, hg] at h
      exact absurd h (by simp)

/-- Bytes that hold white space only. -/
theorem all_space_of_not {p : List my_byte} (hp : ¬ ∃ a ∈ p, isspace a = false) :
    ∀ a ∈ p, isspace a = true := by
  intro a ha
  cases h : isspace a with
  | true => rfl
  | false => exact absurd ⟨a, ha, h⟩ hp

/-- A string extraction in front of the keyword `data` and of any other bytes `y`, with
a byte other than white space in the guarded bytes `p`: the same token is extracted,
and guarded bytes are left. -/
theorem extractString_pair (p post y : List my_byte) (hW : Guarded p)
    (hp : ∃ a ∈ p, isspace a = false) :
    ∃ t p1, Guarded p1 ∧ p1 ≠ [] ∧ ∀ line,
      extractString line { buf := p ++ (bytesOf "data" ++ post), good := true }
        = (t, { buf := p1 ++ (bytesOf "data" ++ post), good := true }) ∧
      extractString line { buf := p ++ y, good := true }
        = (t, { buf := p1 ++ y, good := true }) := by
  obtain ⟨p0, g, rfl, hg, hp0⟩ := hW.split hp
  obtain ⟨t, R, h⟩ := extractString_guard p0 g hg hp0
  refine ⟨t, R ++ [g], Or.inr ⟨R, g, rfl, hg⟩, by simp, fun line => ?_⟩
  have e : ∀ (l z : List my_byte), (l ++ [g]) ++ z = l ++ g :: z := fun l z => by simp
  rw [e, e, e, e]
  exact ⟨h line _, h line _⟩

/-- An `int` extraction in front of the keyword `data` and of any other bytes `y`: it
gives the same result and leaves guarded bytes, or it fails in front of the keyword. -/
theorem extractInt_pair (cur : Int) (p post y : List my_byte) (hW : Guarded p) :
    (∃ V p1, Guarded p1 ∧
      extractInt cur { buf := p ++ (bytesOf "data" ++ post), good := true }
        = (V, { buf := p1 ++ (bytesOf "data" ++ post), good := true }) ∧
      extractInt cur { buf := p ++ y, good := true }
        = (V, { buf := p1 ++ y, good := true })) ∨
    (extractInt cur { buf := p ++ (bytesOf "data" ++ post), good := true }).2.good = false := by
  by_cases hp : ∃ a ∈ p, isspace a = false
  · obtain ⟨p0, g, rfl, hg, hp0⟩ := hW.split hp
    obtain ⟨V, R, G, h⟩ := extractInt_guard cur p0 g hg hp0
    have e : ∀ (l z : List my_byte), (l ++ [g]) ++ z = l ++ g :: z := fun l z => by simp
    cases G with
    | false => right; rw [e, h]
    | true =>
      left
      refine ⟨V, R ++ [g], Or.inr ⟨R, g, rfl, hg⟩, ?_⟩
      rw [e, e, e, e]
      exact ⟨h _, h _⟩
  · exact Or.inr (extractInt_data cur p post (all_space_of_not hp))

/-- A `float` extraction in front of the keyword `data` and of any other bytes `y`: it
gives the same result and leaves guarded bytes, or it fails in front of the keyword. -/
theorem extractFloat_pair (cur : ℚ) (p post y : List my_byte) (hW : Guarded p) :
    (∃ V p1, Guarded p1 ∧
      extractFloat cur { buf := p ++ (bytesOf "data" ++ post), good := true }
        = (V, { buf := p1 ++ (bytesOf "data" ++ post), good := true }) ∧
      extractFloat cur { buf := p ++ y, good := true }
        = (V, { buf := p1 ++ y, good := true })) ∨
    (extractFloat cur { buf := p ++ (bytesOf "data" ++ post), good := true }).2.good
      = false := by
  by_cases hp : ∃ a ∈ p, isspace a = false
  · obtain ⟨p0, g, rfl, hg, hp0⟩ := hW.split hp
    obtain ⟨V, R, G, h⟩ := extractFloat_guard cur p0 g hg hp0
    have e : ∀ (l z : List my_byte), (l ++ [g]) ++ z = l ++ g :: z := fun l z => by simp
    cases G with
    | false => right; rw [e, h]
    | true =>
      left
      refine ⟨V, R ++ [g], Or.inr ⟨R, g, rfl, hg⟩, ?_⟩
      rw [e, e, e, e]
      exact ⟨h _, h _⟩
  · exact Or.inr (extractFloat_data cur p post (all_space_of_not hp))

/-- Skipping a line in front of the keyword `data` and of any other bytes `y`: the line
ends in the bytes `p` and guarded bytes are left, or in front of the keyword the line
swallows the keyword. -/
theorem skipLine_pair (p post y : List my_byte) (hW : Guarded p) (hne : p ≠ []) :
    (∃ p1, Guarded p1 ∧
      skipLine { buf := p ++ (bytesOf "data" ++ post), good := true }
        = { buf := p1 ++ (bytesOf "data" ++ post), good := true } ∧
      skipLine { buf := p ++ y, good := true } = { buf := p1 ++ y, good := true }) ∨
    ((skipLine { buf := p ++ (bytesOf "data" ++ post), good := true }).good = false ∨
      (skipLine { buf := p ++ (bytesOf "data" ++ post), good := true }).buf.length
        < post.length) := by
  rcases hW with rfl | ⟨p0, g, rfl, hg⟩
  · exact absurd rfl hne
  · have e : ∀ (l z : List my_byte), (l ++ [g]) ++ z = l ++ g :: z := fun l z => by simp
    by_cases h10 : 10 ∈ p0
    · obtain ⟨R, h⟩ := skipLine_guard p0 g h10
      left
      refine ⟨R ++ [g], Or.inr ⟨R, g, rfl, hg⟩, ?_⟩
      rw [e, e, e, e]
      exact ⟨h _, h _⟩
    · have hno : ∀ a ∈ p0, a ≠ 10 := fun a ha he => h10 (he ▸ ha)
      by_cases hg10 : g = 10
      · left
        refine ⟨[], Or.inl rfl, ?_⟩
        rw [e, e, hg10]
        exact ⟨skipLine_newline p0 _ hno, skipLine_newline p0 _ hno⟩
      · right
        rw [skipLine_cross (p0 ++ [g]) _ (by
          intro a ha
          rcases List.mem_append.1 ha with h1 | h1
          · exact hno a h1
          · simp only [List.mem_singleton] at h1
            rw [h1]; exact hg10)]
        exact skipLine_data post

/-- The body of the header loop once the token extracted is known. -/
theorem headerStep_of (h : HeaderState) (t : List my_byte) (s1 : ifstream)
    (hs : extractString h.line h.input = (t, s1)) :
    headerStep h
      = if t = bytesOf "data" then { h with line := t, input := s1, done := true }
        else if t = bytesOf "dim" then
          { h with
            line := t,
            input := (extractInt h.v.width (extractInt h.v.height
              (extractInt h.v.depth s1).2).2).2,
            v := { h.v with
              depth := (extractInt h.v.depth s1).1,
              height := (extractInt h.v.height (extractInt h.v.depth s1).2).1,
              width := (extractInt h.v.width (extractInt h.v.height
                (extractInt h.v.depth s1).2).2).1 } }
        else if t = bytesOf "translate" then
          { h with
            line := t,
            input := (extractFloat h.v.tz (extractFloat h.v.ty (extractFloat h.v.tx s1).2).2).2,
            v := { h.v with
              tx := (extractFloat h.v.tx s1).1,
              ty := (extractFloat h.v.ty (extractFloat h.v.tx s1).2).1,
              tz := (extractFloat h.v.tz (extractFloat h.v.ty (extractFloat h.v.tx s1).2).2).1 } }
        else if t = bytesOf "scale" then
          { h with
            line := t,
            input := (extractFloat h.v.scale s1).2,
            v := { h.v with scale := (extractFloat h.v.scale s1).1 } }
        else { h with line := t, input := skipLine s1 } := by
  unfold headerStep
  rw [hs]

/-- One iteration of the header loop in a file and in the file with the inserted line:
the two states stay related, or the loop of the file has come to a dead end, or the
loop of the file has read the keyword `data` in front of `post` while the other loop
has read the inserted line and is in front of that keyword. -/
theorem headerStep_insert (tok sp post : List my_byte) (h h' : HeaderState)
    (hl : UnknownLine tok sp) (hpost : ∀ a ∈ post.head?, isspace a = true)
    (hrel : InsertRel tok sp post h h') :
    InsertRel tok sp post (headerStep h) (headerStep h') ∨ DeadEnd post (headerStep h) ∨
    ((headerStep h).done = true ∧
      (headerStep h).input = { buf := post, good := !post.isEmpty } ∧
      (headerStep h).v = h.v ∧ (headerStep h').done = false ∧
      (headerStep h').input = { buf := bytesOf "data" ++ post, good := true } ∧
      (headerStep h').v = h.v) := by
  obtain ⟨p, hW, hi, hi', hv, hd, hd'⟩ := hrel
  by_cases hp : ∃ a ∈ p, isspace a = false
  · unfold InsertRel
    generalize tok ++ sp ++ 10 :: (bytesOf "data" ++ post) = y at hi' ⊢
    obtain ⟨t, p1, hW1, hne1, hstr⟩ := extractString_pair p post y hW hp
    have hs := (hstr h.line).1
    have hs' := (hstr h'.line).2
    rw [← hi] at hs
    rw [← hi'] at hs'
    rw [headerStep_of h t _ hs, headerStep_of h' t _ hs']
    by_cases c1 : t = bytesOf "data"
    · rw [if_pos c1, if_pos c1]
      right; left
      refine Or.inr (Or.inr ⟨rfl, ?_⟩)
      simp only [List.length_append]
      have : 0 < (bytesOf "data").length := by decide
      omega
    · rw [if_neg c1, if_neg c1]
      by_cases c2 : t = bytesOf "dim"
      · rw [if_pos c2, if_pos c2, hv]
        rcases extractInt_pair h.v.depth p1 post y hW1 with ⟨V1, q1, w1, a1, b1⟩ | bad
        · rcases extractInt_pair h.v.height q1 post y w1 with ⟨V2, q2, w2, a2, b2⟩ | bad
          · rcases extractInt_pair h.v.width q2 post y w2 with ⟨V3, q3, w3, a3, b3⟩ | bad
            · left
              refine ⟨q3, w3, ?_, ?_, ?_, hd, hd'⟩
              · simp only [a1, a2, a3]
              · simp only [b1, b2, b3]
              · simp only [a1, a2, a3, b1, b2, b3]
            · right; left
              refine Or.inl ⟨hd, ?_⟩
              simp only [a1, a2]
              exact bad
          · right; left
            refine Or.inl ⟨hd, ?_⟩
            simp only [a1]
            rw [extractInt_bad _ _ bad]
            exact bad
        · right; left
          refine Or.inl ⟨hd, ?_⟩
          simp only
          rw [extractInt_bad h.v.height _ bad, extractInt_bad h.v.width _ bad]
          exact bad
      · rw [if_neg c2, if_neg c2]
        by_cases c3 : t = bytesOf "translate"
        · rw [if_pos c3, if_pos c3, hv]
          rcases extractFloat_pair h.v.tx p1 post y hW1 with ⟨V1, q1, w1, a1, b1⟩ | bad
          · rcases extractFloat_pair h.v.ty q1 post y w1 with ⟨V2, q2, w2, a2, b2⟩ | bad
            · rcases extractFloat_pair h.v.tz q2 post y w2 with ⟨V3, q3, w3, a3, b3⟩ | bad
              · left
                refine ⟨q3, w3, ?_, ?_, ?_, hd, hd'⟩
                · simp only [a1, a2, a3]
                · simp only [b1, b2, b3]
                · simp only [a1, a2, a3, b1, b2, b3]
              · right; left
                refine Or.inl ⟨hd, ?_⟩
                simp only [a1, a2]
                exact bad
            · right; left
              refine Or.inl ⟨hd, ?_⟩
              simp only [a1]
              rw [extractFloat_bad _ _ bad]
              exact bad
          · right; left
            refine Or.inl ⟨hd, ?_⟩
            simp only
            rw [extractFloat_bad h.v.ty _ bad, extractFloat_bad h.v.tz _ bad]
            exact bad
        · rw [if_neg c3, if_neg c3]
          by_cases c4 : t = bytesOf "scale"
          · rw [if_pos c4, if_pos c4, hv]
            rcases extractFloat_pair h.v.scale p1 post y hW1 with ⟨V1, q1, w1, a1, b1⟩ | bad
            · left
              refine ⟨q1, w1, ?_, ?_, ?_, hd, hd'⟩
              · simp only [a1]
              · simp only [b1]
              · simp only [a1, b1]
            · right; left
              exact Or.inl ⟨hd, bad⟩
          · rw [if_neg c4, if_neg c4]
            rcases skipLine_pair p1 post y hW1 hne1 with ⟨q1, w1, a1, b1⟩ | bad | bad
            · left
              exact ⟨q1, w1, a1, b1, hv, hd, hd'⟩
            · right; left
              exact Or.inl ⟨hd, bad⟩
            · right; left
              exact Or.inr (Or.inl bad)
  · have hall := all_space_of_not hp
    have hs := extractString_data h.line p post hall hpost
    obtain ⟨hs', hk⟩ := extractString_unknown h'.line p tok sp (bytesOf "data" ++ post) hall hl
    rw [← hi] at hs
    rw [← hi'] at hs'
    obtain ⟨-, -, k1, k2, k3, k4, -, -⟩ := hl
    rw [headerStep_of h _ _ hs, headerStep_of h' _ _ hs', if_pos rfl, if_neg k1, if_neg k2,
      if_neg k3, if_neg k4, hk]
    right; right
    exact ⟨rfl, rfl, rfl, hd', rfl, hv⟩

/-- The header loop in a file and in the file with the inserted line: when the loop of
the file ends with `done` set and `post` left, one more iteration lets the other loop
end with the same variables and the same stream. -/
theorem headerLoop_insert (tok sp post : List my_byte)
    (hl : UnknownLine tok sp) (hpost : ∀ a ∈ post.head?, isspace a = true)
    (n : Nat) (h h' : HeaderState) (hrel : InsertRel tok sp post h h')
    (hdone : (headerLoop n h).done = true) (hbuf : (headerLoop n h).input.buf = post) :
    (headerLoop (n + 1) h').done = true ∧ (headerLoop (n + 1) h').v = (headerLoop n h).v ∧
    (headerLoop (n + 1) h').input = (headerLoop n h).input := by
  induction n generalizing h h' with
  | zero =>
    obtain ⟨p, _, _, _, _, hd, _⟩ := hrel
    rw [headerLoop, hd] at hdone
    exact absurd hdone (by simp)
  | succ n ih =>
    have hgo : (h.input.good && !h.done) = true := by
      obtain ⟨p, _, hi, _, _, hd, _⟩ := hrel
      rw [hi, hd]; rfl
    have hgo' : (h'.input.good && !h'.done) = true := by
      obtain ⟨p, _, _, hi', _, _, hd'⟩ := hrel
      rw [hi', hd']; rfl
    rw [headerLoop_step n h, if_pos hgo] at hdone hbuf ⊢
    rw [headerLoop_step (n + 1) h', if_pos hgo']
    rcases headerStep_insert tok sp post h h' hl hpost hrel with hr | hdead | hc
    · exact ih _ _ hr hdone hbuf
    · exact absurd ⟨hdone, hbuf⟩ (hdead.final n)
    · obtain ⟨c1, c2, c3, c4, c5, c6⟩ := hc
      have hstop : headerLoop n (headerStep h) = headerStep h :=
        headerLoop_stop n _ (by simp [c1])
      have hgo2 : ((headerStep h').input.good && !(headerStep h').done) = true := by
        rw [c5, c4]; rfl
      have hs := extractString_data (headerStep h').line [] post (by simp) hpost
      rw [List.nil_append, ← c5] at hs
      have hstep : headerStep (headerStep h')
          = { headerStep h' with line := bytesOf "data",
                                 input := { buf := post, good := !post.isEmpty },
                                 done := true } := by
        rw [headerStep_of _ _ _ hs, if_pos rfl]
      rw [hstop, headerLoop_step n _, if_pos hgo2, hstep, headerLoop_stop n _ (by simp)]
      exact ⟨rfl, by rw [c3]; exact c6, by rw [c2]⟩

/-- C13: in a file whose header is read with success, `data` being the keyword, after
white space and followed by white space or the end of the file, at which the header
ends, a line inserted in front of that keyword which ends at a newline and starts with
a token other than `data`, `dim`, `translate` and `scale` changes nothing: the header is
read with success, with the same variables (dimensions, translation, scale) and the same
stream left after the keyword, whatever the rest of the line holds. -/
theorem header_insert_line (v w : Locals) (pre tok sp post : List my_byte) (g : my_byte)
    (input : ifstream) (hg : isspace g = true) (hl : UnknownLine tok sp)
    (hpost : ∀ a ∈ post.head?, isspace a = true)
    (hok : readHeader (pre ++ g :: (bytesOf "data" ++ post)) v = Except.ok (w, input))
    (hin : input.buf = post) :
    readHeader (pre ++ g :: (tok ++ sp ++ 10 :: (bytesOf "data" ++ post))) v
      = Except.ok (w, input) := by
  have e : ∀ z : List my_byte, pre ++ g :: z = (pre ++ [g]) ++ z := fun z => by simp
  have hW : Guarded (pre ++ [g]) := Or.inr ⟨pre, g, rfl, hg⟩
  rw [e] at hok ⊢
  generalize hy : tok ++ sp ++ 10 :: (bytesOf "data" ++ post) = y
  have hylen : (bytesOf "data" ++ post).length + 1 ≤ y.length := by
    rw [← hy]
    have : 0 < tok.length := List.length_pos.2 hl.1
    simp only [List.length_append, List.length_cons]
    omega
  rw [readHeader_eq] at hok ⊢
  -- the outcome of the file tells how its header loop ends
  by_cases hm : firstToken ((pre ++ [g]) ++ (bytesOf "data" ++ post)) ≠ bytesOf "#binvox"
  · rw [if_pos hm] at hok
    exact absurd hok (by simp)
  rw [if_neg hm] at hok
  by_cases hdn : (headerEnd ((pre ++ [g]) ++ (bytesOf "data" ++ post)) v).done = false
  · rw [if_pos hdn] at hok
    exact absurd hok (by simp)
  rw [if_neg hdn] at hok
  by_cases hdp : (headerEnd ((pre ++ [g]) ++ (bytesOf "data" ++ post)) v).v.depth = -1
  · rw [if_pos hdp] at hok
    exact absurd hok (by simp)
  rw [if_neg hdp] at hok
  simp only [Except.ok.injEq, Prod.mk.injEq] at hok
  obtain ⟨hw, hinp⟩ := hok
  simp only [ne_eq, Decidable.not_not] at hm
  simp only [Bool.not_eq_false] at hdn
  -- the magic string and the version are read in front of the keyword
  by_cases hp : ∃ a ∈ pre ++ [g], isspace a = false
  · obtain ⟨t, p1, hW1, _, hstr⟩ := extractString_pair (pre ++ [g]) post y hW hp
    obtain ⟨hs, hs'⟩ := hstr []
    have ht : t = bytesOf "#binvox" := by
      rw [← hm, ← extractString_firstToken, hs]
    have hm' : firstToken ((pre ++ [g]) ++ y) = bytesOf "#binvox" := by
      rw [← extractString_firstToken, hs', ht]
    rcases extractInt_pair v.version p1 post y hW1 with ⟨V, q1, w1, a1, b1⟩ | bad
    · have hst : headerStart ((pre ++ [g]) ++ (bytesOf "data" ++ post)) v
          = { line := t, done := false,
              input := { buf := q1 ++ (bytesOf "data" ++ post), good := true },
              v := { v with version := V, depth := -1 } } := by
        unfold headerStart
        rw [hs, a1]
      have hst' : headerStart ((pre ++ [g]) ++ y) v
          = { line := t, done := false, input := { buf := q1 ++ y, good := true },
              v := { v with version := V, depth := -1 } } := by
        unfold headerStart
        rw [hs', b1]
      have hrel : InsertRel tok sp post
          (headerStart ((pre ++ [g]) ++ (bytesOf "data" ++ post)) v)
          (headerStart ((pre ++ [g]) ++ y) v) := by
        rw [hst, hst']
        exact ⟨q1, w1, rfl, by rw [hy], rfl, rfl, rfl⟩
      have hfuel : headerLoop (q1 ++ y).length
            (headerStart ((pre ++ [g]) ++ (bytesOf "data" ++ post)) v)
          = headerEnd ((pre ++ [g]) ++ (bytesOf "data" ++ post)) v := by
        unfold headerEnd
        apply headerLoop_enough
        rw [hst]
        simp only [List.length_append] at hylen ⊢
        omega
      have hend' : headerEnd ((pre ++ [g]) ++ y) v
          = headerLoop ((q1 ++ y).length + 1) (headerStart ((pre ++ [g]) ++ y) v) := by
        unfold headerEnd
        rw [hst']
      obtain ⟨r1, r2, r3⟩ := headerLoop_insert tok sp post hl hpost (q1 ++ y).length _ _ hrel
        (by rw [hfuel]; exact hdn) (by rw [hfuel, hinp]; exact hin)
      rw [hfuel, ← hend'] at r2 r3
      rw [← hend'] at r1
      rw [if_neg (not_not.2 hm'), if_neg (by rw [r1]; decide), r2, if_neg hdp, r3, hw, hinp]
    · exfalso
      have hst : (headerStart ((pre ++ [g]) ++ (bytesOf "data" ++ post)) v).input.good
          = false := by
        unfold headerStart
        rw [hs]
        exact bad
      have hstop : headerEnd ((pre ++ [g]) ++ (bytesOf "data" ++ post)) v
          = headerStart ((pre ++ [g]) ++ (bytesOf "data" ++ post)) v := by
        unfold headerEnd
        exact headerLoop_stop _ _ (by rw [hst, Bool.false_and]; decide)
      rw [hstop] at hdn
      exact absurd hdn (by simp [headerStart])
  · exfalso
    have hs := extractString_data [] (pre ++ [g]) post (all_space_of_not hp) hpost
    rw [← extractString_firstToken, hs] at hm
    have hne : bytesOf "data" ≠ bytesOf "#binvox" := by decide
    exact hne hm

/-- Witness of C13: the line `comment dim 9 9 9 data` inserted in front of the keyword
`data` of the sample file; the header is read as before, with depth 1, height 5 and
width 4, and the newline and the payload are left in the stream. -/
theorem header_insert_line_witness :
    UnknownLine (bytesOf "comment") (bytesOf " dim 9 9 9 data") ∧
    sampleHeaderLines ++ 10 :: (bytesOf "data" ++ samplePost) = sampleFile ∧
    ((headerEnd sampleFile sampleLocals).v.depth = 1 ∧
      (headerEnd sampleFile sampleLocals).v.height = 5 ∧
      (headerEnd sampleFile sampleLocals).v.width = 4 ∧
      (headerEnd sampleFile sampleLocals).input = { buf := samplePost, good := true }) ∧
    readHeader
        (sampleHeaderLines ++ 10 :: (bytesOf "comment" ++ bytesOf " dim 9 9 9 data"
          ++ 10 :: (bytesOf "data" ++ samplePost))) sampleLocals
      = Except.ok ((headerEnd (sampleHeaderLines ++ 10 :: (bytesOf "data" ++ samplePost))
            sampleLocals).v,
          (headerEnd (sampleHeaderLines ++ 10 :: (bytesOf "data" ++ samplePost))
            sampleLocals).input) :=
  ⟨by unfold UnknownLine; decide!, by decide!, by decide!,
    header_insert_line sampleLocals _ sampleHeaderLines (bytesOf "comment")
      (bytesOf " dim 9 9 9 data") samplePost 10 _ (by decide)
      (by unfold UnknownLine; decide!) (by decide!)
      (by rw [readHeader_eq, if_neg (by decide!), if_neg (by decide!), if_neg (by decide!)])
      (by decide!)⟩

/-! ## Occupied voxels without `mark_free` and without box -/

/-- With `mark_free` off and no bounding box the calls for consecutive voxels are the
occupied updates of the voxels of value 1, in increasing order of the indices. -/
theorem valuesCalls_unmarked (rot : point3d → point3d) (v : Locals) (res : ℚ)
    (hmf : v.mark_free = false) (hbb : v.applyBBX = false) (vals : List my_byte) (i : Int) :
    valuesCalls rot v res vals i = occupiedCalls rot v res vals i := by
  induction vals generalizing i with
  | nil => simp [valuesCalls, occupiedCalls, indicesFrom]
  | cons a vals ih =>
    have hcall : voxelCall rot v res a i
        = if a = 1 then [TreeCall.updateNode (endpoint rot v res i) true true] else [] := by
      unfold voxelCall
      rw [inBBX_not_applied v _ hbb, hmf]
      by_cases ha : a = 1
      · simp [ha]
      · have : (a == 1) = false := by simpa using ha
        simp [ha, this]
    rw [valuesCalls, ih (i + 1), hcall]
    unfold occupiedCalls
    rw [List.length_cons, indicesFrom_succ, List.zip_cons_cons, List.filterMap_cons]
    by_cases ha : a = 1
    · simp [ha]
    · simp [ha]

/-- For the runs that no division by zero ends: with `mark_free` off and no bounding
box, a payload decoded to its end has sent to the tree
one occupied update per index of a value-1 run, in increasing order of the indices, at
the point of that index, and no other call. -/
theorem readVoxels_unmarked (rot : point3d → point3d) (v : Locals) (res : ℚ) (t : OcTree)
    (bytes : List my_byte) (hmf : v.mark_free = false) (hbb : v.applyBBX = false)
    (hfin : (readVoxels rot v res t bytes).1 = LoopExit.complete ∨
      (readVoxels rot v res t bytes).1 = LoopExit.exhausted) :
    (readVoxels rot v res t bytes).2.tree
      = t.addCalls (occupiedCalls rot v res (expand (readVoxels rot v res t bytes).2.pairs) 0) ∧
    freeUpdates (occupiedCalls rot v res (expand (readVoxels rot v res t bytes).2.pairs) 0)
      = 0 := by
  obtain ⟨new, rest, done, p1, p2, p3, p4, p5, p6, p7, e1, e2, e3, e4⟩ :=
    readVoxels_spec rot v res t bytes
  have hd : done = (readVoxels rot v res t bytes).2.pairs := by
    rw [p1]
    rcases hfin with h | h
    · rw [(e1 h).1]; rfl
    · rw [(e2 h).1]; rfl
  constructor
  · rw [p6, hd, valuesCalls_unmarked rot v res hmf hbb]
    rfl
  · unfold freeUpdates occupiedCalls
    rw [List.length_eq_zero, List.filter_eq_nil_iff]
    intro c hc
    simp only [List.mem_filterMap] at hc
    obtain ⟨p, _, hp⟩ := hc
    split at hp
    · simp only [Option.some.injEq] at hp
      rw [← hp]
      simp
    · exact absurd hp (by simp)

end Binvox2bt
